import Mathlib

/-!
# klippa-app/tiff: block geometry, predictor reversal and block codecs

A shallow embedding of `compress.go` and `tiff_ifd_block.go`.

Conventions of the embedding:

* a byte slice `[]byte` is a `List Nat`; every `uint8` / `uint16` operation of the
  source is written with an explicit `% 256` / `% 65536`;
* Go `int` / `int64` values are mathematical integers (`Int`); Go's `/` and `%` on
  them are `Int.tdiv` and `Int.tmod` (truncation towards zero);
* an `io.Reader` over a block is the list of the bytes it still has to deliver,
  followed by `io.EOF`;
* a Go `error` is a `GoError`, `nil` is `none`;
* a run-time panic (slice index out of range, integer division by zero, failed type
  assertion) is an explicit outcome, so that "never indexes out of range" is a
  statement about the model;
* the directory is reached through the tag accessor `p.TagGetter()` and the accessors
  `ImageType()`, `Depth()`, `Channels()`, `Compression()`, `Bounds()`.  Their
  declarations are not among the sources at hand (`tiff_ifd_helper.go` holds an older
  variant: its `TagGetter` is a stub and its `Compression` has another type than the
  one `DecodeBlock` calls `Decode` on), so the tag values and the accessor values are
  the parameters `TagGetter` and `IFD` of the model;
* code outside the repository (`image/jpeg`, `compress/zlib`, `image/draw`, the fax
  and LZW readers) is a parameter, `Codecs`.
-/

namespace Tiff

/-! ## Basic Go values -/

/-- Go `error` values that the decoder produces or forwards. -/
inductive GoError where
  | EOF
  | ErrUnexpectedEOF
  | msg (s : String)
  | wrapped (s : String) (cause : GoError)
  deriving DecidableEq, Repr

/-- Go `image.Point`. -/
structure Point where
  X : Int
  Y : Int
  deriving DecidableEq, Repr

/-- Go `image.Rectangle`. -/
structure Rectangle where
  Min : Point
  Max : Point
  deriving DecidableEq, Repr

/-- The concrete buffer types of package `image` that the decoder allocates. -/
inductive ImageKind where
  | Gray
  | Gray16
  | Paletted
  | RGBA
  | RGBA64
  | NRGBA
  | NRGBA64
  | CMYK
  | YCbCr
  deriving DecidableEq, Repr

/-- A pixel buffer of package `image`: the fields `Pix`, `Stride`, `Rect` that all
buffer types share, tagged with the concrete type. -/
structure Image where
  kind : ImageKind
  Pix : List Nat
  Stride : Int
  Rect : Rectangle
  deriving DecidableEq, Repr

/-- The triple `(data []byte, img image.Image, err error)` that every codec returns;
`none` is Go's `nil`. -/
structure DecodeResult where
  data : Option (List Nat)
  img : Option Image
  err : Option GoError
  deriving DecidableEq, Repr

/-- The value of a Go expression of type `int` or `int64` (64 bits, two's complement):
the exact result wrapped into `[-2^63, 2^63)`.  For an expression built from `+`, `-`
and `*`, wrapping after every operation gives the value of wrapping the exact result
once. -/
def goInt (x : Int) : Int :=
  (x + 9223372036854775808) % 18446744073709551616 - 9223372036854775808

/-- Go's conversion `int(int8(b))` of a byte to a signed value. -/
def int8 (b : Nat) : Int :=
  if b % 256 < 128 then ((b % 256 : Nat) : Int) else ((b % 256 : Nat) : Int) - 256

/-- Go's conversion `byte(c)` of a signed value to a byte (two's complement). -/
def byteOfInt (c : Int) : Nat := (c % 256).toNat

/-! ## compress.go: PackBits -/

/-- The call `io.ReadFull(br, buf[:n])` on a stream holding `input`: the `n` bytes read and
the rest of the stream, `io.EOF` when nothing could be read, `io.ErrUnexpectedEOF`
when the stream ends inside the `n` bytes. -/
def readFull (input : List Nat) (n : Nat) : Except GoError (List Nat × List Nat) :=
  if n ≤ input.length then .ok (input.take n, input.drop n)
  else if input.length = 0 then .error GoError.EOF
  else .error GoError.ErrUnexpectedEOF

/-- The `for` loop of `decode_PackBits`: `input` is what the reader still holds, `dst`
the bytes decoded so far.  Every iteration consumes at least one byte, `fuel` bounds
the number of iterations. -/
def packBitsLoop : Nat → List Nat → List Nat → DecodeResult
  | 0, _, _ => ⟨none, none, some (GoError.msg "packBitsLoop: out of fuel")⟩
  | fuel + 1, input, dst =>
    match input with
    | [] => ⟨some dst, none, none⟩
    | b :: rest =>
      let code := int8 b
      if 0 ≤ code then
        match readFull rest (code + 1).toNat with
        | .error e => ⟨none, none, some e⟩
        | .ok (buf, rest1) => packBitsLoop fuel rest1 (dst ++ buf)
      else if code = -128 then
        packBitsLoop fuel rest dst
      else
        match rest with
        | [] => ⟨none, none, some GoError.EOF⟩
        | b1 :: rest1 => packBitsLoop fuel rest1 (dst ++ List.replicate (1 - code).toNat b1)

/-- Go method `TagValue_CompressionType.decode_PackBits` on a reader holding `input`. -/
def decode_PackBits (input : List Nat) : DecodeResult :=
  packBitsLoop (input.length + 1) input []

/-! ### PackBits encoding of a run, as the format describes it -/

/-- A run of the PackBits format: literal bytes, or one byte repeated `n` times. -/
inductive Run where
  | literal (bs : List Nat)
  | repeated (b : Nat) (n : Nat)
  deriving DecidableEq, Repr

/-- A run is well formed when it stands for between 1 and 128 bytes. -/
def Run.WellFormed : Run → Prop
  | .literal bs => 1 ≤ bs.length ∧ bs.length ≤ 128
  | .repeated _ n => 1 ≤ n ∧ n ≤ 128

instance (r : Run) : Decidable r.WellFormed := by
  cases r <;> unfold Run.WellFormed <;> infer_instance

/-- The packet of a run: control byte `n-1` and the `n` literal bytes, or the signed
control byte `1-n` and the repeated byte. -/
def Run.encode : Run → List Nat
  | .literal bs => (bs.length - 1) :: bs
  | .repeated b n => [byteOfInt (1 - (n : Int)), b]

/-- The bytes a run stands for. -/
def Run.expand : Run → List Nat
  | .literal bs => bs
  | .repeated b n => List.replicate n b

/-! ## Outcomes of Go code that may return an error or panic -/

/-- The outcome of running a Go function: it returns its value, returns a non-nil
`error`, or panics at run time (index out of range, integer division by zero). -/
inductive Outcome (α : Type) where
  | ok (a : α)
  | error (e : GoError)
  | panic
  deriving DecidableEq, Repr

/-- Sequencing of Go statements: an error return or a panic ends the function. -/
def Outcome.bind {α β : Type} (x : Outcome α) (f : α → Outcome β) : Outcome β :=
  match x with
  | .ok a => f a
  | .error e => .error e
  | .panic => .panic

instance : Monad Outcome where
  pure := Outcome.ok
  bind := Outcome.bind

/-- Go's integer division `a / b` on `int64`: truncation towards zero, panic on `b = 0`;
the quotient wraps (the one case is the least `int64` divided by `-1`). -/
def goDiv (a b : Int) : Outcome Int :=
  if b = 0 then .panic else .ok (goInt (a.tdiv b))

/-- Go's integer remainder `a % b`: sign of the dividend, panic on `b = 0`. -/
def goMod (a b : Int) : Outcome Int :=
  if b = 0 then .panic else .ok (a.tmod b)

/-- Go's index expression `xs[i]` on a slice: panic when `i` is out of range. -/
def goIndex {α : Type} (xs : List α) (i : Int) : Outcome α :=
  if i < 0 then .panic
  else match xs[i.toNat]? with
    | some v => .ok v
    | none => .panic

/-! ## The directory (IFD) as the block pipeline sees it -/

/-- Modelled from the spec: the tag accessor capability `TagGetter` (its declaration is
not part of the sources at hand): a read-only map from tag to typed value, "each
lookup returning a presence flag".  A field is `none` when the tag is absent; a getter
`GetX` returns `(value, ok)` with Go's zero value when the tag is absent. -/
structure TagGetter where
  ImageWidth : Option Int := none
  ImageLength : Option Int := none
  TileWidth : Option Int := none
  TileLength : Option Int := none
  RowsPerStrip : Option Int := none
  TileOffsets : Option (List Int) := none
  TileByteCounts : Option (List Int) := none
  StripOffsets : Option (List Int) := none
  StripByteCounts : Option (List Int) := none
  Predictor : Option Int := none
  JPEGTables : Option (List Nat) := none
  YCbCrSubSampling : Option (List Int) := none
  deriving DecidableEq, Repr

/-- A getter of an integer tag: `(value int64, ok bool)`. -/
def getInt (v : Option Int) : Int × Bool := (v.getD 0, v.isSome)

/-- A getter of an array tag: `(value []int64, ok bool)`; the value is `nil` when absent. -/
def getInts (v : Option (List Int)) : List Int × Bool := (v.getD [], v.isSome)

def TagGetter.GetImageWidth (t : TagGetter) : Int × Bool := getInt t.ImageWidth
def TagGetter.GetImageLength (t : TagGetter) : Int × Bool := getInt t.ImageLength
def TagGetter.GetTileWidth (t : TagGetter) : Int × Bool := getInt t.TileWidth
def TagGetter.GetTileLength (t : TagGetter) : Int × Bool := getInt t.TileLength
def TagGetter.GetRowsPerStrip (t : TagGetter) : Int × Bool := getInt t.RowsPerStrip
def TagGetter.GetTileOffsets (t : TagGetter) : List Int × Bool := getInts t.TileOffsets
def TagGetter.GetTileByteCounts (t : TagGetter) : List Int × Bool := getInts t.TileByteCounts
def TagGetter.GetStripOffsets (t : TagGetter) : List Int × Bool := getInts t.StripOffsets
def TagGetter.GetStripByteCounts (t : TagGetter) : List Int × Bool := getInts t.StripByteCounts
def TagGetter.GetPredictor (t : TagGetter) : Int × Bool := getInt t.Predictor
def TagGetter.GetYCbCrSubSampling (t : TagGetter) : List Int × Bool :=
  getInts t.YCbCrSubSampling

/-- Go `image.Rect`: the rectangle with the given corners, put in canonical order. -/
def Rect (x0 y0 x1 y1 : Int) : Rectangle :=
  let (x0, x1) := if x0 > x1 then (x1, x0) else (x0, x1)
  let (y0, y1) := if y0 > y1 then (y1, y0) else (y0, y1)
  ⟨⟨x0, y0⟩, ⟨x1, y1⟩⟩

/-- Go `Rectangle.Dx`. -/
def Rectangle.Dx (r : Rectangle) : Int := r.Max.X - r.Min.X

/-- Go `Rectangle.Dy`. -/
def Rectangle.Dy (r : Rectangle) : Int := r.Max.Y - r.Min.Y

/-! ## tiff_ifd_block.go: block geometry -/

/-- Go method `IFD.BlocksAcross`; the only division is guarded by `blockWidth > 0`.  The
sum `imageWidth + blockWidth - 1` is an `int64` and wraps. -/
def BlocksAcross (t : TagGetter) : Int :=
  let imageWidth := t.GetImageWidth.1
  if imageWidth = 0 then 0
  else
    let blockWidth := t.GetTileWidth.1
    if blockWidth > 0 then (goInt (imageWidth + blockWidth - 1)).tdiv blockWidth
    else 1

/-- Go method `IFD.BlocksDown`; the sums `imageHeight + blockHeight - 1` are `int64` and
wrap. -/
def BlocksDown (t : TagGetter) : Outcome Int :=
  let imageHeight := t.GetImageLength.1
  if imageHeight = 0 then .ok 0
  else
    let blockHeight := t.GetTileLength.1
    if blockHeight > 0 then .ok ((goInt (imageHeight + blockHeight - 1)).tdiv blockHeight)
    else
      let blockHeight := t.GetRowsPerStrip.1
      let blockHeight := if blockHeight = 0 ∨ blockHeight > imageHeight then imageHeight
        else blockHeight
      goDiv (goInt (imageHeight + blockHeight - 1)) blockHeight

/-- Go method `IFD.BlockBounds`; the products and sums of the corners are `int` and wrap. -/
def BlockBounds (t : TagGetter) (col row : Int) : Outcome Rectangle := do
  let blocksAcross := BlocksAcross t
  let blocksDown ← BlocksDown t
  if col < 0 ∨ row < 0 ∨ col ≥ blocksAcross ∨ row ≥ blocksDown then
    return ⟨⟨0, 0⟩, ⟨0, 0⟩⟩
  if t.GetTileWidth.2 then
    let blockWidth := t.GetTileWidth.1
    let blockHeight := t.GetTileLength.1
    let blkW := blockWidth
    let blkH := blockHeight
    let xmin := goInt (col * blockWidth)
    let ymin := goInt (row * blockHeight)
    let xmax := goInt (xmin + blkW)
    let ymax := goInt (ymin + blkH)
    return Rect xmin ymin xmax ymax
  else
    let imageWidth := t.GetImageWidth.1
    let imageHeight := t.GetImageLength.1
    let blockWidth := imageWidth
    let (blockHeight, ok) := t.GetRowsPerStrip
    let blockHeight := if !ok ∨ blockHeight = 0 then imageHeight else blockHeight
    let blkW := blockWidth
    let blkH ←
      if row = goInt (blocksDown - 1) then do
        let m ← goMod imageHeight blockHeight
        if m ≠ 0 then goMod imageHeight blockHeight else pure blockHeight
      else pure blockHeight
    let xmin := goInt (col * blockWidth)
    let ymin := goInt (row * blockHeight)
    let xmax := goInt (xmin + blkW)
    let ymax := goInt (ymin + blkH)
    return Rect xmin ymin xmax ymax

/-- The index expression `row*blocksAcross + col` of `BlockOffset` and `BlockCount`, an
`int` that wraps. -/
def blockIndex (blocksAcross col row : Int) : Int := goInt (row * blocksAcross + col)

/-- Go method `IFD.BlockOffset`; the product `blocksAcross*blocksDown` that the length of
the array is compared with is an `int` and wraps, and so does the index. -/
def BlockOffset (t : TagGetter) (col row : Int) : Outcome Int := do
  let blocksAcross := BlocksAcross t
  let blocksDown ← BlocksDown t
  if col < 0 ∨ row < 0 ∨ col ≥ blocksAcross ∨ row ≥ blocksDown then
    return 0
  if t.GetTileWidth.2 then
    let (offsets, ok) := t.GetTileOffsets
    if !ok ∨ (offsets.length : Int) ≠ goInt (blocksAcross * blocksDown) then
      return 0
    goIndex offsets (blockIndex blocksAcross col row)
  else
    let (offsets, ok) := t.GetStripOffsets
    if !ok ∨ (offsets.length : Int) ≠ goInt (blocksAcross * blocksDown) then
      return 0
    goIndex offsets (blockIndex blocksAcross col row)

/-- Go method `IFD.BlockCount`; the product and the index wrap as in `BlockOffset`. -/
def BlockCount (t : TagGetter) (col row : Int) : Outcome Int := do
  let blocksAcross := BlocksAcross t
  let blocksDown ← BlocksDown t
  if col < 0 ∨ row < 0 ∨ col ≥ blocksAcross ∨ row ≥ blocksDown then
    return 0
  if t.GetTileWidth.2 then
    let (counts, ok) := t.GetTileByteCounts
    if !ok ∨ (counts.length : Int) ≠ goInt (blocksAcross * blocksDown) then
      return 0
    goIndex counts (blockIndex blocksAcross col row)
  else
    let (counts, ok) := t.GetStripByteCounts
    if !ok ∨ (counts.length : Int) ≠ goInt (blocksAcross * blocksDown) then
      return 0
    goIndex counts (blockIndex blocksAcross col row)

/-! ## tiff_ifd_block.go: predictor reversal -/

/-- Go `binary.ByteOrder`, the `Header.ByteOrder` of the file. -/
inductive ByteOrder where
  | LittleEndian
  | BigEndian
  deriving DecidableEq, Repr

/-- The value `ByteOrder.Uint16(b)` on the two bytes `b[0] = b0`, `b[1] = b1`. -/
def ByteOrder.Uint16 (o : ByteOrder) (b0 b1 : Nat) : Nat :=
  match o with
  | .LittleEndian => b0 + b1 * 256
  | .BigEndian => b1 + b0 * 256

/-- The call `ByteOrder.PutUint16(b, v)`: the bytes written to `b[0]` and `b[1]`. -/
def ByteOrder.PutUint16 (o : ByteOrder) (v : Nat) : Nat × Nat :=
  match o with
  | .LittleEndian => (v % 256, v / 256 % 256)
  | .BigEndian => (v / 256 % 256, v % 256)

/-- The error `decodePredictor` returns when the buffer ends inside a row. -/
def errPredictorData : GoError := .msg "tiff: IFD.decodePredictor, not enough pixel data"

/-- The inner loop of the 8-bit case of `decodePredictor`, with `n` iterations to go:
`data[off] += data[off-spp]` in `uint8` arithmetic, after the check `off >= len(data)`.
Returns the buffer and `off`. -/
def predictorRow8 (spp : Nat) : Nat → List Nat → Nat → Outcome (List Nat × Nat)
  | 0, data, off => .ok (data, off)
  | n + 1, data, off =>
    if off ≥ data.length then .error errPredictorData
    else if off < spp then .panic
    else predictorRow8 spp n
      (data.set off ((data.getD off 0 + data.getD (off - spp) 0) % 256)) (off + 1)

/-- The outer loop of the 8-bit case, with `rows` rows to go: `off += spp`, then the
inner loop of `cols` iterations. -/
def predictorRows8 (spp cols : Nat) : Nat → List Nat → Nat → Outcome (List Nat)
  | 0, data, _ => .ok data
  | rows + 1, data, off =>
    match predictorRow8 spp cols data (off + spp) with
    | .ok (data1, off1) => predictorRows8 spp cols rows data1 off1
    | .error e => .error e
    | .panic => .panic

/-- The inner loop of the 16-bit case of `decodePredictor`, with `n` iterations to go:
after the check `off+2 > len(data)`, the sample at `off` becomes the `uint16` sum of
itself and the sample `spp` samples earlier. -/
def predictorRow16 (o : ByteOrder) (spp : Nat) : Nat → List Nat → Nat → Outcome (List Nat × Nat)
  | 0, data, off => .ok (data, off)
  | n + 1, data, off =>
    if off + 2 > data.length then .error errPredictorData
    else if off < spp * 2 then .panic
    else
      let v0 := o.Uint16 (data.getD (off - spp * 2) 0) (data.getD (off - spp * 2 + 1) 0)
      let v1 := o.Uint16 (data.getD off 0) (data.getD (off + 1) 0)
      let w := o.PutUint16 ((v1 + v0) % 65536)
      predictorRow16 o spp n ((data.set off w.1).set (off + 1) w.2) (off + 2)

/-- The outer loop of the 16-bit case: `off += spp * 2`, then the inner loop. -/
def predictorRows16 (o : ByteOrder) (spp cols : Nat) : Nat → List Nat → Nat → Outcome (List Nat)
  | 0, data, _ => .ok data
  | rows + 1, data, off =>
    match predictorRow16 o spp cols data (off + spp * 2) with
    | .ok (data1, off1) => predictorRows16 o spp cols rows data1 off1
    | .error e => .error e
    | .panic => .panic

/-- Go method `IFD.decodePredictor`: `bpp` is `p.Depth()`, `spp` is `p.Channels()`, `o` is
`p.Header.ByteOrder`.  The row loop runs `r.Max.Y - r.Min.Y` times, the inner loop
`(r.Dx()-1)*spp` times (in steps of two bytes in the 16-bit case).  The loop bound is
the exact product: it is the `int` product of the code for every block whose size in
bytes fits an `int`, which is the case whenever the buffer, a slice, holds the block. -/
def decodePredictor (bpp spp : Nat) (o : ByteOrder) (data : List Nat) (r : Rectangle) :
    Outcome (List Nat) :=
  if bpp = 16 then
    predictorRows16 o spp ((r.Dx - 1) * (spp : Int)).toNat (r.Max.Y - r.Min.Y).toNat data 0
  else if bpp = 8 then
    predictorRows8 spp ((r.Dx - 1) * (spp : Int)).toNat (r.Max.Y - r.Min.Y).toNat data 0
  else
    .error (.msg "tiff: IFD.decodePredictor, bad BitsPerSample")

/-! ### Horizontal differencing, the transform `decodePredictor` undoes -/

/-- Horizontal differencing of a buffer of 8-bit samples whose rows hold `rowLen`
samples: every sample but those of the first pixel of a row is replaced by its
difference, modulo 256, from the sample `spp` positions earlier. -/
def diffEncode8 (spp rowLen : Nat) (orig : List Nat) : List Nat :=
  (List.range orig.length).map fun m =>
    if m % rowLen < spp then orig.getD m 0
    else (orig.getD m 0 + 256 - orig.getD (m - spp) 0) % 256

/-- The 16-bit sample number `j` of a buffer. -/
def sample16 (o : ByteOrder) (buf : List Nat) (j : Nat) : Nat :=
  o.Uint16 (buf.getD (2 * j) 0) (buf.getD (2 * j + 1) 0)

/-- Horizontal differencing of a buffer of 16-bit samples whose rows hold `rowLen`
samples: every sample but those of the first pixel of a row is replaced by its
difference, modulo 65536, from the sample `spp` positions earlier. -/
def diffEncode16 (o : ByteOrder) (spp rowLen : Nat) (orig : List Nat) : List Nat :=
  (List.range orig.length).map fun m =>
    let j := m / 2
    let v := if j % rowLen < spp then sample16 o orig j
      else (sample16 o orig j + 65536 - sample16 o orig (j - spp)) % 65536
    if m % 2 = 0 then (o.PutUint16 v).1 else (o.PutUint16 v).2

/-- The running sum of the claim: the sum of the samples of one channel of a row, from
the first pixel of the row (at `base`) up to position `base + i`. -/
def channelSum (inp : List Nat) (spp base i : Nat) : Nat :=
  ∑ k in Finset.range (i / spp + 1), inp.getD (base + i - k * spp) 0

/-! ## compress.go: JPEG with shared tables -/

def errTablesSOI : GoError := .msg "tiff: invalid jpeg table, does not begin with SOI marker"
def errTablesEOI : GoError := .msg "tiff: invalid jpeg table, does not end wth EOI marker"
def errDataSOI : GoError := .msg "tiff: invalid image data, does not begin with SOI marker"
def errDataEOI : GoError := .msg "tiff: invalid image data, does not end wth EOI marker"

/-- Go's `b[i] != x || b[j] != y`: the second index expression is evaluated only when
the first comparison is false. -/
def differsAt (b : List Nat) (i : Int) (x : Nat) (j : Int) (y : Nat) : Outcome Bool := do
  let bi ← goIndex b i
  if bi ≠ x then return true
  let bj ← goIndex b j
  return decide (bj ≠ y)

/-- The first half of `decode_JPEG`: the stream `imageReader` that is handed to
`jpeg.Decode`, or the error returned before any decoding.  `jpegTables` is the result
of `GetJPEGTables` (`none` when the tag is absent), `r` the block's stream. -/
def jpegStream (jpegTables : Option (List Nat)) (r : List Nat) : Outcome (List Nat) :=
  match jpegTables with
  | some tables =>
    if tables.length > 4 then do
      let imageData := r
      if ← differsAt tables 0 0xff 1 0xd8 then
        .error errTablesSOI
      else if ← differsAt tables ((tables.length : Int) - 2) 0xff
          ((tables.length : Int) - 1) 0xd9 then
        .error errTablesEOI
      else if ← differsAt imageData 0 0xff 1 0xd8 then
        .error errDataSOI
      else if ← differsAt imageData ((imageData.length : Int) - 2) 0xff
          ((imageData.length : Int) - 1) 0xd9 then
        .error errDataEOI
      else
        .ok (tables.take (tables.length - 2) ++ imageData.drop 2)
    else
      .ok r
  | none => .ok r

/-- Go method `TagValue_CompressionType.decode_JPEG`; `jpegDecode` is `jpeg.Decode` of the Go
standard library, applied to the bytes of the reader it is given. -/
def decode_JPEG (jpegDecode : List Nat → Except GoError Image)
    (jpegTables : Option (List Nat)) (r : List Nat) : Outcome DecodeResult :=
  match jpegStream jpegTables r with
  | .panic => .panic
  | .error e => .ok ⟨none, none, some e⟩
  | .ok imageReader =>
    match jpegDecode imageReader with
    | .error e => .ok ⟨none, none, some (.wrapped "tiff: could not decode JPEG image: " e)⟩
    | .ok decodedImage => .ok ⟨none, some decodedImage, none⟩

/-- A byte string begins with the SOI marker `FF D8`. -/
def beginsSOI (b : List Nat) : Prop := b[0]? = some 0xff ∧ b[1]? = some 0xd8

/-- A byte string ends with the EOI marker `FF D9`. -/
def endsEOI (b : List Nat) : Prop :=
  2 ≤ b.length ∧ b[b.length - 2]? = some 0xff ∧ b[b.length - 1]? = some 0xd9

instance (b : List Nat) : Decidable (beginsSOI b) := by unfold beginsSOI; infer_instance

instance (b : List Nat) : Decidable (endsEOI b) := by unfold endsEOI; infer_instance

/-- The effective strip height of a strip-organized directory: the rows per strip when
the tag is present with `0 < rowsPerStrip ≤ imageHeight`, else the image height. -/
def effectiveStripHeight (t : TagGetter) : Int :=
  match t.RowsPerStrip with
  | some r => if 0 < r ∧ r ≤ t.GetImageLength.1 then r else t.GetImageLength.1
  | none => t.GetImageLength.1

/-- The offsets array a directory uses: the tile offsets when the tile-width tag is
present, else the strip offsets (`none` when the array is absent). -/
def blockOffsetsArray (t : TagGetter) : Option (List Int) :=
  if t.TileWidth.isSome then t.TileOffsets else t.StripOffsets

/-- The byte-count array a directory uses: the tile byte counts when the tile-width tag
is present, else the strip byte counts. -/
def blockCountsArray (t : TagGetter) : Option (List Int) :=
  if t.TileWidth.isSome then t.TileByteCounts else t.StripByteCounts

/-- A strip-organized directory: 100 x 100 pixels in strips of 30 rows. -/
def stripDir : TagGetter :=
  { ImageWidth := some 100
    ImageLength := some 100
    RowsPerStrip := some 30
    StripOffsets := some [8, 9, 10, 11]
    StripByteCounts := some [3000, 3000, 3000, 1000] }

/-- A tiled directory: 100 x 100 pixels in tiles of 32 x 32. -/
def tileDir : TagGetter :=
  { ImageWidth := some 100
    ImageLength := some 100
    TileWidth := some 32
    TileLength := some 32 }

/-- A one-strip directory whose offsets array has one entry and whose byte-count array
has two. -/
def mismatchDir : TagGetter :=
  { ImageWidth := some 1
    ImageLength := some 1
    StripOffsets := some [8]
    StripByteCounts := some [5, 6] }

/-- The second half of `decode_JPEG`: run `jpeg.Decode` on the stream. -/
def jpegFinish (jpegDecode : List Nat → Except GoError Image) (stream : List Nat) :
    DecodeResult :=
  match jpegDecode stream with
  | .error e => ⟨none, none, some (.wrapped "tiff: could not decode JPEG image: " e)⟩
  | .ok decodedImage => ⟨none, some decodedImage, none⟩

/-! ## The directory with its derived attributes -/

/-- Modelled from the spec: the `PixelFormat` classification that `IFD.ImageType()`
returns (its code and the constants `ImageType_*` are not part of the sources at
hand); `Nil` stands for every value that is none of the named formats. -/
inductive ImageType where
  | Nil
  | Bilevel
  | BilevelInvert
  | Paletted
  | Gray
  | GrayInvert
  | RGB
  | NRGBA
  | RGBA
  | YCbCr
  | CMYK
  deriving DecidableEq, Repr

/-- Modelled from the spec: the values of `TagValue_PredictorType` (`None`,
`Horizontal`); the declaration is not part of the sources at hand, the numbers are
those of the TIFF 6.0 tag. -/
def TagValue_PredictorType_None : Int := 1
/-- Modelled from the spec: a value of the Predictor tag, numbered as in TIFF 6.0. -/
def TagValue_PredictorType_Horizontal : Int := 2

/-- Modelled from the spec: the values of `TagValue_CompressionType`, the closed
enumeration of the spec plus the zero value `Nil`; the declaration is not part of the
sources at hand, the numbers are those of the TIFF Compression tag. -/
def TagValue_CompressionType_Nil : Int := 0
/-- Modelled from the spec: a value of the Compression tag, numbered as in TIFF 6.0. -/
def TagValue_CompressionType_None : Int := 1
/-- Modelled from the spec: a value of the Compression tag, numbered as in TIFF 6.0. -/
def TagValue_CompressionType_CCITT : Int := 2
/-- Modelled from the spec: a value of the Compression tag, numbered as in TIFF 6.0. -/
def TagValue_CompressionType_G3 : Int := 3
/-- Modelled from the spec: a value of the Compression tag, numbered as in TIFF 6.0. -/
def TagValue_CompressionType_G4 : Int := 4
/-- Modelled from the spec: a value of the Compression tag, numbered as in TIFF 6.0. -/
def TagValue_CompressionType_LZW : Int := 5
/-- Modelled from the spec: a value of the Compression tag, numbered as in TIFF 6.0. -/
def TagValue_CompressionType_JPEGOld : Int := 6
/-- Modelled from the spec: a value of the Compression tag, numbered as in TIFF 6.0. -/
def TagValue_CompressionType_JPEG : Int := 7
/-- Modelled from the spec: a value of the Compression tag, numbered as in TIFF 6.0. -/
def TagValue_CompressionType_Deflate : Int := 8
/-- Modelled from the spec: a value of the Compression tag, numbered as in TIFF 6.0. -/
def TagValue_CompressionType_PackBits : Int := 32773
/-- Modelled from the spec: a value of the Compression tag, numbered as in TIFF 6.0. -/
def TagValue_CompressionType_DeflateOld : Int := 32946

/-- The directory `*IFD` as `tiff_ifd_block.go` uses it: the tag accessor and the
values of the accessors `Header.ByteOrder`, `ImageType()`, `Depth()`, `Channels()`,
`Compression()` and `Bounds()`, whose code is not part of the sources at hand. -/
structure IFD where
  tags : TagGetter
  byteOrder : ByteOrder
  imageType : ImageType
  depth : Nat
  channels : Nat
  compression : Int
  bounds : Rectangle
  deriving DecidableEq, Repr

/-- The code outside the repository that the block pipeline calls. -/
structure Codecs where
  /-- The call `ioutil.ReadAll(newLzwReader(r, lzwMSB, 8))`: the data and the error. -/
  lzw : List Nat → Option (List Nat) × Option GoError
  /-- The call `zlib.NewReader(r)` followed by `ioutil.ReadAll`: the data and the error. -/
  zlib : List Nat → Option (List Nat) × Option GoError
  /-- The call `fax.DecodeG4Pixels(br, width, height)`. -/
  fax : List Nat → Int → Int → DecodeResult
  /-- The call `jpeg.Decode(r)`. -/
  jpeg : List Nat → Except GoError Image
  /-- The call `draw.Draw(dst, rect, src, src.Bounds().Min, draw.Src)`: the new `dst`. -/
  draw : Image → Rectangle → Image → Image

/-! ## compress.go: the dispatcher -/

def errUnsupported (what : String) : GoError :=
  .msg ("tiff: unsupport " ++ what ++ " compression type")

/-- Go method `decode_None`: `ioutil.ReadAll(r)`. -/
def decode_None (r : List Nat) : DecodeResult := ⟨some r, none, none⟩

/-- Go method `decode_CCITT`. -/
def decode_CCITT : DecodeResult := ⟨none, none, some (errUnsupported "CCITT")⟩

/-- Go method `decode_JPEGOld`. -/
def decode_JPEGOld : DecodeResult := ⟨none, none, some (errUnsupported "JPEGOld")⟩

/-- Go method `decode_G4`, and `decode_G3` which calls it. -/
def decode_G4 (c : Codecs) (r : List Nat) (width height : Int) : DecodeResult :=
  c.fax r width height

/-- Go method `decode_LZW`. -/
def decode_LZW (c : Codecs) (r : List Nat) : DecodeResult :=
  ⟨(c.lzw r).1, none, (c.lzw r).2⟩

/-- Go method `decode_Deflate` and `decode_DeflateOld` (the same code). -/
def decode_Deflate (c : Codecs) (r : List Nat) : DecodeResult :=
  ⟨(c.zlib r).1, none, (c.zlib r).2⟩

/-- Go method `TagValue_CompressionType.Decode`. -/
def Decode (c : Codecs) (p : Int) (r : List Nat) (width height : Int) (ifd : IFD) :
    Outcome DecodeResult :=
  if p = TagValue_CompressionType_None ∨ p = TagValue_CompressionType_Nil then
    .ok (decode_None r)
  else if p = TagValue_CompressionType_CCITT then .ok decode_CCITT
  else if p = TagValue_CompressionType_G3 then .ok (decode_G4 c r width height)
  else if p = TagValue_CompressionType_G4 then .ok (decode_G4 c r width height)
  else if p = TagValue_CompressionType_LZW then .ok (decode_LZW c r)
  else if p = TagValue_CompressionType_JPEGOld then .ok decode_JPEGOld
  else if p = TagValue_CompressionType_JPEG then decode_JPEG c.jpeg ifd.tags.JPEGTables r
  else if p = TagValue_CompressionType_Deflate then .ok (decode_Deflate c r)
  else if p = TagValue_CompressionType_PackBits then .ok (decode_PackBits r)
  else if p = TagValue_CompressionType_DeflateOld then .ok (decode_Deflate c r)
  else .ok ⟨none, none, some (errUnsupported (toString p))⟩

/-! ## tiff_ifd_block.go: pixel unpacking -/

/-- The state of a loop of `decodeBlock`: it goes on with state `s`, the function
returns the error `e` in state `s`, or the function panics. -/
inductive Flow (σ : Type) where
  | next (s : σ)
  | ret (s : σ) (e : GoError)
  | panic
  deriving DecidableEq, Repr

/-- A Go loop `for i := lo; ...; i += step` that runs its body `n` times. -/
def forInt {σ : Type} (body : Int → σ → Flow σ) : Nat → Int → Int → σ → Flow σ
  | 0, _, _, s => .next s
  | n + 1, i, step, s =>
    match body i s with
    | .next s1 => forInt body n (i + step) step s1
    | .ret s1 e => .ret s1 e
    | .panic => .panic

/-- The number of iterations of `for i := lo; i < hi; i += step` with `step > 0`. -/
def loopCount (lo hi step : Int) : Nat :=
  if lo < hi then ((hi - lo + step - 1) / step).toNat else 0

/-- The helper `minInt`. -/
def minInt (a b : Int) : Int := if a < b then a else b

/-- The error `decodeBlock` returns when the source buffer is too short. -/
def errBlockData : GoError := .msg "tiff: IFD.decodeBlock, not enough pixel data"

/-- The error `decodeBlock` returns for an image type it has no branch for. -/
def errUnknownImageType : GoError := .msg "tiff: IFD.decodeBlock, unknown imageType"

/-- Go `Point{x, y}.In(r)`. -/
def pointIn (x y : Int) (r : Rectangle) : Bool :=
  decide (r.Min.X ≤ x ∧ x < r.Max.X ∧ r.Min.Y ≤ y ∧ y < r.Max.Y)

/-- The offset `PixOffset(x, y)` of a buffer type with `bpp` bytes per pixel. -/
def Image.PixOffset (img : Image) (bpp : Int) (x y : Int) : Int :=
  (y - img.Rect.Min.Y) * img.Stride + (x - img.Rect.Min.X) * bpp

/-- The assignment `pix[i] = v`: panic when `i` is out of range. -/
def setPix (pix : List Nat) (i : Int) (v : Nat) : Outcome (List Nat) :=
  if i < 0 ∨ i ≥ (pix.length : Int) then .panic else .ok (pix.set i.toNat v)

/-- The assignments `pix[i+0] = vs[0]`, `pix[i+1] = vs[1]`, ... in this order. -/
def setPixs (pix : List Nat) (i : Int) : List Nat → Outcome (List Nat)
  | [] => .ok pix
  | v :: vs =>
    match setPix pix i v with
    | .ok pix1 => setPixs pix1 (i + 1) vs
    | .error e => .error e
    | .panic => .panic

/-- The methods `SetGray`, `SetColorIndex` (one byte per pixel), `SetGray16` (two),
`SetRGBA64` and `SetNRGBA64` (eight) of package `image`: nothing happens outside the
bounds of the buffer, else the bytes `vs` are stored from `PixOffset(x, y)` on. -/
def setAt (img : Image) (pix : List Nat) (x y : Int) (vs : List Nat) : Outcome (List Nat) :=
  if !pointIn x y img.Rect then .ok pix
  else setPixs pix (img.PixOffset vs.length x y) vs

/-- The two bytes `uint8(v >> 8)`, `uint8(v)` of a 16-bit channel value. -/
def be16 (v : Nat) : List Nat := [v / 256 % 256, v % 256]

/-- The value `ByteOrder.Uint16(buf[off : off+2])`, after the check `off+2 <= len(buf)`. -/
def readU16 (o : ByteOrder) (buf : List Nat) (off : Nat) : Nat :=
  o.Uint16 (buf.getD off 0) (buf.getD (off + 1) 0)

/-- Modelled from the spec: the Bit Reader (`newBitsReader`, `ReadBits`, `flushBits`;
its code is not part of the sources at hand), which "extracts arbitrary-width unsigned
samples MSB-first from a packed byte buffer" and "flushes to the next byte boundary at
each row".  The state is the buffer and the position of the next bit. -/
structure BitsReader where
  buf : List Nat
  pos : Nat
  deriving DecidableEq, Repr

/-- Modelled from the spec: `newBitsReader(buf)`. -/
def newBitsReader (buf : List Nat) : BitsReader := ⟨buf, 0⟩

/-- Modelled from the spec: `ReadBits(n)`, the next `n` bits MSB-first as a number, and
`ok = false` when the buffer does not hold them. -/
def BitsReader.ReadBits (p : BitsReader) (n : Nat) : BitsReader × Nat × Bool :=
  if p.pos + n > 8 * p.buf.length then (p, 0, false)
  else
    let all := p.buf.foldl (fun acc b => acc * 256 + b) 0
    (⟨p.buf, p.pos + n⟩, all / 2 ^ (8 * p.buf.length - p.pos - n) % 2 ^ n, true)

/-- Modelled from the spec: `flushBits()`, skip to the next byte boundary. -/
def BitsReader.flushBits (p : BitsReader) : BitsReader :=
  ⟨p.buf, (p.pos + 7) / 8 * 8⟩

/-- Lift an `Outcome` of new pixels into a loop step. -/
def stepPix {τ : Type} (old : List Nat × τ) (t : τ) : Outcome (List Nat) → Flow (List Nat × τ)
  | .ok pix => .next (pix, t)
  | .error e => .ret old e
  | .panic => .panic


/-- The value of a loop as the value of a function on the whole buffer. -/
def Flow.pixels {τ : Type} : Flow (List Nat × τ) → Flow (List Nat)
  | .next s => .next s.1
  | .ret s e => .ret s.1 e
  | .panic => .panic

/-- The 1-bit branch of `decodeBlock` under G3/G4 compression: every row of the block
is copied byte by byte, one byte per pixel, with no check on the length of `buf`. -/
def decodeBlockFax (buf : List Nat) (img : Image) (xmin ymin xmax rMaxX rMaxY : Int) :
    Flow (List Nat) :=
  forInt (fun y pix =>
      let min := img.PixOffset 1 xmin y
      let max := img.PixOffset 1 rMaxX y
      let off := (y - ymin) * (xmax - xmin) * 1
      (forInt (fun i (s : List Nat × Int) =>
          match goIndex buf (s.2 + 0) with
          | .ok b => stepPix s (s.2 + 1) (setPix s.1 (i + 0) b)
          | _ => .panic)
        (loopCount min max 1) min 1 (pix, off)).pixels)
    (loopCount ymin rMaxY 1) ymin 1 img.Pix

/-- The inversion `v = 0xffff - v` of a 16-bit sample, applied when the image type is
`GrayInvert`. -/
def gray16Value (invert : Bool) (v : Nat) : Nat :=
  if invert then 0xffff - v else v

/-- The 16-bit gray branch: `off` runs through `buf` over all pixels of the clipped
rectangle. -/
def decodeBlockGray16 (o : ByteOrder) (invert : Bool) (buf : List Nat) (img : Image)
    (xmin ymin rMaxX rMaxY : Int) : Flow (List Nat) :=
  (forInt (fun y s =>
      forInt (fun x (s : List Nat × Nat) =>
          if s.2 + 2 > buf.length then .ret s errBlockData
          else
            let v := readU16 o buf s.2
            let v := gray16Value invert v
            stepPix s (s.2 + 2) (setAt img s.1 x y (be16 v)))
        (loopCount xmin rMaxX 1) xmin 1 s)
    (loopCount ymin rMaxY 1) ymin 1 (img.Pix, 0)).pixels

/-- The rescaling `v * 0xff / max` of a gray sample in `uint32` arithmetic, and the
inversion `0xff - v`; the byte stored is `uint8(v)`.  Panics when `max` is 0. -/
def grayValue (invert : Bool) (max v : Nat) : Outcome Nat :=
  if max = 0 then .panic
  else
    let v := v * 0xff % 2 ^ 32 / max
    let v := if invert then (0xff + 2 ^ 32 - v) % 2 ^ 32 else v
    .ok (v % 256)

/-- The gray branch for the other depths: samples of `depth` bits from the bit reader,
rescaled, one flush per row. -/
def decodeBlockGray (depth : Nat) (invert : Bool) (buf : List Nat) (img : Image)
    (xmin ymin rMaxX rMaxY : Int) : Flow (List Nat) :=
  let max := (2 ^ depth - 1) % 2 ^ 32
  (forInt (fun y s =>
      match forInt (fun x (s : List Nat × BitsReader) =>
          match s.2.ReadBits depth with
          | (_, _, false) => .ret s errBlockData
          | (rd, v, true) =>
            match grayValue invert max v with
            | .ok g => stepPix s rd (setAt img s.1 x y [g])
            | _ => .panic)
        (loopCount xmin rMaxX 1) xmin 1 s with
      | .next s1 => .next (s1.1, s1.2.flushBits)
      | .ret s1 e => .ret s1 e
      | .panic => .panic)
    (loopCount ymin rMaxY 1) ymin 1 (img.Pix, newBitsReader buf)).pixels

/-- The paletted branch: samples of `depth` bits used as colour indices. -/
def decodeBlockPaletted (depth : Nat) (buf : List Nat) (img : Image)
    (xmin ymin rMaxX rMaxY : Int) : Flow (List Nat) :=
  (forInt (fun y s =>
      match forInt (fun x (s : List Nat × BitsReader) =>
          match s.2.ReadBits depth with
          | (_, _, false) => .ret s errBlockData
          | (rd, v, true) => stepPix s rd (setAt img s.1 x y [v % 256]))
        (loopCount xmin rMaxX 1) xmin 1 s with
      | .next s1 => .next (s1.1, s1.2.flushBits)
      | .ret s1 e => .ret s1 e
      | .panic => .panic)
    (loopCount ymin rMaxY 1) ymin 1 (img.Pix, newBitsReader buf)).pixels

/-- The 16-bit branches of RGB (`n = 3` channels read, alpha `0xffff`), NRGBA and RGBA
(`n = 4` channels read): `off` runs through `buf` over all pixels of the clipped
rectangle. -/
def decodeBlockColor16 (o : ByteOrder) (n : Nat) (buf : List Nat) (img : Image)
    (xmin ymin rMaxX rMaxY : Int) : Flow (List Nat) :=
  (forInt (fun y s =>
      forInt (fun x (s : List Nat × Nat) =>
          if s.2 + 2 * n > buf.length then .ret s errBlockData
          else
            let r := readU16 o buf (s.2 + 0)
            let g := readU16 o buf (s.2 + 2)
            let b := readU16 o buf (s.2 + 4)
            let a := if n = 3 then 0xffff else readU16 o buf (s.2 + 6)
            stepPix s (s.2 + 2 * n) (setAt img s.1 x y (be16 r ++ be16 g ++ be16 b ++ be16 a)))
        (loopCount xmin rMaxX 1) xmin 1 s)
    (loopCount ymin rMaxY 1) ymin 1 (img.Pix, 0)).pixels

/-- The 8-bit RGB branch: per row, `off` starts at the row's place in the block and
three bytes and `0xff` are stored per pixel. -/
def decodeBlockRGB8 (buf : List Nat) (img : Image) (xmin ymin xmax rMaxX rMaxY : Int) :
    Flow (List Nat) :=
  forInt (fun y pix =>
      let min := img.PixOffset 4 xmin y
      let max := img.PixOffset 4 rMaxX y
      let off := (y - ymin) * (xmax - xmin) * 3
      (forInt (fun i (s : List Nat × Int) =>
          if s.2 + 3 > (buf.length : Int) then .ret s errBlockData
          else
            match goIndex buf (s.2 + 0), goIndex buf (s.2 + 1), goIndex buf (s.2 + 2) with
            | .ok b0, .ok b1, .ok b2 => stepPix s (s.2 + 3) (setPixs s.1 i [b0, b1, b2, 0xff])
            | _, _, _ => .panic)
        (loopCount min max 4) min 4 (pix, off)).pixels)
    (loopCount ymin rMaxY 1) ymin 1 img.Pix

/-- The statement `copy(img.Pix[min:max], buf[i0:i1])`: both slice expressions panic
when their bounds are out of order or out of range; the copy moves as many bytes as
the shorter slice holds. -/
def copyRow (pix : List Nat) (min max : Int) (buf : List Nat) (i0 i1 : Int) :
    Outcome (List Nat) :=
  if min < 0 ∨ max < min ∨ (pix.length : Int) < max then .panic
  else if i0 < 0 ∨ i1 < i0 ∨ (buf.length : Int) < i1 then .panic
  else
    let n := Nat.min (max - min).toNat (i1 - i0).toNat
    .ok (pix.take min.toNat ++ (buf.drop i0.toNat).take n ++ pix.drop (min.toNat + n))

/-- The 8-bit NRGBA and RGBA branches: per row, one `copy` of the row of the block. -/
def decodeBlockCopy8 (buf : List Nat) (img : Image) (xmin ymin xmax rMaxX rMaxY : Int) :
    Flow (List Nat) :=
  forInt (fun y pix =>
      let min := img.PixOffset 4 xmin y
      let max := img.PixOffset 4 rMaxX y
      let i0 := (y - ymin) * (xmax - xmin) * 4
      let i1 := (y - ymin + 1) * (xmax - xmin) * 4
      if i1 > (buf.length : Int) then .ret pix errBlockData
      else
        match copyRow pix min max buf i0 i1 with
        | .ok pix1 => .next pix1
        | _ => .panic)
    (loopCount ymin rMaxY 1) ymin 1 img.Pix

/-- The type assertion `dst.(*image.K)` followed by a branch that rewrites `Pix`. -/
def withKind (dst : Image) (k : ImageKind) (branch : Image → Flow (List Nat)) : Flow Image :=
  if dst.kind ≠ k then .panic
  else
    match branch dst with
    | .next pix => .next { dst with Pix := pix }
    | .ret pix e => .ret { dst with Pix := pix } e
    | .panic => .panic

/-- Go method `IFD.decodeBlock`: `.next dst1` is the return of a nil error with the buffer
`dst1`, `.ret dst1 e` the return of the error `e` when the buffer holds `dst1`. -/
def decodeBlock (p : IFD) (buf : List Nat) (dst : Image) (r : Rectangle) : Flow Image :=
  let xmin := r.Min.X
  let ymin := r.Min.Y
  let xmax := r.Max.X
  let ymax := r.Max.Y
  let rMaxX := minInt xmax dst.Rect.Max.X
  let rMaxY := minInt ymax dst.Rect.Max.Y
  let b := p.bounds
  let rMaxX := minInt rMaxX b.Max.X
  let rMaxY := minInt rMaxY b.Max.Y
  match p.imageType with
  | .Gray | .GrayInvert | .Bilevel | .BilevelInvert =>
    if p.depth = 1 ∧ (p.compression = TagValue_CompressionType_G3 ∨
        p.compression = TagValue_CompressionType_G4) then
      withKind dst .Gray fun img => decodeBlockFax buf img xmin ymin xmax rMaxX rMaxY
    else if p.depth = 16 then
      withKind dst .Gray16 fun img =>
        decodeBlockGray16 p.byteOrder (decide (p.imageType = .GrayInvert)) buf img
          xmin ymin rMaxX rMaxY
    else
      withKind dst .Gray fun img =>
        decodeBlockGray p.depth (decide (p.imageType = .GrayInvert)) buf img
          xmin ymin rMaxX rMaxY
  | .Paletted =>
    withKind dst .Paletted fun img => decodeBlockPaletted p.depth buf img xmin ymin rMaxX rMaxY
  | .RGB =>
    if p.depth = 16 then
      withKind dst .RGBA64 fun img =>
        decodeBlockColor16 p.byteOrder 3 buf img xmin ymin rMaxX rMaxY
    else
      withKind dst .RGBA fun img => decodeBlockRGB8 buf img xmin ymin xmax rMaxX rMaxY
  | .NRGBA =>
    if p.depth = 16 then
      withKind dst .NRGBA64 fun img =>
        decodeBlockColor16 p.byteOrder 4 buf img xmin ymin rMaxX rMaxY
    else
      withKind dst .NRGBA fun img => decodeBlockCopy8 buf img xmin ymin xmax rMaxX rMaxY
  | .RGBA =>
    if p.depth = 16 then
      withKind dst .RGBA64 fun img =>
        decodeBlockColor16 p.byteOrder 4 buf img xmin ymin rMaxX rMaxY
    else
      withKind dst .RGBA fun img => decodeBlockCopy8 buf img xmin ymin xmax rMaxX rMaxY
  | _ => .ret dst errUnknownImageType

/-- The result of `DecodeBlock`: the destination buffer after the call and the error
returned (`none` is nil). -/
structure BlockResult where
  dst : Image
  err : Option GoError
  deriving DecidableEq, Repr

/-- The return of `decodeBlock` as the return of `DecodeBlock`. -/
def blockResult : Flow Image → Outcome BlockResult
  | .next dst => .ok ⟨dst, none⟩
  | .ret dst e => .ok ⟨dst, some e⟩
  | .panic => .panic

/-- The error of `DecodeBlock` for a block outside the grid. -/
def errBadColRow : GoError := .msg "tiff: IFD.DecodeBlock, bad col/row"

/-- The error of `r.Seek(offset, 0)` for a negative offset. -/
def errSeek : GoError := .msg "negative position"

/-- Go method `IFD.DecodeBlock`.  The `io.ReadSeeker` is a reader over the bytes `file`: `Seek`
to a negative offset is an error, and the `io.LimitReader` delivers the `count` bytes
from `offset` on (fewer at the end of the file). -/
def DecodeBlock (c : Codecs) (p : IFD) (file : List Nat) (col row : Int) (dst : Image) :
    Outcome BlockResult := do
  let blocksAcross := BlocksAcross p.tags
  let blocksDown ← BlocksDown p.tags
  if col < 0 ∨ row < 0 ∨ col ≥ blocksAcross ∨ row ≥ blocksDown then
    return ⟨dst, some errBadColRow⟩
  let bounds ← BlockBounds p.tags col row
  let offset ← BlockOffset p.tags col row
  let count ← BlockCount p.tags col row
  if offset < 0 then
    return ⟨dst, some errSeek⟩
  let limitReader := (file.drop offset.toNat).take count.toNat
  let res ← Decode c p.compression limitReader bounds.Dx bounds.Dy p
  if let some err := res.err then
    return ⟨dst, some err⟩
  if let some img := res.img then
    if dst.kind ≠ .YCbCr then
      let tileSize : Point := ⟨img.Rect.Max.X - img.Rect.Min.X, img.Rect.Max.Y - img.Rect.Min.Y⟩
      return ⟨c.draw dst (Rect bounds.Min.X bounds.Min.Y (bounds.Min.X + tileSize.X)
        (bounds.Min.Y + tileSize.Y)) img, none⟩
    return ⟨dst, none⟩
  let (predictor, ok) := p.tags.GetPredictor
  let data := res.data.getD []
  if ok ∧ predictor = TagValue_PredictorType_Horizontal then
    match decodePredictor p.depth p.channels p.byteOrder data bounds with
    | .ok data1 => blockResult (decodeBlock p data1 dst bounds)
    | .error e => return ⟨dst, some e⟩
    | .panic => .panic
  else
    blockResult (decodeBlock p data dst bounds)

/-- A directory of one RGB pixel, uncompressed, whose predictor tag holds 3, a value
that is neither `None` nor `Horizontal`. -/
def predictor3Dir : IFD :=
  { tags :=
      { ImageWidth := some 1
        ImageLength := some 1
        StripOffsets := some [0]
        StripByteCounts := some [3]
        Predictor := some 3 }
    byteOrder := .LittleEndian
    imageType := .RGB
    depth := 8
    channels := 3
    compression := TagValue_CompressionType_None
    bounds := ⟨⟨0, 0⟩, ⟨1, 1⟩⟩ }

/-- Codecs that are never reached by an uncompressed block. -/
def noCodecs : Codecs :=
  { lzw := fun _ => (none, some .EOF)
    zlib := fun _ => (none, some .EOF)
    fax := fun _ _ _ => ⟨none, none, some .EOF⟩
    jpeg := fun _ => .error .EOF
    draw := fun dst _ _ => dst }

/-- A destination buffer of one RGBA pixel. -/
def onePixelRGBA : Image := ⟨.RGBA, [0, 0, 0, 0], 4, ⟨⟨0, 0⟩, ⟨1, 1⟩⟩⟩

/-- The loop invariant of predictor reversal: below `off` the buffer holds the target
values `T`, from `off` on it still holds the input. -/
def Inv8 (inp : List Nat) (T : Nat → Nat) (data : List Nat) (off : Nat) : Prop :=
  data.length = inp.length ∧
    ∀ m, m < inp.length → data.getD m 0 = if m < off then T m else inp.getD m 0

/-- A directory of one gray pixel of the given type and depth, uncompressed. -/
def grayDir (ty : ImageType) (depth : Nat) (o : ByteOrder) : IFD :=
  { tags := { ImageWidth := some 1, ImageLength := some 1 }
    byteOrder := o
    imageType := ty
    depth := depth
    channels := 1
    compression := TagValue_CompressionType_None
    bounds := ⟨⟨0, 0⟩, ⟨1, 1⟩⟩ }

/-- A directory of one uncompressed pixel of the given type and depth. -/
def onePixelDir (ty : ImageType) (depth channels : Nat) : IFD :=
  { tags := { ImageWidth := some 1, ImageLength := some 1 }
    byteOrder := .LittleEndian
    imageType := ty
    depth := depth
    channels := channels
    compression := TagValue_CompressionType_None
    bounds := ⟨⟨0, 0⟩, ⟨1, 1⟩⟩ }

/-! ## Properties of the outcome of a loop -/

/-- The buffer a loop of `decodeBlock` ends with, on a normal end and on an error
return alike, satisfies `P` (nothing is said of a panic). -/
def Flow.Holds {σ : Type} (P : σ → Prop) : Flow σ → Prop
  | .next s => P s
  | .ret s _ => P s
  | .panic => True

/-- The value of an operation that did not panic satisfies `P`. -/
def Outcome.Holds {α : Type} (P : α → Prop) : Outcome α → Prop
  | .ok a => P a
  | _ => True

/-- The buffer `pix` has the length of `pix0` and agrees with it at every index outside
the region `R`. -/
def SameOutside (R : Int → Prop) (pix0 pix : List Nat) : Prop :=
  pix.length = pix0.length ∧ ∀ j : Nat, ¬ R (j : Int) → pix.getD j 0 = pix0.getD j 0

/-- The bytes of the pixels `xmin ≤ x < rMaxX` of the rows `ymin ≤ y < rMaxY` of a
buffer with `bpp` bytes per pixel. -/
def rowRegion (img : Image) (bpp xmin ymin rMaxX rMaxY : Int) (j : Int) : Prop :=
  ∃ y, ymin ≤ y ∧ y < rMaxY ∧ img.PixOffset bpp xmin y ≤ j ∧ j < img.PixOffset bpp rMaxX y

/-- The number of bytes one pixel takes in `Pix` (the planes of a `YCbCr` buffer are not
modelled, `decodeBlock` has no branch that writes one). -/
def ImageKind.bytesPerPixel : ImageKind → Nat
  | .Gray => 1
  | .Gray16 => 2
  | .Paletted => 1
  | .RGBA => 4
  | .RGBA64 => 8
  | .NRGBA => 4
  | .NRGBA64 => 8
  | .CMYK => 4
  | .YCbCr => 1

/-- The point `(x, y)` lies in the rectangle `r`. -/
def inRect (x y : Int) (r : Rectangle) : Prop :=
  r.Min.X ≤ x ∧ x < r.Max.X ∧ r.Min.Y ≤ y ∧ y < r.Max.Y

instance (x y : Int) (r : Rectangle) : Decidable (inRect x y r) := by
  unfold inRect; infer_instance

/-- Byte `k` of the pixel `(x, y)` of a buffer. -/
def Image.pixelByte (img : Image) (x y : Int) (k : Nat) : Nat :=
  img.Pix.getD (img.PixOffset img.kind.bytesPerPixel x y + k).toNat 0

/-- The right edge of the clipped rectangle, `rMaxX` of `decodeBlock`. -/
def clipMaxX (p : IFD) (dst : Image) (r : Rectangle) : Int :=
  minInt (minInt r.Max.X dst.Rect.Max.X) p.bounds.Max.X

/-- The bottom edge of the clipped rectangle, `rMaxY` of `decodeBlock`. -/
def clipMaxY (p : IFD) (dst : Image) (r : Rectangle) : Int :=
  minInt (minInt r.Max.Y dst.Rect.Max.Y) p.bounds.Max.Y

/-- A directory of a 3 x 2 gray image at depth 4, uncompressed. -/
def gray4Dir : IFD :=
  { tags := { ImageWidth := some 3, ImageLength := some 2 }
    byteOrder := .LittleEndian
    imageType := .Gray
    depth := 4
    channels := 1
    compression := TagValue_CompressionType_None
    bounds := ⟨⟨0, 0⟩, ⟨3, 2⟩⟩ }

/-- A directory of a 3 x 2 gray image at depth 8, uncompressed. -/
def gray8Dir : IFD :=
  { tags := { ImageWidth := some 3, ImageLength := some 2 }
    byteOrder := .LittleEndian
    imageType := .Gray
    depth := 8
    channels := 1
    compression := TagValue_CompressionType_None
    bounds := ⟨⟨0, 0⟩, ⟨3, 2⟩⟩ }

/-- The buffer `image.NewGray(image.Rect(0, 0, 3, 2))`. -/
def gray3x2 : Image := ⟨.Gray, [0, 0, 0, 0, 0, 0], 3, ⟨⟨0, 0⟩, ⟨3, 2⟩⟩⟩

/-- A gray buffer of 4 x 2 pixels, every pixel 9. -/
def gray4x2 : Image := ⟨.Gray, [9, 9, 9, 9, 9, 9, 9, 9], 4, ⟨⟨0, 0⟩, ⟨4, 2⟩⟩⟩

/-- A directory of a 2 x 2 bilevel image under G4 compression. -/
def faxDir : IFD :=
  { tags := { ImageWidth := some 2, ImageLength := some 2 }
    byteOrder := .LittleEndian
    imageType := .Bilevel
    depth := 1
    channels := 1
    compression := TagValue_CompressionType_G4
    bounds := ⟨⟨0, 0⟩, ⟨2, 2⟩⟩ }

/-- The buffer `image.NewGray(image.Rect(0, 0, 2, 2))`. -/
def gray2x2 : Image := ⟨.Gray, [0, 0, 0, 0], 2, ⟨⟨0, 0⟩, ⟨2, 2⟩⟩⟩

/-- A directory of a 2 x 2 RGB image at depth 8, uncompressed. -/
def rgb2x2Dir : IFD :=
  { tags := { ImageWidth := some 2, ImageLength := some 2 }
    byteOrder := .LittleEndian
    imageType := .RGB
    depth := 8
    channels := 3
    compression := TagValue_CompressionType_None
    bounds := ⟨⟨0, 0⟩, ⟨2, 2⟩⟩ }

/-- The buffer `image.NewRGBA(image.Rect(0, 0, 2, 2))`. -/
def rgba2x2 : Image :=
  ⟨.RGBA, [0, 0, 0, 0, 0, 0, 0, 0, 0, 0, 0, 0, 0, 0, 0, 0], 8, ⟨⟨0, 0⟩, ⟨2, 2⟩⟩⟩

/-- The 18 bytes of a block of 3 x 2 RGB pixels: the pixel `(x, y)` of the block is
`(10*q + 1, 10*q + 2, 10*q + 3)` with `q = 3*y + x`. -/
def rgbBlock3x2 : List Nat :=
  [1, 2, 3, 11, 12, 13, 21, 22, 23, 31, 32, 33, 41, 42, 43, 51, 52, 53]

/-! ### Complete PackBits packets, as the format describes them -/

/-- A complete packet as the spec words it, with the bytes it stands for, to be compared
with the loop of `decode_PackBits`: a control byte `c` in `0..127` followed by `c+1`
literal bytes; a control byte in `-127..-1` followed by one byte, which is repeated
`1-c` times; the single control byte `-128`, which stands for nothing. -/
inductive Packet : List Nat → List Nat → Prop where
  | literal (c : Nat) (bs : List Nat) (h0 : 0 ≤ int8 c)
      (hlen : (bs.length : Int) = int8 c + 1) : Packet (c :: bs) bs
  | repeated (c b : Nat) (h0 : -127 ≤ int8 c) (h1 : int8 c ≤ -1) :
      Packet [c, b] (List.replicate (1 - int8 c).toNat b)
  | noop (c : Nat) (h : int8 c = -128) : Packet [c] []

/-- A concatenation of complete packets, with the bytes it stands for. -/
inductive Packets : List Nat → List Nat → Prop where
  | nil : Packets [] []
  | cons (p o ps os : List Nat) (hp : Packet p o) (hps : Packets ps os) :
      Packets (p ++ ps) (o ++ os)


/-! ## image_utils.go: allocation of the destination buffer -/

/-- The error of `newImageWithIFD` for a `YCbCr` image without the sub-sampling tag. -/
def errNoSubSampling : GoError := .msg "YCbCrSubSampling not found in tags"

/-- The error of `newImageWithIFD` for a sub-sampling tag that is not a pair. -/
def errSubSamplingLength : GoError := .msg "YCbCrSubSampling subsampling length must be 2"

/-- The error of `newImageWithIFD` for a sub-sampling pair it does not know. -/
def errSubSamplingRatio : GoError := .msg "tiff: Decode, unknown YCbCr Subsample Ratio"

/-- The error of `newImageWithIFD` for an image type it has no case for. -/
def errUnknownFormat : GoError := .msg "tiff: Decode, unknown format"

/-- Go `image.YCbCrSubsampleRatio`. -/
inductive YCbCrSubsampleRatio where
  | r444
  | r422
  | r420
  | r440
  | r411
  | r410
  deriving DecidableEq, Repr

/-- The chain of comparisons by which `newImageWithIFD` picks the sub-sampling ratio
from the two values of the tag; `none` when no comparison holds. -/
def subsampleRatioOf (s0 s1 : Int) : Option YCbCrSubsampleRatio :=
  if s0 = 4 ∧ s1 = 4 then some .r444
  else if s0 = 2 ∧ s1 = 2 then some .r422
  else if s0 = 2 ∧ s1 = 0 then some .r420
  else if s0 = 4 ∧ s1 = 0 then some .r440
  else if s0 = 1 ∧ s1 = 1 then some .r411
  else if s0 = 1 ∧ s1 = 0 then some .r410
  else none

/-- The constructors `image.NewGray`, `image.NewGray16`, `image.NewPaletted`,
`image.NewRGBA`, ... of the Go standard library: a zeroed buffer of the given type with
the bounds `r` and rows of `bytesPerPixel * r.Dx()` bytes; they panic on a rectangle of
negative width or height.  The palette of a `Paletted` buffer and the chroma planes of
a `YCbCr` buffer are not part of `Image`. -/
def newBuffer (k : ImageKind) (r : Rectangle) : Outcome Image :=
  if r.Dx < 0 ∨ r.Dy < 0 then .panic
  else .ok ⟨k, List.replicate (k.bytesPerPixel * r.Dx.toNat * r.Dy.toNat) 0,
    k.bytesPerPixel * r.Dx, r⟩

/-- Go function `newImageWithIFD`. -/
def newImageWithIFD (r : Rectangle) (ifd : IFD) : Outcome Image :=
  match ifd.imageType with
  | .Bilevel | .BilevelInvert => newBuffer .Gray r
  | .Gray | .GrayInvert =>
    if ifd.depth = 16 then newBuffer .Gray16 r else newBuffer .Gray r
  | .Paletted => newBuffer .Paletted r
  | .NRGBA =>
    if ifd.depth = 16 then newBuffer .NRGBA64 r else newBuffer .NRGBA r
  | .RGB | .RGBA =>
    if ifd.depth = 16 then newBuffer .RGBA64 r else newBuffer .RGBA r
  | .YCbCr =>
    if ifd.compression = TagValue_CompressionType_JPEG then newBuffer .RGBA r
    else
      let (subsampleRatio, ok) := ifd.tags.GetYCbCrSubSampling
      if !ok then .error errNoSubSampling
      else if subsampleRatio.length ≠ 2 then .error errSubSamplingLength
      else
        match subsampleRatioOf (subsampleRatio.getD 0 0) (subsampleRatio.getD 1 0) with
        | none => .error errSubSamplingRatio
        | some _ => newBuffer .YCbCr r
  | .CMYK => newBuffer .CMYK r
  | _ => .error errUnknownFormat

/-- A directory of an RGB image of 1 x 2 pixels at depth 16, big-endian, stored in
tiles of 2 x 2 pixels: its one tile overhangs the right edge. -/
def rgb16Dir : IFD :=
  { tags := { ImageWidth := some 1, ImageLength := some 2, TileWidth := some 2,
              TileLength := some 2 }
    byteOrder := .BigEndian
    imageType := .RGB
    depth := 16
    channels := 3
    compression := TagValue_CompressionType_None
    bounds := ⟨⟨0, 0⟩, ⟨1, 2⟩⟩ }

/-- The buffer `image.NewRGBA64(image.Rect(0, 0, 1, 2))`. -/
def rgba64x1x2 : Image :=
  ⟨.RGBA64, [0, 0, 0, 0, 0, 0, 0, 0, 0, 0, 0, 0, 0, 0, 0, 0], 8, ⟨⟨0, 0⟩, ⟨1, 2⟩⟩⟩

/-- The 24 bytes of a tile of 2 x 2 RGB pixels at depth 16, big-endian: the pixel
`(x, y)` of the tile has the samples `(10*q + 1, 10*q + 2, 10*q + 3)` with `q = 2*y + x`. -/
def rgb16Tile2x2 : List Nat :=
  [0, 1, 0, 2, 0, 3, 0, 11, 0, 12, 0, 13, 0, 21, 0, 22, 0, 23, 0, 31, 0, 32, 0, 33]

/-- A tiled directory whose width is the largest `int64`: an image of
9223372036854775807 x 1 pixels in tiles of 2 x 1. -/
def wideDir : TagGetter :=
  { ImageWidth := some 9223372036854775807
    ImageLength := some 1
    TileWidth := some 2
    TileLength := some 1 }

/-- A strip-organized directory whose height is the largest `int64`. -/
def tallDir : TagGetter :=
  { ImageWidth := some 1
    ImageLength := some 9223372036854775807 }

/-- A directory in tiles of 1 x 1 whose block counts 7 and 7905747460161236407 have
the product `3 * 2^64 + 1`, with arrays of one entry. -/
def wrapDir : TagGetter :=
  { ImageWidth := some 7
    ImageLength := some 7905747460161236407
    TileWidth := some 1
    TileLength := some 1
    TileOffsets := some [8]
    TileByteCounts := some [5] }

/-- The value `x` is a value of the Go type `int64` (or `int`). -/
def isInt64 (x : Int) : Prop := -9223372036854775808 ≤ x ∧ x < 9223372036854775808

instance (x : Int) : Decidable (isInt64 x) := by unfold isInt64; infer_instance

/-- The bit of `buf` at which the gray branch of `decodeBlock` for the depths other than
16 reads the sample of the pixel `(x,y)`: the loops read the samples of the clipped
rectangle row by row, `p.depth` bits each, and `flushBits` moves to the next byte
boundary after every row. -/
def grayBitPos (p : IFD) (dst : Image) (r : Rectangle) (x y : Int) : Nat :=
  (y - r.Min.Y).toNat * (((clipMaxX p dst r - r.Min.X).toNat * p.depth + 7) / 8 * 8)
    + (x - r.Min.X).toNat * p.depth

/-- The sample `v` that `bitReader.ReadBits(bpp)` returns for the pixel `(x,y)`. -/
def graySample (p : IFD) (buf : List Nat) (dst : Image) (r : Rectangle) (x y : Int) : Nat :=
  ((BitsReader.mk buf (grayBitPos p dst r x y)).ReadBits p.depth).2.1

/-- The value of `off` at which the 16-bit gray branch of `decodeBlock` reads the sample
of the pixel `(x,y)`: `off` runs through the pixels of the clipped rectangle, two bytes
each. -/
def gray16Offset (p : IFD) (dst : Image) (r : Rectangle) (x y : Int) : Nat :=
  2 * ((y - r.Min.Y).toNat * (clipMaxX p dst r - r.Min.X).toNat + (x - r.Min.X).toNat)

/-- The sample `v` that the 16-bit gray branch reads for the pixel `(x,y)`. -/
def gray16Sample (p : IFD) (buf : List Nat) (dst : Image) (r : Rectangle) (x y : Int) : Nat :=
  readU16 p.byteOrder buf (gray16Offset p dst r x y)

/-- A directory of a 3 x 2 inverted gray image at depth 16, uncompressed. -/
def grayInvert16Dir : IFD :=
  { tags := { ImageWidth := some 3, ImageLength := some 2 }
    byteOrder := .BigEndian
    imageType := .GrayInvert
    depth := 16
    channels := 1
    compression := TagValue_CompressionType_None
    bounds := ⟨⟨0, 0⟩, ⟨3, 2⟩⟩ }

/-- The buffer `image.NewGray16(image.Rect(0, 0, 3, 2))`. -/
def gray16x3x2 : Image :=
  ⟨.Gray16, [0, 0, 0, 0, 0, 0, 0, 0, 0, 0, 0, 0], 6, ⟨⟨0, 0⟩, ⟨3, 2⟩⟩⟩

/-! ## Theorems -/

/-! ### PackBits -/

theorem int8_small (n : Nat) (h : n < 128) : int8 n = (n : Int) := by
  unfold int8
  have h1 : n % 256 = n := Nat.mod_eq_of_lt (by omega)
  rw [h1]
  simp [h]

theorem int8_byteOfInt_neg (n : Nat) (h2 : 2 ≤ n) (h : n ≤ 128) :
    int8 (byteOfInt (1 - (n : Int))) = 1 - (n : Int) := by
  have hb : byteOfInt (1 - (n : Int)) = 257 - n := by
    unfold byteOfInt
    omega
  rw [hb]
  unfold int8
  have h1 : (257 - n) % 256 = 257 - n := Nat.mod_eq_of_lt (by omega)
  rw [h1]
  have h3 : ¬ (257 - n < 128) := by omega
  rw [if_neg h3]
  omega

theorem readFull_append (bs rest : List Nat) :
    readFull (bs ++ rest) bs.length = .ok (bs, rest) := by
  unfold readFull
  simp

theorem packBitsLoop_literal (fuel : Nat) (bs rest dst : List Nat)
    (h1 : 1 ≤ bs.length) (h2 : bs.length ≤ 128) :
    packBitsLoop (fuel + 1) ((bs.length - 1) :: (bs ++ rest)) dst
      = packBitsLoop fuel rest (dst ++ bs) := by
  have hc : int8 (bs.length - 1) = ((bs.length - 1 : Nat) : Int) := int8_small _ (by omega)
  have hn : (((bs.length - 1 : Nat) : Int) + 1).toNat = bs.length := by omega
  simp only [packBitsLoop, hc, hn, readFull_append]
  simp

theorem packBitsLoop_repeated (fuel : Nat) (b n : Nat) (rest dst : List Nat)
    (h1 : 1 ≤ n) (h2 : n ≤ 128) :
    packBitsLoop (fuel + 1) (byteOfInt (1 - (n : Int)) :: b :: rest) dst
      = packBitsLoop fuel rest (dst ++ List.replicate n b) := by
  rcases Nat.eq_or_lt_of_le h1 with h | h
  · subst h
    have := packBitsLoop_literal fuel [b] rest dst (by simp) (by simp)
    simpa [byteOfInt] using this
  · have hc := int8_byteOfInt_neg n (by omega) h2
    have h3 : ¬ (0 ≤ 1 - (n : Int)) := by omega
    have h4 : ¬ (1 - (n : Int) = -128) := by omega
    have h5 : (1 - (1 - (n : Int))).toNat = n := by omega
    simp only [packBitsLoop, hc, if_neg h3, if_neg h4, h5]

theorem packBitsLoop_run (fuel : Nat) (r : Run) (rest dst : List Nat) (h : r.WellFormed) :
    packBitsLoop (fuel + 1) (r.encode ++ rest) dst
      = packBitsLoop fuel rest (dst ++ r.expand) := by
  cases r with
  | literal bs =>
    exact packBitsLoop_literal fuel bs rest dst h.1 h.2
  | repeated b n =>
    exact packBitsLoop_repeated fuel b n rest dst h.1 h.2

theorem packBitsLoop_runs (runs : List Run) (h : ∀ r ∈ runs, r.WellFormed) :
    ∀ (fuel : Nat) (dst : List Nat), runs.length < fuel →
      packBitsLoop fuel (runs.flatMap Run.encode) dst
        = ⟨some (dst ++ runs.flatMap Run.expand), none, none⟩ := by
  induction runs with
  | nil =>
    intro fuel dst hf
    obtain ⟨f, rfl⟩ : ∃ f, fuel = f + 1 := ⟨fuel - 1, by simp at hf; omega⟩
    simp [packBitsLoop]
  | cons r rs ih =>
    intro fuel dst hf
    obtain ⟨f, rfl⟩ : ∃ f, fuel = f + 1 := ⟨fuel - 1, by simp at hf; omega⟩
    have hr : r.WellFormed := h r (by simp)
    have hrs : ∀ x ∈ rs, x.WellFormed := fun x hx => h x (by simp [hx])
    rw [List.flatMap_cons, packBitsLoop_run f r _ dst hr, ih hrs f _ (by simp at hf; omega)]
    simp [List.flatMap_cons]

theorem encode_length_pos (r : Run) : 1 ≤ r.encode.length := by
  cases r <;> simp [Run.encode]

theorem length_le_flatMap_encode (runs : List Run) :
    runs.length ≤ (runs.flatMap Run.encode).length := by
  induction runs with
  | nil => simp
  | cons r rs ih =>
    have := encode_length_pos r
    simp only [List.flatMap_cons, List.length_cons, List.length_append]
    omega

/-- C1: PackBits round trip.  For every sequence of well-formed runs (literal runs of
1..128 bytes, repeats of one byte 1..128 times), decoding the concatenation of their
packets succeeds with a nil image and returns exactly the concatenation of the runs. -/
theorem decode_PackBits_roundtrip (runs : List Run) (h : ∀ r ∈ runs, r.WellFormed) :
    decode_PackBits (runs.flatMap Run.encode)
      = ⟨some (runs.flatMap Run.expand), none, none⟩ := by
  unfold decode_PackBits
  have := packBitsLoop_runs runs h ((runs.flatMap Run.encode).length + 1) []
    (by have := length_le_flatMap_encode runs; omega)
  simpa using this

/-- Witness of C1: a literal run of 3 bytes, a repeat of 128 and a repeat of 1. -/
theorem decode_PackBits_roundtrip_witness :
    (∀ r ∈ [Run.literal [10, 11, 12], Run.repeated 7 128, Run.repeated 9 1], r.WellFormed) ∧
    decode_PackBits [2, 10, 11, 12, 129, 7, 0, 9]
      = ⟨some ([10, 11, 12] ++ List.replicate 128 7 ++ [9]), none, none⟩ :=
  ⟨by simp [Run.WellFormed],
   decode_PackBits_roundtrip [Run.literal [10, 11, 12], Run.repeated 7 128, Run.repeated 9 1]
     (by simp [Run.WellFormed])⟩

/-! ### Machine integers -/

theorem goInt_of_range (x : Int) (h0 : -9223372036854775808 ≤ x)
    (h1 : x < 9223372036854775808) : goInt x = x := by
  unfold goInt
  omega

theorem goInt_range (x : Int) :
    -9223372036854775808 ≤ goInt x ∧ goInt x < 9223372036854775808 := by
  unfold goInt
  omega

theorem goInt_overflow (x : Int) (h0 : 9223372036854775808 ≤ x)
    (h1 : x < 18446744073709551616) : goInt x = x - 18446744073709551616 := by
  unfold goInt
  omega

theorem goInt_zero : goInt 0 = 0 := by decide

/-! ### Outcomes -/

@[simp] theorem Outcome.ok_bind {α β : Type} (a : α) (f : α → Outcome β) :
    (Outcome.ok a >>= f) = f a := rfl

@[simp] theorem Outcome.error_bind {α β : Type} (e : GoError) (f : α → Outcome β) :
    ((Outcome.error e : Outcome α) >>= f) = Outcome.error e := rfl

@[simp] theorem Outcome.panic_bind {α β : Type} (f : α → Outcome β) :
    ((Outcome.panic : Outcome α) >>= f) = Outcome.panic := rfl

@[simp] theorem Outcome.pure_eq {α : Type} (a : α) : (pure a : Outcome α) = Outcome.ok a := rfl

/-! ### Predictor reversal -/

theorem getD_set_eq (l : List Nat) (i j a : Nat) :
    (l.set i a).getD j 0 = if i = j ∧ i < l.length then a else l.getD j 0 := by
  simp only [List.getD_eq_getElem?_getD, List.getElem?_set]
  by_cases h : i = j
  · subst h
    by_cases h2 : i < l.length
    · simp [h2]
    · simp [h2, List.getElem?_eq_none (Nat.le_of_not_lt h2)]
  · simp [h]

theorem mod_of_row (r L m : Nat) (h1 : r * L ≤ m) (h2 : m < (r + 1) * L) :
    m % L = m - r * L ∧ m / L = r := by
  have hL : 0 < L := by
    rcases Nat.eq_zero_or_pos L with h | h
    · subst h; simp at h2
    · exact h
  have hlt : m - r * L < L := by
    have : (r + 1) * L = r * L + L := by ring
    omega
  have hm : m = (m - r * L) + r * L := by omega
  constructor
  · conv_lhs => rw [hm]
    rw [Nat.add_mul_mod_self_right, Nat.mod_eq_of_lt hlt]
  · conv_lhs => rw [hm]
    rw [Nat.add_mul_div_right _ _ hL, Nat.div_eq_of_lt hlt]
    simp

theorem predictorRow8_inv (inp : List Nat) (T : Nat → Nat) (spp : Nat) (hspp : 1 ≤ spp) :
    ∀ (n : Nat) (data : List Nat) (off : Nat), Inv8 inp T data off → spp ≤ off →
      off + n ≤ inp.length →
      (∀ m, off ≤ m → m < off + n → T m = (inp.getD m 0 + T (m - spp)) % 256) →
      ∃ data1, predictorRow8 spp n data off = .ok (data1, off + n) ∧
        Inv8 inp T data1 (off + n) := by
  intro n
  induction n with
  | zero =>
    intro data off hinv _ _ _
    exact ⟨data, by simp [predictorRow8], by simpa using hinv⟩
  | succ n ih =>
    intro data off hinv hoff hlen hrec
    obtain ⟨hl, hv⟩ := hinv
    have h1 : ¬ off ≥ data.length := by omega
    have h2 : ¬ off < spp := by omega
    simp only [predictorRow8, if_neg h1, if_neg h2]
    have e1 : data.getD off 0 = inp.getD off 0 := by
      rw [hv off (by omega)]; simp
    have e2 : data.getD (off - spp) 0 = T (off - spp) := by
      rw [hv (off - spp) (by omega)]
      have : off - spp < off := by omega
      simp [this]
    rw [e1, e2, ← hrec off (le_refl _) (by omega)]
    have hinv1 : Inv8 inp T (data.set off (T off)) (off + 1) := by
      refine ⟨by simpa using hl, ?_⟩
      intro m hm
      rw [getD_set_eq, hv m hm]
      by_cases hmo : off = m
      · subst hmo
        have : off < data.length := by omega
        simp [this]
      · have c1 : ¬ (off = m ∧ off < data.length) := fun h => hmo h.1
        rw [if_neg c1]
        by_cases hlt : m < off
        · have : m < off + 1 := by omega
          simp [hlt, this]
        · have : ¬ m < off + 1 := by omega
          simp [hlt, this]
    obtain ⟨data1, hd, hi⟩ := ih (data.set off (T off)) (off + 1) hinv1 (by omega) (by omega)
      (fun m hm1 hm2 => hrec m (by omega) (by omega))
    refine ⟨data1, ?_, ?_⟩
    · rw [hd]
      have : off + 1 + n = off + (n + 1) := by ring
      rw [this]
    · have : off + 1 + n = off + (n + 1) := by ring
      rw [← this]
      exact hi

theorem predictorRows8_inv (inp : List Nat) (T : Nat → Nat) (spp Dx : Nat) (hspp : 1 ≤ spp)
    (hDx : 1 ≤ Dx) :
    ∀ (n r : Nat) (data : List Nat), Inv8 inp T data (r * (Dx * spp)) →
      (r + n) * (Dx * spp) ≤ inp.length →
      (∀ m, m < (r + n) * (Dx * spp) → m % (Dx * spp) < spp → T m = inp.getD m 0) →
      (∀ m, m < (r + n) * (Dx * spp) → spp ≤ m % (Dx * spp) →
        T m = (inp.getD m 0 + T (m - spp)) % 256) →
      ∃ out, predictorRows8 spp ((Dx - 1) * spp) n data (r * (Dx * spp)) = .ok out ∧
        Inv8 inp T out ((r + n) * (Dx * spp)) := by
  intro n
  induction n with
  | zero =>
    intro r data hinv _ _ _
    exact ⟨data, by simp [predictorRows8], by simpa using hinv⟩
  | succ n ih =>
    intro r data hinv hlen hfirst hrec
    have hL : Dx * spp = spp + (Dx - 1) * spp := by
      obtain ⟨d, rfl⟩ : ∃ d, Dx = d + 1 := ⟨Dx - 1, by omega⟩
      simp only [Nat.add_sub_cancel]
      ring
    have hrow : (r + 1) * (Dx * spp) = r * (Dx * spp) + spp + (Dx - 1) * spp := by
      rw [Nat.add_assoc, ← hL]; ring
    have hle : (r + 1) * (Dx * spp) ≤ (r + (n + 1)) * (Dx * spp) :=
      Nat.mul_le_mul_right _ (by omega)
    have hinv1 : Inv8 inp T data (r * (Dx * spp) + spp) := by
      refine ⟨hinv.1, ?_⟩
      intro m hm
      rw [hinv.2 m hm]
      by_cases h1 : m < r * (Dx * spp)
      · have : m < r * (Dx * spp) + spp := by omega
        simp [h1, this]
      · by_cases h2 : m < r * (Dx * spp) + spp
        · have hmod := (mod_of_row r (Dx * spp) m (by omega) (by omega)).1
          rw [if_neg h1, if_pos h2, hfirst m (by omega) (by omega)]
        · simp [h1, h2]
    obtain ⟨data1, hd, hi⟩ := predictorRow8_inv inp T spp hspp ((Dx - 1) * spp) data
      (r * (Dx * spp) + spp) hinv1 (by omega) (by omega)
      (fun m hm1 hm2 => by
        have hmod := (mod_of_row r (Dx * spp) m (by omega) (by omega)).1
        exact hrec m (by omega) (by omega))
    rw [← hrow] at hd hi
    simp only [predictorRows8, hd]
    have e : r + (n + 1) = r + 1 + n := by ring
    rw [e] at hlen hfirst hrec ⊢
    exact ih (r + 1) data1 hi hlen hfirst hrec

theorem decodePredictor_8_eq (spp Dx Dy : Nat) (o : ByteOrder) (data : List Nat)
    (r : Rectangle) (hDx : r.Dx = (Dx : Int)) (hDy : r.Dy = (Dy : Int)) :
    decodePredictor 8 spp o data r = predictorRows8 spp ((Dx - 1) * spp) Dy data 0 := by
  unfold Rectangle.Dy at hDy
  have h1 : ((r.Dx - 1) * (spp : Int)).toNat = (Dx - 1) * spp := by
    rw [hDx]
    rcases Nat.eq_zero_or_pos Dx with h | h
    · subst h
      simp only [Nat.cast_zero, zero_sub, Nat.zero_sub, zero_mul]
      have : (-1 : Int) * (spp : Int) ≤ 0 := by omega
      omega
    · have : ((Dx : Int) - 1) = ((Dx - 1 : Nat) : Int) := by omega
      rw [this, ← Nat.cast_mul]
      exact Int.toNat_natCast _
  have h2 : (r.Max.Y - r.Min.Y).toNat = Dy := by omega
  simp [decodePredictor, h1, h2]

theorem channelSum_first (inp : List Nat) (spp base i : Nat) (h : i < spp) :
    channelSum inp spp base i = inp.getD (base + i) 0 := by
  simp [channelSum, Nat.div_eq_of_lt h]

theorem channelSum_step (inp : List Nat) (spp base i : Nat) (hspp : 1 ≤ spp) (h : spp ≤ i) :
    channelSum inp spp base i = inp.getD (base + i) 0 + channelSum inp spp base (i - spp) := by
  unfold channelSum
  rw [Nat.div_eq_sub_div (by omega) h, Finset.sum_range_succ']
  simp only [zero_mul, Nat.sub_zero]
  rw [Nat.add_comm]
  congr 1
  apply Finset.sum_congr rfl
  intro k _
  have : base + i - (k + 1) * spp = base + (i - spp) - k * spp := by
    rw [Nat.add_mul, Nat.one_mul]
    omega
  rw [this]

theorem getD_lt_of_bytes (inp : List Nat) (hb : ∀ b ∈ inp, b < 256) (m : Nat) :
    inp.getD m 0 < 256 := by
  rw [List.getD_eq_getElem?_getD]
  by_cases h : m < inp.length
  · rw [List.getElem?_eq_getElem h]
    exact hb _ (List.getElem_mem h)
  · rw [List.getElem?_eq_none (Nat.le_of_not_lt h)]
    simp

/-- C7: 8-bit predictor reversal is a per-row, per-channel running sum.  For depth 8,
`spp ≥ 1`, a block of `Dx ≥ 1` columns and `Dy ≥ 0` rows and a byte buffer of at least
`Dy*Dx*spp` bytes, `decodePredictor` succeeds with a buffer of the same length in which
byte `i` of row `row` is the sum, mod 256, of the input bytes of its channel from the
start of the row; the first `spp` bytes of every row and the bytes from `Dy*Dx*spp` on
are unchanged. -/
theorem predictor8_running_sum (spp Dx Dy : Nat) (o : ByteOrder) (r : Rectangle)
    (inp : List Nat) (hspp : 1 ≤ spp) (hDx : 1 ≤ Dx)
    (hrDx : r.Dx = (Dx : Int)) (hrDy : r.Dy = (Dy : Int))
    (hlen : Dy * Dx * spp ≤ inp.length) (hbytes : ∀ b ∈ inp, b < 256) :
    ∃ out, decodePredictor 8 spp o inp r = .ok out ∧ out.length = inp.length ∧
      (∀ row i, row < Dy → i < Dx * spp →
        out.getD (row * Dx * spp + i) 0 = channelSum inp spp (row * Dx * spp) i % 256) ∧
      (∀ row i, row < Dy → i < spp →
        out.getD (row * Dx * spp + i) 0 = inp.getD (row * Dx * spp + i) 0) ∧
      (∀ m, Dy * Dx * spp ≤ m → out.getD m 0 = inp.getD m 0) := by
  rw [decodePredictor_8_eq spp Dx Dy o inp r hrDx hrDy]
  have hLpos : 0 < Dx * spp := Nat.mul_pos (by omega) (by omega)
  have hsL : spp ≤ Dx * spp := Nat.le_mul_of_pos_left spp (by omega)
  let T : Nat → Nat := fun m =>
    channelSum inp spp (m / (Dx * spp) * (Dx * spp)) (m % (Dx * spp)) % 256
  have hbase : ∀ m, m / (Dx * spp) * (Dx * spp) + m % (Dx * spp) = m := by
    intro m
    rw [Nat.mul_comm]
    exact Nat.div_add_mod m (Dx * spp)
  have hinv0 : Inv8 inp T inp (0 * (Dx * spp)) := by
    refine ⟨rfl, ?_⟩
    intro m _
    simp
  obtain ⟨out, hout, hl, hv⟩ := predictorRows8_inv inp T spp Dx hspp hDx Dy 0 inp hinv0
    (by rw [Nat.zero_add, ← Nat.mul_assoc]; exact hlen)
    (by
      intro m _ hm
      show channelSum inp spp _ _ % 256 = _
      rw [channelSum_first _ _ _ _ hm, hbase m]
      exact Nat.mod_eq_of_lt (getD_lt_of_bytes inp hbytes m))
    (by
      intro m _ hm
      show channelSum inp spp _ _ % 256 = (_ + channelSum inp spp _ _ % 256) % 256
      have hmL : m % (Dx * spp) < Dx * spp := Nat.mod_lt _ hLpos
      have hge : m / (Dx * spp) * (Dx * spp) ≤ m - spp := by
        have := hbase m
        omega
      have hlt : m - spp < (m / (Dx * spp) + 1) * (Dx * spp) := by
        have := hbase m
        rw [Nat.add_mul, Nat.one_mul]
        omega
      obtain ⟨e1, e2⟩ := mod_of_row (m / (Dx * spp)) (Dx * spp) (m - spp) hge hlt
      have e3 : (m - spp) % (Dx * spp) = m % (Dx * spp) - spp := by
        rw [e1]
        have := hbase m
        omega
      rw [e2, e3, channelSum_step _ _ _ _ hspp hm, hbase m]
      omega)
  rw [Nat.zero_mul] at hout
  rw [Nat.zero_add] at hv
  have hidx : ∀ row i, row < Dy → i < Dx * spp →
      row * Dx * spp + i < Dy * (Dx * spp) ∧
      (row * Dx * spp + i) / (Dx * spp) * (Dx * spp) = row * Dx * spp ∧
      (row * Dx * spp + i) % (Dx * spp) = i := by
    intro row i hrow hi
    have h1 : row * Dx * spp = row * (Dx * spp) := Nat.mul_assoc _ _ _
    have h2 : (row + 1) * (Dx * spp) ≤ Dy * (Dx * spp) := Nat.mul_le_mul_right _ (by omega)
    have h3 : (row + 1) * (Dx * spp) = row * (Dx * spp) + Dx * spp := by ring
    obtain ⟨e1, e2⟩ := mod_of_row row (Dx * spp) (row * Dx * spp + i) (by omega) (by omega)
    refine ⟨by omega, ?_, by omega⟩
    rw [e2, h1]
  refine ⟨out, hout, hl, ?_, ?_, ?_⟩
  · intro row i hrow hi
    obtain ⟨a1, a2, a3⟩ := hidx row i hrow hi
    rw [hv _ (by rw [← Nat.mul_assoc] at a1; omega), if_pos a1]
    show channelSum inp spp _ _ % 256 = _
    rw [a2, a3]
  · intro row i hrow hi
    obtain ⟨a1, a2, a3⟩ := hidx row i hrow (by omega)
    rw [hv _ (by rw [← Nat.mul_assoc] at a1; omega), if_pos a1]
    show channelSum inp spp _ _ % 256 = _
    rw [a2, a3, channelSum_first _ _ _ _ hi]
    exact Nat.mod_eq_of_lt (getD_lt_of_bytes inp hbytes _)
  · intro m hm
    by_cases hml : m < inp.length
    · rw [hv m hml]
      have : ¬ m < Dy * (Dx * spp) := by rw [← Nat.mul_assoc]; omega
      rw [if_neg this]
    · rw [List.getD_eq_getElem?_getD, List.getD_eq_getElem?_getD,
        List.getElem?_eq_none (by omega), List.getElem?_eq_none (by omega)]

/-- Witness of C7: two rows of three 8-bit samples followed by one spare byte. -/
theorem predictor8_running_sum_witness :
    ∃ out, decodePredictor 8 1 .LittleEndian [1, 2, 3, 250, 10, 20, 77] ⟨⟨0, 0⟩, ⟨3, 2⟩⟩
        = .ok out ∧ out.length = 7 ∧ out.getD 5 0 = (250 + 10 + 20) % 256 ∧
        out.getD 3 0 = 250 ∧ out.getD 6 0 = 77 := by
  obtain ⟨out, h1, h2, h3, h4, h5⟩ := predictor8_running_sum 1 3 2 .LittleEndian
    ⟨⟨0, 0⟩, ⟨3, 2⟩⟩ [1, 2, 3, 250, 10, 20, 77] (by decide) (by decide) (by decide)
    (by decide) (by decide) (by decide)
  refine ⟨out, h1, h2, ?_, ?_, ?_⟩
  · have := h3 1 2 (by decide) (by decide)
    rw [this]
    decide
  · exact h4 1 0 (by decide) (by decide)
  · exact h5 6 (by decide)

theorem decodePredictor_16_eq (spp Dx Dy : Nat) (o : ByteOrder) (data : List Nat)
    (r : Rectangle) (hDx : r.Dx = (Dx : Int)) (hDy : r.Dy = (Dy : Int)) :
    decodePredictor 16 spp o data r = predictorRows16 o spp ((Dx - 1) * spp) Dy data 0 := by
  unfold Rectangle.Dy at hDy
  have h1 : ((r.Dx - 1) * (spp : Int)).toNat = (Dx - 1) * spp := by
    rw [hDx]
    rcases Nat.eq_zero_or_pos Dx with h | h
    · subst h
      simp only [Nat.cast_zero, zero_sub, Nat.zero_sub, zero_mul]
      have : (-1 : Int) * (spp : Int) ≤ 0 := by omega
      omega
    · have : ((Dx : Int) - 1) = ((Dx - 1 : Nat) : Int) := by omega
      rw [this, ← Nat.cast_mul]
      exact Int.toNat_natCast _
  have h2 : (r.Max.Y - r.Min.Y).toNat = Dy := by omega
  simp [decodePredictor, h1, h2]

/-- What the inner 8-bit loop returns, by the length of the buffer alone. -/
theorem predictorRow8_outcome (spp : Nat) :
    ∀ (n : Nat) (data : List Nat) (off : Nat), spp ≤ off →
      ((n = 0 ∨ off + n ≤ data.length) →
        ∃ data1, predictorRow8 spp n data off = .ok (data1, off + n) ∧
          data1.length = data.length) ∧
      (1 ≤ n → data.length < off + n →
        predictorRow8 spp n data off = .error errPredictorData) := by
  intro n
  induction n with
  | zero =>
    intro data off _
    exact ⟨fun _ => ⟨data, by simp [predictorRow8]⟩, fun h => absurd h (by omega)⟩
  | succ n ih =>
    intro data off hoff
    have h2 : ¬ off < spp := by omega
    constructor
    · intro h
      have h1 : ¬ off ≥ data.length := by omega
      simp only [predictorRow8, if_neg h1, if_neg h2]
      obtain ⟨data1, hd, hl⟩ := (ih (data.set off
        ((data.getD off 0 + data.getD (off - spp) 0) % 256)) (off + 1) (by omega)).1
        (by right; simp only [List.length_set]; omega)
      refine ⟨data1, ?_, by simpa using hl⟩
      rw [hd]
      have : off + 1 + n = off + (n + 1) := by ring
      rw [this]
    · intro _ hlt
      by_cases h1 : off ≥ data.length
      · simp only [predictorRow8, if_pos h1]
      · simp only [predictorRow8, if_neg h1, if_neg h2]
        exact (ih _ (off + 1) (by omega)).2 (by omega)
          (by simp only [List.length_set]; omega)

/-- What the inner 16-bit loop returns, by the length of the buffer alone. -/
theorem predictorRow16_outcome (o : ByteOrder) (spp : Nat) :
    ∀ (n : Nat) (data : List Nat) (off : Nat), spp * 2 ≤ off →
      ((n = 0 ∨ off + 2 * n ≤ data.length) →
        ∃ data1, predictorRow16 o spp n data off = .ok (data1, off + 2 * n) ∧
          data1.length = data.length) ∧
      (1 ≤ n → data.length < off + 2 * n →
        predictorRow16 o spp n data off = .error errPredictorData) := by
  intro n
  induction n with
  | zero =>
    intro data off _
    exact ⟨fun _ => ⟨data, by simp [predictorRow16]⟩, fun h => absurd h (by omega)⟩
  | succ n ih =>
    intro data off hoff
    have h2 : ¬ off < spp * 2 := by omega
    constructor
    · intro h
      have h1 : ¬ off + 2 > data.length := by omega
      simp only [predictorRow16, if_neg h1, if_neg h2]
      obtain ⟨data1, hd, hl⟩ := (ih ((data.set off (o.PutUint16
          ((o.Uint16 (data.getD off 0) (data.getD (off + 1) 0) +
            o.Uint16 (data.getD (off - spp * 2) 0) (data.getD (off - spp * 2 + 1) 0))
              % 65536)).1).set (off + 1) (o.PutUint16
          ((o.Uint16 (data.getD off 0) (data.getD (off + 1) 0) +
            o.Uint16 (data.getD (off - spp * 2) 0) (data.getD (off - spp * 2 + 1) 0))
              % 65536)).2) (off + 2) (by omega)).1
        (by right; simp only [List.length_set]; omega)
      refine ⟨data1, ?_, by simpa using hl⟩
      rw [hd]
      have : off + 2 + 2 * n = off + 2 * (n + 1) := by ring
      rw [this]
    · intro _ hlt
      by_cases h1 : off + 2 > data.length
      · simp only [predictorRow16, if_pos h1]
      · simp only [predictorRow16, if_neg h1, if_neg h2]
        exact (ih _ (off + 2) (by omega)).2 (by omega)
          (by simp only [List.length_set]; omega)

theorem predictorRows8_no_panic (spp cols : Nat) :
    ∀ (n : Nat) (data : List Nat) (off : Nat),
      predictorRows8 spp cols n data off ≠ .panic := by
  intro n
  induction n with
  | zero => intro data off; simp [predictorRows8]
  | succ n ih =>
    intro data off
    obtain ⟨hok, herr⟩ := predictorRow8_outcome spp cols data (off + spp) (by omega)
    by_cases h : cols = 0 ∨ off + spp + cols ≤ data.length
    · obtain ⟨data1, hd, _⟩ := hok h
      simp only [predictorRows8, hd]
      exact ih _ _
    · have := herr (by omega) (by omega)
      simp [predictorRows8, this]

theorem predictorRows16_no_panic (o : ByteOrder) (spp cols : Nat) :
    ∀ (n : Nat) (data : List Nat) (off : Nat),
      predictorRows16 o spp cols n data off ≠ .panic := by
  intro n
  induction n with
  | zero => intro data off; simp [predictorRows16]
  | succ n ih =>
    intro data off
    obtain ⟨hok, herr⟩ := predictorRow16_outcome o spp cols data (off + spp * 2) (by omega)
    by_cases h : cols = 0 ∨ off + spp * 2 + 2 * cols ≤ data.length
    · obtain ⟨data1, hd, _⟩ := hok h
      simp only [predictorRows16, hd]
      exact ih _ _
    · have := herr (by omega) (by omega)
      simp [predictorRows16, this]

theorem predictorRows8_short (spp Dx : Nat) (hDx : 2 ≤ Dx) (hspp : 1 ≤ spp) :
    ∀ (n r : Nat) (data : List Nat), 1 ≤ n → data.length < (r + n) * (Dx * spp) →
      predictorRows8 spp ((Dx - 1) * spp) n data (r * (Dx * spp))
        = .error errPredictorData := by
  intro n
  induction n with
  | zero => intro r data h; omega
  | succ n ih =>
    intro r data _ hlen
    have hL : Dx * spp = spp + (Dx - 1) * spp := by
      obtain ⟨d, rfl⟩ : ∃ d, Dx = d + 1 := ⟨Dx - 1, by omega⟩
      simp only [Nat.add_sub_cancel]
      ring
    have hrow : (r + 1) * (Dx * spp) = r * (Dx * spp) + spp + (Dx - 1) * spp := by
      rw [Nat.add_assoc, ← hL]; ring
    have hcols : 1 ≤ (Dx - 1) * spp := Nat.mul_pos (by omega) (by omega)
    obtain ⟨hok, herr⟩ := predictorRow8_outcome spp ((Dx - 1) * spp) data
      (r * (Dx * spp) + spp) (by omega)
    by_cases h : (r + 1) * (Dx * spp) ≤ data.length
    · obtain ⟨data1, hd, hl1⟩ := hok (Or.inr (by omega))
      rw [← hrow] at hd
      simp only [predictorRows8, hd]
      have e : r + (n + 1) = r + 1 + n := by ring
      rw [e] at hlen
      have hn : 1 ≤ n := by
        rcases Nat.eq_zero_or_pos n with h0 | h0
        · subst h0; simp at hlen; omega
        · exact h0
      exact ih (r + 1) data1 hn (by omega)
    · have := herr hcols (by omega)
      simp only [predictorRows8, this]

theorem predictorRows16_short (o : ByteOrder) (spp Dx : Nat) (hDx : 2 ≤ Dx) (hspp : 1 ≤ spp) :
    ∀ (n r : Nat) (data : List Nat), 1 ≤ n → data.length < (r + n) * (Dx * spp * 2) →
      predictorRows16 o spp ((Dx - 1) * spp) n data (r * (Dx * spp * 2))
        = .error errPredictorData := by
  intro n
  induction n with
  | zero => intro r data h; omega
  | succ n ih =>
    intro r data _ hlen
    have hL : Dx * spp * 2 = spp * 2 + 2 * ((Dx - 1) * spp) := by
      obtain ⟨d, rfl⟩ : ∃ d, Dx = d + 1 := ⟨Dx - 1, by omega⟩
      simp only [Nat.add_sub_cancel]
      ring
    have hrow : (r + 1) * (Dx * spp * 2)
        = r * (Dx * spp * 2) + spp * 2 + 2 * ((Dx - 1) * spp) := by
      rw [Nat.add_assoc, ← hL]; ring
    have hcols : 1 ≤ (Dx - 1) * spp := Nat.mul_pos (by omega) (by omega)
    obtain ⟨hok, herr⟩ := predictorRow16_outcome o spp ((Dx - 1) * spp) data
      (r * (Dx * spp * 2) + spp * 2) (by omega)
    by_cases h : (r + 1) * (Dx * spp * 2) ≤ data.length
    · obtain ⟨data1, hd, hl1⟩ := hok (Or.inr (by omega))
      rw [← hrow] at hd
      simp only [predictorRows16, hd]
      have e : r + (n + 1) = r + 1 + n := by ring
      rw [e] at hlen
      have hn : 1 ≤ n := by
        rcases Nat.eq_zero_or_pos n with h0 | h0
        · subst h0; simp at hlen; omega
        · exact h0
      exact ih (r + 1) data1 hn (by omega)
    · have := herr hcols (by omega)
      simp only [predictorRows16, this]

/-- C8, as stated, fails for blocks one column wide: no sample is differenced, nothing
is read, and `decodePredictor` succeeds on a buffer shorter than the block (here the
empty buffer for a 1 x 1 block of depth 8, and one byte for a 1 x 3 block of depth 16
with three samples per pixel). -/
theorem predictor_short_buffer_accepted :
    (([] : List Nat).length < 1 * 1 * 1 * (8 / 8) ∧
      decodePredictor 8 1 .LittleEndian [] ⟨⟨0, 0⟩, ⟨1, 1⟩⟩ = .ok []) ∧
    (([7] : List Nat).length < 3 * 1 * 3 * (16 / 8) ∧
      decodePredictor 16 3 .BigEndian [7] ⟨⟨0, 0⟩, ⟨1, 3⟩⟩ = .ok [7]) := by
  decide

/-- C8, amended: for depth 8 or 16, `spp ≥ 1` and a block of `Dx ≥ 1` columns and
`Dy ≥ 1` rows whose size in bytes `Dy*Dx*spp*(depth/8)` fits an `int` (so that the loop
bound `(r.Dx()-1)*spp*(depth/8)` of the code is the exact product and does not wrap),
`decodePredictor` never indexes the buffer out of range, and when the block has at
least two columns (`Dx ≥ 2`) it returns the "not enough pixel data" error on every
buffer shorter than `Dy*Dx*spp*(depth/8)` bytes. -/
theorem predictor_underrun (depth spp Dx Dy : Nat) (o : ByteOrder) (r : Rectangle)
    (data : List Nat) (hdepth : depth = 8 ∨ depth = 16) (hspp : 1 ≤ spp) (hDx : 1 ≤ Dx)
    (hDy : 1 ≤ Dy) (hrDx : r.Dx = (Dx : Int)) (hrDy : r.Dy = (Dy : Int))
    (hfit : Dy * Dx * spp * (depth / 8) < 9223372036854775808) :
    goInt ((r.Dx - 1) * (spp : Int) * ((depth / 8 : Nat) : Int))
      = (r.Dx - 1) * (spp : Int) * ((depth / 8 : Nat) : Int) ∧
    decodePredictor depth spp o data r ≠ .panic ∧
    (2 ≤ Dx → data.length < Dy * Dx * spp * (depth / 8) →
      decodePredictor depth spp o data r = .error errPredictorData) := by
  refine ⟨?_, ?_⟩
  · rw [hrDx]
    have e1 : ((Dx : Int) - 1) * (spp : Int) * ((depth / 8 : Nat) : Int)
        = (((Dx - 1) * spp * (depth / 8) : Nat) : Int) := by
      push_cast [Nat.cast_sub hDx]
      ring
    have e2 : (Dx - 1) * spp * (depth / 8) ≤ Dy * Dx * spp * (depth / 8) := by
      apply Nat.mul_le_mul_right
      apply Nat.mul_le_mul_right
      calc Dx - 1 ≤ Dx := Nat.sub_le _ _
        _ = 1 * Dx := (Nat.one_mul _).symm
        _ ≤ Dy * Dx := Nat.mul_le_mul_right _ hDy
    rw [e1]
    exact goInt_of_range _ (by omega) (by omega)
  rcases hdepth with h | h
  · subst h
    rw [decodePredictor_8_eq spp Dx Dy o data r hrDx hrDy]
    refine ⟨predictorRows8_no_panic _ _ _ _ _, ?_⟩
    intro h2 hlen
    have := predictorRows8_short spp Dx h2 hspp Dy 0 data hDy
      (by
        have e : Dy * Dx * spp * (8 / 8) = (0 + Dy) * (Dx * spp) := by
          simp [Nat.mul_assoc]
        omega)
    simpa using this
  · subst h
    rw [decodePredictor_16_eq spp Dx Dy o data r hrDx hrDy]
    refine ⟨predictorRows16_no_panic _ _ _ _ _ _, ?_⟩
    intro h2 hlen
    have := predictorRows16_short o spp Dx h2 hspp Dy 0 data hDy
      (by
        have e : Dy * Dx * spp * (16 / 8) = (0 + Dy) * (Dx * spp * 2) := by
          simp [Nat.mul_assoc]
        omega)
    simpa using this

/-- Witness of C8 as amended: a row of three samples in a buffer of two bytes. -/
theorem predictor_underrun_witness :
    decodePredictor 8 1 .LittleEndian [1, 2] ⟨⟨0, 0⟩, ⟨3, 1⟩⟩ ≠ .panic ∧
    decodePredictor 8 1 .LittleEndian [1, 2] ⟨⟨0, 0⟩, ⟨3, 1⟩⟩ = .error errPredictorData :=
  have h := predictor_underrun 8 1 3 1 .LittleEndian ⟨⟨0, 0⟩, ⟨3, 1⟩⟩ [1, 2] (Or.inl rfl)
    (by decide) (by decide) (by decide) (by decide) (by decide) (by decide)
  ⟨h.2.1, h.2.2 (by decide) (by decide)⟩

theorem list_eq_of_getD (l1 l2 : List Nat) (hl : l1.length = l2.length)
    (h : ∀ m, m < l2.length → l1.getD m 0 = l2.getD m 0) : l1 = l2 := by
  apply List.ext_getElem hl
  intro n h1 h2
  have := h n h2
  rw [List.getD_eq_getElem?_getD, List.getD_eq_getElem?_getD, List.getElem?_eq_getElem h1,
    List.getElem?_eq_getElem h2] at this
  simpa using this

theorem getD_map_range (f : Nat → Nat) (n m : Nat) (h : m < n) :
    ((List.range n).map f).getD m 0 = f m := by
  rw [List.getD_eq_getElem?_getD, List.getElem?_eq_getElem (by simpa using h)]
  simp

theorem diffEncode8_length (spp rowLen : Nat) (orig : List Nat) :
    (diffEncode8 spp rowLen orig).length = orig.length := by
  simp [diffEncode8]

theorem diffEncode16_length (o : ByteOrder) (spp rowLen : Nat) (orig : List Nat) :
    (diffEncode16 o spp rowLen orig).length = orig.length := by
  simp [diffEncode16]

theorem predictor8_roundtrip (spp Dx Dy : Nat) (o : ByteOrder) (r : Rectangle)
    (buf : List Nat) (hspp : 1 ≤ spp) (hDx : 1 ≤ Dx)
    (hrDx : r.Dx = (Dx : Int)) (hrDy : r.Dy = (Dy : Int))
    (hlen : buf.length = Dy * Dx * spp) (hbytes : ∀ b ∈ buf, b < 256) :
    decodePredictor 8 spp o (diffEncode8 spp (Dx * spp) buf) r = .ok buf := by
  rw [decodePredictor_8_eq spp Dx Dy o _ r hrDx hrDy]
  have hel := diffEncode8_length spp (Dx * spp) buf
  have hinv0 : Inv8 (diffEncode8 spp (Dx * spp) buf) (fun m => buf.getD m 0)
      (diffEncode8 spp (Dx * spp) buf) (0 * (Dx * spp)) := by
    refine ⟨rfl, ?_⟩
    intro m _
    simp
  have htot : (0 + Dy) * (Dx * spp) = buf.length := by
    rw [hlen, Nat.zero_add, Nat.mul_assoc]
  obtain ⟨out, hout, hl, hv⟩ := predictorRows8_inv (diffEncode8 spp (Dx * spp) buf)
    (fun m => buf.getD m 0) spp Dx hspp hDx Dy 0 _ hinv0
    (by rw [htot, hel])
    (by
      intro m hm hmod
      rw [htot] at hm
      simp only [diffEncode8]
      rw [getD_map_range _ _ _ hm, if_pos hmod])
    (by
      intro m hm hmod
      rw [htot] at hm
      simp only [diffEncode8]
      rw [getD_map_range _ _ _ hm, if_neg (by omega)]
      have h1 := getD_lt_of_bytes buf hbytes m
      have h2 := getD_lt_of_bytes buf hbytes (m - spp)
      omega)
  rw [Nat.zero_mul] at hout
  rw [hout]
  congr 1
  rw [htot] at hv
  rw [hel] at hl hv
  apply list_eq_of_getD out buf hl
  intro m hm
  rw [hv m hm, if_pos hm]

theorem Uint16_PutUint16 (o : ByteOrder) (v : Nat) (h : v < 65536) :
    o.Uint16 (o.PutUint16 v).1 (o.PutUint16 v).2 = v := by
  cases o <;> simp only [ByteOrder.Uint16, ByteOrder.PutUint16] <;> omega

theorem PutUint16_Uint16 (o : ByteOrder) (b0 b1 : Nat) (h0 : b0 < 256) (h1 : b1 < 256) :
    o.PutUint16 (o.Uint16 b0 b1) = (b0, b1) := by
  cases o <;> simp only [ByteOrder.Uint16, ByteOrder.PutUint16, Prod.mk.injEq] <;>
    constructor <;> omega

theorem Uint16_lt (o : ByteOrder) (b0 b1 : Nat) (h0 : b0 < 256) (h1 : b1 < 256) :
    o.Uint16 b0 b1 < 65536 := by
  cases o <;> simp only [ByteOrder.Uint16] <;> omega

theorem predictorRow16_inv (inp : List Nat) (B : Nat → Nat) (o : ByteOrder) (spp : Nat)
    (hspp : 1 ≤ spp) :
    ∀ (n : Nat) (data : List Nat) (off : Nat), Inv8 inp B data off → spp * 2 ≤ off →
      off + 2 * n ≤ inp.length →
      (∀ j, j < n →
        o.PutUint16 ((o.Uint16 (inp.getD (off + 2 * j) 0) (inp.getD (off + 2 * j + 1) 0) +
          o.Uint16 (B (off + 2 * j - spp * 2)) (B (off + 2 * j - spp * 2 + 1))) % 65536)
          = (B (off + 2 * j), B (off + 2 * j + 1))) →
      ∃ data1, predictorRow16 o spp n data off = .ok (data1, off + 2 * n) ∧
        Inv8 inp B data1 (off + 2 * n) := by
  intro n
  induction n with
  | zero =>
    intro data off hinv _ _ _
    exact ⟨data, by simp [predictorRow16], by simpa using hinv⟩
  | succ n ih =>
    intro data off hinv hoff hlen hrec
    obtain ⟨hl, hv⟩ := hinv
    have h1 : ¬ off + 2 > data.length := by omega
    have h2 : ¬ off < spp * 2 := by omega
    simp only [predictorRow16, if_neg h1, if_neg h2]
    have e1 : data.getD off 0 = inp.getD off 0 := by
      rw [hv off (by omega)]; simp
    have e2 : data.getD (off + 1) 0 = inp.getD (off + 1) 0 := by
      rw [hv (off + 1) (by omega)]; simp
    have e3 : data.getD (off - spp * 2) 0 = B (off - spp * 2) := by
      rw [hv (off - spp * 2) (by omega)]
      have : off - spp * 2 < off := by omega
      simp [this]
    have e4 : data.getD (off - spp * 2 + 1) 0 = B (off - spp * 2 + 1) := by
      rw [hv (off - spp * 2 + 1) (by omega)]
      have : off - spp * 2 + 1 < off := by omega
      simp [this]
    have hr0 := hrec 0 (by omega)
    simp only [Nat.mul_zero, Nat.add_zero] at hr0
    rw [e1, e2, e3, e4, hr0]
    have hinv1 : Inv8 inp B ((data.set off (B off)).set (off + 1) (B (off + 1))) (off + 2) := by
      refine ⟨by simpa using hl, ?_⟩
      intro m hm
      rw [getD_set_eq, getD_set_eq, hv m hm]
      simp only [List.length_set]
      by_cases hm1 : off + 1 = m
      · subst hm1
        have : off + 1 < data.length := by omega
        simp [this]
      · have c1 : ¬ (off + 1 = m ∧ off + 1 < data.length) := fun h => hm1 h.1
        rw [if_neg c1]
        by_cases hmo : off = m
        · subst hmo
          have : off < data.length := by omega
          simp [this]
        · have c2 : ¬ (off = m ∧ off < data.length) := fun h => hmo h.1
          rw [if_neg c2]
          by_cases hlt : m < off
          · have : m < off + 2 := by omega
            simp [hlt, this]
          · have : ¬ m < off + 2 := by omega
            simp [hlt, this]
    obtain ⟨data1, hd, hi⟩ := ih _ (off + 2) hinv1 (by omega) (by omega)
      (fun j hj => by
        have := hrec (j + 1) (by omega)
        have e : off + 2 * (j + 1) = off + 2 + 2 * j := by ring
        rw [e] at this
        exact this)
    have e : off + 2 + 2 * n = off + 2 * (n + 1) := by ring
    refine ⟨data1, ?_, ?_⟩
    · rw [hd, e]
    · rw [← e]
      exact hi

theorem predictorRows16_inv (inp : List Nat) (B : Nat → Nat) (o : ByteOrder) (spp Dx : Nat)
    (hspp : 1 ≤ spp) (hDx : 1 ≤ Dx) :
    ∀ (n r : Nat) (data : List Nat), Inv8 inp B data (r * (Dx * spp * 2)) →
      (r + n) * (Dx * spp * 2) ≤ inp.length →
      (∀ m, m < (r + n) * (Dx * spp * 2) → m % (Dx * spp * 2) < spp * 2 →
        B m = inp.getD m 0) →
      (∀ m, m < (r + n) * (Dx * spp * 2) → m % 2 = 0 → spp * 2 ≤ m % (Dx * spp * 2) →
        o.PutUint16 ((o.Uint16 (inp.getD m 0) (inp.getD (m + 1) 0) +
          o.Uint16 (B (m - spp * 2)) (B (m - spp * 2 + 1))) % 65536)
          = (B m, B (m + 1))) →
      ∃ out, predictorRows16 o spp ((Dx - 1) * spp) n data (r * (Dx * spp * 2)) = .ok out ∧
        Inv8 inp B out ((r + n) * (Dx * spp * 2)) := by
  intro n
  induction n with
  | zero =>
    intro r data hinv _ _ _
    exact ⟨data, by simp [predictorRows16], by simpa using hinv⟩
  | succ n ih =>
    intro r data hinv hlen hfirst hrec
    have hL : Dx * spp * 2 = spp * 2 + 2 * ((Dx - 1) * spp) := by
      obtain ⟨d, rfl⟩ : ∃ d, Dx = d + 1 := ⟨Dx - 1, by omega⟩
      simp only [Nat.add_sub_cancel]
      ring
    have hrow : (r + 1) * (Dx * spp * 2)
        = r * (Dx * spp * 2) + spp * 2 + 2 * ((Dx - 1) * spp) := by
      rw [Nat.add_assoc, ← hL]; ring
    have heven : r * (Dx * spp * 2) = 2 * (r * (Dx * spp)) := by ring
    have hle : (r + 1) * (Dx * spp * 2) ≤ (r + (n + 1)) * (Dx * spp * 2) :=
      Nat.mul_le_mul_right _ (by omega)
    have hinv1 : Inv8 inp B data (r * (Dx * spp * 2) + spp * 2) := by
      refine ⟨hinv.1, ?_⟩
      intro m hm
      rw [hinv.2 m hm]
      by_cases h1 : m < r * (Dx * spp * 2)
      · have : m < r * (Dx * spp * 2) + spp * 2 := by omega
        simp [h1, this]
      · by_cases h2 : m < r * (Dx * spp * 2) + spp * 2
        · have hmod := (mod_of_row r (Dx * spp * 2) m (by omega) (by omega)).1
          rw [if_neg h1, if_pos h2, hfirst m (by omega) (by omega)]
        · simp [h1, h2]
    obtain ⟨data1, hd, hi⟩ := predictorRow16_inv inp B o spp hspp ((Dx - 1) * spp) data
      (r * (Dx * spp * 2) + spp * 2) hinv1 (by omega) (by omega)
      (fun j hj => by
        have hj2 : 2 * j < 2 * ((Dx - 1) * spp) := by omega
        have hmod := (mod_of_row r (Dx * spp * 2) (r * (Dx * spp * 2) + spp * 2 + 2 * j)
          (by omega) (by omega)).1
        exact hrec _ (by omega) (by omega) (by omega))
    rw [← hrow] at hd hi
    simp only [predictorRows16, hd]
    have e : r + (n + 1) = r + 1 + n := by ring
    rw [e] at hlen hfirst hrec ⊢
    exact ih (r + 1) data1 hi hlen hfirst hrec

theorem mod_double (m L : Nat) : m % (L * 2) = m % 2 + 2 * (m / 2 % L) := by
  rw [Nat.mul_comm L 2]
  exact Nat.mod_mul

theorem predictor16_roundtrip (spp Dx Dy : Nat) (o : ByteOrder) (r : Rectangle)
    (buf : List Nat) (hspp : 1 ≤ spp) (hDx : 1 ≤ Dx)
    (hrDx : r.Dx = (Dx : Int)) (hrDy : r.Dy = (Dy : Int))
    (hlen : buf.length = Dy * Dx * spp * 2) (hbytes : ∀ b ∈ buf, b < 256) :
    decodePredictor 16 spp o (diffEncode16 o spp (Dx * spp) buf) r = .ok buf := by
  rw [decodePredictor_16_eq spp Dx Dy o _ r hrDx hrDy]
  have hel := diffEncode16_length o spp (Dx * spp) buf
  have hb := getD_lt_of_bytes buf hbytes
  have hs : ∀ j, sample16 o buf j < 65536 := fun j => Uint16_lt o _ _ (hb _) (hb _)
  have hinv0 : Inv8 (diffEncode16 o spp (Dx * spp) buf) (fun m => buf.getD m 0)
      (diffEncode16 o spp (Dx * spp) buf) (0 * (Dx * spp * 2)) := by
    refine ⟨rfl, ?_⟩
    intro m _
    simp
  have htot : (0 + Dy) * (Dx * spp * 2) = buf.length := by
    rw [hlen, Nat.zero_add]
    ring
  have hevenlen : buf.length % 2 = 0 := by
    rw [hlen]
    exact Nat.mul_mod_left _ _
  obtain ⟨out, hout, hl, hv⟩ := predictorRows16_inv (diffEncode16 o spp (Dx * spp) buf)
    (fun m => buf.getD m 0) o spp Dx hspp hDx Dy 0 _ hinv0
    (by rw [htot, hel])
    (by
      intro m hm hmod
      rw [htot] at hm
      have hmd := mod_double m (Dx * spp)
      rw [Nat.mul_assoc] at hmd
      rw [Nat.mul_assoc] at hmod
      have hj : m / 2 % (Dx * spp) < spp := by omega
      simp only [diffEncode16]
      rw [getD_map_range _ _ _ hm]
      simp only [if_pos hj, sample16]
      rw [PutUint16_Uint16 o _ _ (hb _) (hb _)]
      by_cases h2 : m % 2 = 0
      · have : 2 * (m / 2) = m := by omega
        simp [h2, this]
      · have : 2 * (m / 2) + 1 = m := by omega
        simp [h2, this])
    (by
      intro m hm heven hmod
      rw [htot] at hm
      have hm1 : m + 1 < buf.length := by omega
      have hmd := mod_double m (Dx * spp)
      rw [Nat.mul_assoc] at hmd
      rw [Nat.mul_assoc] at hmod
      have hj : ¬ m / 2 % (Dx * spp) < spp := by omega
      have hjge : spp ≤ m / 2 := by
        have := Nat.mod_le (m / 2) (Dx * spp)
        omega
      have hdiv1 : (m + 1) / 2 = m / 2 := by omega
      have hmod1 : ¬ (m + 1) % 2 = 0 := by omega
      have hm2 : 2 * (m / 2) = m := by omega
      simp only [diffEncode16]
      rw [getD_map_range _ _ _ hm, getD_map_range _ _ _ hm1]
      simp only [hdiv1, if_pos heven, if_neg hmod1, if_neg hj]
      rw [Uint16_PutUint16 o _ (Nat.mod_lt _ (by decide))]
      have e1 : o.Uint16 (buf.getD (m - spp * 2) 0) (buf.getD (m - spp * 2 + 1) 0)
          = sample16 o buf (m / 2 - spp) := by
        have : 2 * (m / 2 - spp) = m - spp * 2 := by omega
        simp only [sample16, this]
      rw [e1]
      have h1 := hs (m / 2)
      have h2 := hs (m / 2 - spp)
      have e2 : ((sample16 o buf (m / 2) + 65536 - sample16 o buf (m / 2 - spp)) % 65536
          + sample16 o buf (m / 2 - spp)) % 65536 = sample16 o buf (m / 2) := by
        omega
      rw [e2]
      simp only [sample16]
      rw [PutUint16_Uint16 o _ _ (hb _) (hb _), hm2])
  rw [Nat.zero_mul] at hout
  rw [hout]
  congr 1
  rw [htot] at hv
  rw [hel] at hl hv
  apply list_eq_of_getD out buf hl
  intro m hm
  rw [hv m hm, if_pos hm]

/-- C2: horizontal predictor round trip.  For depth 8 and for depth 16 in either byte
order, `spp ∈ {1,3,4}`, block width at least 2, at least one row, and a byte buffer of
exactly `rows*width*spp*(depth/8)` bytes: horizontal differencing per row followed by
`decodePredictor` returns the original bytes with no error. -/
theorem predictor_roundtrip (spp width rows : Nat) (o : ByteOrder) (r : Rectangle)
    (buf : List Nat) (hspp : spp = 1 ∨ spp = 3 ∨ spp = 4) (hw : 2 ≤ width) (_hr : 1 ≤ rows)
    (hrDx : r.Dx = (width : Int)) (hrDy : r.Dy = (rows : Int))
    (hbytes : ∀ b ∈ buf, b < 256) :
    (buf.length = rows * width * spp * (8 / 8) →
      decodePredictor 8 spp o (diffEncode8 spp (width * spp) buf) r = .ok buf) ∧
    (buf.length = rows * width * spp * (16 / 8) →
      decodePredictor 16 spp o (diffEncode16 o spp (width * spp) buf) r = .ok buf) := by
  have hspp1 : 1 ≤ spp := by omega
  constructor
  · intro hlen
    exact predictor8_roundtrip spp width rows o r buf hspp1 (by omega) hrDx hrDy
      (by simpa using hlen) hbytes
  · intro hlen
    exact predictor16_roundtrip spp width rows o r buf hspp1 (by omega) hrDx hrDy
      (by simpa using hlen) hbytes

/-- Witness of C2: two rows of two RGB pixels at depth 8, two rows of two samples at depth 16. -/
theorem predictor_roundtrip_witness :
    decodePredictor 8 3 .LittleEndian
        (diffEncode8 3 (2 * 3) [1, 2, 3, 250, 4, 2, 9, 9, 9, 0, 255, 10])
        ⟨⟨0, 0⟩, ⟨2, 2⟩⟩ = .ok [1, 2, 3, 250, 4, 2, 9, 9, 9, 0, 255, 10] ∧
    decodePredictor 16 1 .BigEndian
        (diffEncode16 .BigEndian 1 (2 * 1) [1, 2, 3, 250, 4, 2, 9, 9])
        ⟨⟨5, 7⟩, ⟨7, 9⟩⟩ = .ok [1, 2, 3, 250, 4, 2, 9, 9] :=
  ⟨(predictor_roundtrip 3 2 2 .LittleEndian ⟨⟨0, 0⟩, ⟨2, 2⟩⟩
      [1, 2, 3, 250, 4, 2, 9, 9, 9, 0, 255, 10] (by decide) (by decide) (by decide)
      (by decide) (by decide) (by decide)).1 (by decide),
   (predictor_roundtrip 1 2 2 .BigEndian ⟨⟨5, 7⟩, ⟨7, 9⟩⟩
      [1, 2, 3, 250, 4, 2, 9, 9] (by decide) (by decide) (by decide)
      (by decide) (by decide) (by decide)).2 (by decide)⟩

/-! ### JPEG table merge -/

theorem goIndex_nat {α : Type} (xs : List α) (i : Nat) (h : i < xs.length) :
    goIndex xs (i : Int) = .ok xs[i] := by
  have h2 : ¬ ((i : Int) < 0) := by omega
  simp [goIndex, h2, List.getElem?_eq_getElem h]

theorem differsAt_eq (b : List Nat) (i j x y : Nat) (hi : i < b.length) (hj : j < b.length) :
    differsAt b (i : Int) x (j : Int) y
      = .ok (decide (¬ (b[i]? = some x ∧ b[j]? = some y))) := by
  unfold differsAt
  rw [goIndex_nat b i hi, goIndex_nat b j hj]
  simp only [Outcome.ok_bind, List.getElem?_eq_getElem hi, List.getElem?_eq_getElem hj,
    Option.some.injEq]
  by_cases h1 : b[i] = x
  · by_cases h2 : b[j] = y <;> simp [h1, h2]
  · simp [h1]

theorem jpegStream_framed (T D : List Nat) (hT : 4 < T.length) (hD : 2 ≤ D.length) :
    jpegStream (some T) D =
      if ¬ beginsSOI T then .error errTablesSOI
      else if ¬ endsEOI T then .error errTablesEOI
      else if ¬ beginsSOI D then .error errDataSOI
      else if ¬ endsEOI D then .error errDataEOI
      else .ok (T.take (T.length - 2) ++ D.drop 2) := by
  have e1 : (T.length : Int) - 2 = ((T.length - 2 : Nat) : Int) := by omega
  have e2 : (T.length : Int) - 1 = ((T.length - 1 : Nat) : Int) := by omega
  have e3 : (D.length : Int) - 2 = ((D.length - 2 : Nat) : Int) := by omega
  have e4 : (D.length : Int) - 1 = ((D.length - 1 : Nat) : Int) := by omega
  have d1 := differsAt_eq T 0 1 0xff 0xd8 (by omega) (by omega)
  have d2 := differsAt_eq T (T.length - 2) (T.length - 1) 0xff 0xd9 (by omega) (by omega)
  have d3 := differsAt_eq D 0 1 0xff 0xd8 (by omega) (by omega)
  have d4 := differsAt_eq D (D.length - 2) (D.length - 1) 0xff 0xd9 (by omega) (by omega)
  simp only [Nat.cast_zero, Nat.cast_one] at d1 d3
  have hTl : T.length > 4 := hT
  simp only [jpegStream, if_pos hTl, e1, e2, e3, e4, d1, d2, d3, d4, Outcome.ok_bind]
  have hT2 : 2 ≤ T.length := by omega
  simp only [beginsSOI, endsEOI, hT2, hD, true_and, decide_eq_true_eq]

theorem jpegStream_unframed (tables : Option (List Nat)) (r : List Nat)
    (h : tables = none ∨ ∃ T, tables = some T ∧ T.length ≤ 4) :
    jpegStream tables r = .ok r := by
  rcases h with h | ⟨T, h, hl⟩
  · subst h; rfl
  · subst h
    have : ¬ T.length > 4 := by omega
    simp [jpegStream, this]
/-- C10: JPEG table merge.  For a tables blob `T` longer than 4 bytes and block data `D`
of at least 2 bytes, the stream handed to the JPEG decoder is `T[0 .. len(T)-2] ++ D[2 ..]`
exactly when `T` and `D` both begin with `FF D8` and end with `FF D9`; if any of the four
conditions fails `decode_JPEG` returns an error whatever the decoder would do.  With the
tables absent or of length at most 4 the block stream is handed over unchanged. -/
theorem jpeg_table_merge (jpegDecode : List Nat → Except GoError Image)
    (tables : Option (List Nat)) (D : List Nat) :
    (∀ T, tables = some T → 4 < T.length → 2 ≤ D.length →
      ((beginsSOI T ∧ endsEOI T ∧ beginsSOI D ∧ endsEOI D) →
        jpegStream tables D = .ok (T.take (T.length - 2) ++ D.drop 2) ∧
        decode_JPEG jpegDecode tables D
          = .ok (jpegFinish jpegDecode (T.take (T.length - 2) ++ D.drop 2))) ∧
      (¬ (beginsSOI T ∧ endsEOI T ∧ beginsSOI D ∧ endsEOI D) →
        ∃ e, jpegStream tables D = .error e ∧
          ∀ jd, decode_JPEG jd tables D = .ok ⟨none, none, some e⟩)) ∧
    ((tables = none ∨ ∃ T, tables = some T ∧ T.length ≤ 4) →
      jpegStream tables D = .ok D ∧
      decode_JPEG jpegDecode tables D = .ok (jpegFinish jpegDecode D)) := by
  constructor
  · intro T hT hlen hD
    subst hT
    have hs := jpegStream_framed T D hlen hD
    constructor
    · intro ⟨h1, h2, h3, h4⟩
      simp only [h1, h2, h3, h4, not_true_eq_false, if_false] at hs
      refine ⟨hs, ?_⟩
      simp only [decode_JPEG, hs, jpegFinish]
      cases jpegDecode (T.take (T.length - 2) ++ D.drop 2) <;> rfl
    · intro hn
      by_cases h1 : beginsSOI T
      · by_cases h2 : endsEOI T
        · by_cases h3 : beginsSOI D
          · have h4 : ¬ endsEOI D := fun h4 => hn ⟨h1, h2, h3, h4⟩
            simp only [h1, h2, h3, h4, not_true_eq_false, not_false_eq_true, if_false,
              if_true] at hs
            exact ⟨_, hs, fun jd => by simp only [decode_JPEG, hs]⟩
          · simp only [h1, h2, h3, not_true_eq_false, not_false_eq_true, if_false,
              if_true] at hs
            exact ⟨_, hs, fun jd => by simp only [decode_JPEG, hs]⟩
        · simp only [h1, h2, not_true_eq_false, not_false_eq_true, if_false, if_true] at hs
          exact ⟨_, hs, fun jd => by simp only [decode_JPEG, hs]⟩
      · simp only [h1, not_false_eq_true, if_true] at hs
        exact ⟨_, hs, fun jd => by simp only [decode_JPEG, hs]⟩
  · intro h
    have hs := jpegStream_unframed tables D h
    refine ⟨hs, ?_⟩
    simp only [decode_JPEG, hs, jpegFinish]
    cases jpegDecode D <;> rfl

/-- Witness of C10: a well-framed pair, a block without EOI, and tables of four bytes. -/
theorem jpeg_table_merge_witness :
    jpegStream (some [0xff, 0xd8, 1, 0xff, 0xd9]) [0xff, 0xd8, 7, 8, 0xff, 0xd9]
      = .ok [0xff, 0xd8, 1, 7, 8, 0xff, 0xd9] ∧
    (∃ e, jpegStream (some [0xff, 0xd8, 1, 0xff, 0xd9]) [0xff, 0xd8, 7, 8, 0xff, 0xd8]
      = .error e) ∧
    jpegStream (some [1, 2, 3, 4]) [5, 6] = .ok [5, 6] := by
  refine ⟨?_, ?_, ?_⟩
  · exact (((jpeg_table_merge (fun _ => .error .EOF) (some [0xff, 0xd8, 1, 0xff, 0xd9])
      [0xff, 0xd8, 7, 8, 0xff, 0xd9]).1 _ rfl (by decide) (by decide)).1 (by decide)).1
  · obtain ⟨e, he, _⟩ := ((jpeg_table_merge (fun _ => .error .EOF)
      (some [0xff, 0xd8, 1, 0xff, 0xd9]) [0xff, 0xd8, 7, 8, 0xff, 0xd8]).1 _ rfl
      (by decide) (by decide)).2 (by decide)
    exact ⟨e, he⟩
  · exact ((jpeg_table_merge (fun _ => .error .EOF) (some [1, 2, 3, 4]) [5, 6]).2
      (Or.inr ⟨_, rfl, by decide⟩)).1

/-! ### Block decoding -/

/-- C9, as stated, fails: with the predictor tag present and equal to 3 (neither `None`
nor `Horizontal`), `DecodeBlock` on an uncompressed one-pixel RGB block returns no
error and stores the bytes with no predictor applied. -/
theorem unsupported_predictor_ignored :
    predictor3Dir.tags.GetPredictor = (3, true) ∧
    (3 : Int) ≠ TagValue_PredictorType_None ∧ (3 : Int) ≠ TagValue_PredictorType_Horizontal ∧
    DecodeBlock noCodecs predictor3Dir [10, 20, 30] 0 0 onePixelRGBA
      = .ok ⟨⟨.RGBA, [10, 20, 30, 255], 4, ⟨⟨0, 0⟩, ⟨1, 1⟩⟩⟩, none⟩ := by
  decide

/-- C9, amended: when the predictor tag is absent or holds any value other than
`Horizontal`, and the codec of an in-range block returns raw bytes (no image, no
error), `DecodeBlock` applies no predictor reversal and returns exactly what
`decodeBlock` returns on those bytes. -/
theorem DecodeBlock_without_horizontal_predictor (c : Codecs) (p : IFD) (file : List Nat)
    (col row : Int) (dst : Image) (bd offset count : Int) (bounds : Rectangle)
    (data : Option (List Nat))
    (hbd : BlocksDown p.tags = .ok bd)
    (hin : 0 ≤ col ∧ col < BlocksAcross p.tags ∧ 0 ≤ row ∧ row < bd)
    (hb : BlockBounds p.tags col row = .ok bounds)
    (ho : BlockOffset p.tags col row = .ok offset)
    (hc : BlockCount p.tags col row = .ok count)
    (hoff : 0 ≤ offset)
    (hdec : Decode c p.compression ((file.drop offset.toNat).take count.toNat)
      bounds.Dx bounds.Dy p = .ok ⟨data, none, none⟩)
    (hpred : p.tags.Predictor ≠ some TagValue_PredictorType_Horizontal) :
    DecodeBlock c p file col row dst = blockResult (decodeBlock p (data.getD []) dst bounds) := by
  have hg : ¬ (col < 0 ∨ row < 0 ∨ col ≥ BlocksAcross p.tags ∨ row ≥ bd) := by omega
  have hs : ¬ offset < 0 := by omega
  have hp : ¬ (p.tags.GetPredictor.2 = true ∧
      p.tags.GetPredictor.1 = TagValue_PredictorType_Horizontal) := by
    intro ⟨h1, h2⟩
    apply hpred
    cases hv : p.tags.Predictor with
    | none => simp [TagGetter.GetPredictor, getInt, hv] at h1
    | some v =>
      simp only [TagGetter.GetPredictor, getInt, hv, Option.getD_some] at h2
      rw [h2]
  simp only [DecodeBlock, hbd, Outcome.ok_bind, if_neg hg, hb, ho, hc, if_neg hs, hdec]
  simp [hp]

/-- Witness of C9 as amended, on the directory whose predictor tag holds 3. -/
theorem DecodeBlock_without_horizontal_predictor_witness :
    DecodeBlock noCodecs predictor3Dir [10, 20, 30] 0 0 onePixelRGBA
      = blockResult (decodeBlock predictor3Dir [10, 20, 30] onePixelRGBA ⟨⟨0, 0⟩, ⟨1, 1⟩⟩) :=
  DecodeBlock_without_horizontal_predictor noCodecs predictor3Dir [10, 20, 30] 0 0
    onePixelRGBA 1 0 3 ⟨⟨0, 0⟩, ⟨1, 1⟩⟩ (some [10, 20, 30]) (by decide) (by decide)
    (by decide) (by decide) (by decide) (by decide) (by decide) (by decide)

/-! ### JPEG framing on short block data -/

/-- C11: the code panics where the claim promises a format error.  With well-framed
tables `FF D8 01 FF D9`, the empty block stream makes `imageData[0]` an index out of
range, and the one-byte stream `FF` does the same at `imageData[1]`; a one-byte stream
that does not start with `FF` is rejected with the format error. -/
theorem jpeg_short_block_data_panics :
    jpegStream (some [0xff, 0xd8, 1, 0xff, 0xd9]) [] = .panic ∧
    decode_JPEG noCodecs.jpeg (some [0xff, 0xd8, 1, 0xff, 0xd9]) [] = .panic ∧
    jpegStream (some [0xff, 0xd8, 1, 0xff, 0xd9]) [0xff] = .panic ∧
    jpegStream (some [0xff, 0xd8, 1, 0xff, 0xd9]) [0x00] = .error errDataSOI := by
  decide

/-! ### The compression dispatcher -/

/-- C12, as stated, fails: the zero value `Nil` is none of the ten enumerated types,
and `Decode` hands it to `decode_None`, which returns the stream as data with no
error. -/
theorem Decode_Nil_succeeds :
    TagValue_CompressionType_Nil ∉
      [TagValue_CompressionType_None, TagValue_CompressionType_CCITT,
       TagValue_CompressionType_G3, TagValue_CompressionType_G4,
       TagValue_CompressionType_LZW, TagValue_CompressionType_JPEGOld,
       TagValue_CompressionType_JPEG, TagValue_CompressionType_Deflate,
       TagValue_CompressionType_DeflateOld, TagValue_CompressionType_PackBits] ∧
    Decode noCodecs TagValue_CompressionType_Nil [1, 2, 3] 1 1 predictor3Dir
      = .ok ⟨some [1, 2, 3], none, none⟩ := by
  decide

/-- C12, amended: `Decode` returns a non-nil error with nil data and nil image, for
every stream, width and height, when the compression type is `CCITT`, when it is
`JPEGOld`, and when it is any value that is none of the ten enumerated types and not
the zero value `Nil` (which is decoded like `None`). -/
theorem Decode_unsupported (c : Codecs) (p : Int) (r : List Nat) (width height : Int)
    (ifd : IFD)
    (h : p = TagValue_CompressionType_CCITT ∨ p = TagValue_CompressionType_JPEGOld ∨
      (p ≠ TagValue_CompressionType_Nil ∧
       p ∉ [TagValue_CompressionType_None, TagValue_CompressionType_CCITT,
         TagValue_CompressionType_G3, TagValue_CompressionType_G4,
         TagValue_CompressionType_LZW, TagValue_CompressionType_JPEGOld,
         TagValue_CompressionType_JPEG, TagValue_CompressionType_Deflate,
         TagValue_CompressionType_DeflateOld, TagValue_CompressionType_PackBits])) :
    ∃ e, Decode c p r width height ifd = .ok ⟨none, none, some e⟩ := by
  rcases h with h | h | ⟨h0, h⟩
  · subst h
    exact ⟨errUnsupported "CCITT", by
      simp [Decode, TagValue_CompressionType_CCITT, TagValue_CompressionType_None,
        TagValue_CompressionType_Nil, decode_CCITT]⟩
  · subst h
    exact ⟨errUnsupported "JPEGOld", by
      simp [Decode, TagValue_CompressionType_CCITT, TagValue_CompressionType_None,
        TagValue_CompressionType_Nil, TagValue_CompressionType_JPEGOld,
        TagValue_CompressionType_G3, TagValue_CompressionType_G4,
        TagValue_CompressionType_LZW, decode_JPEGOld]⟩
  · simp only [List.mem_cons, List.mem_singleton, not_or, List.not_mem_nil, or_false] at h
    obtain ⟨h1, h2, h3, h4, h5, h6, h7, h8, h9, h10⟩ := h
    refine ⟨errUnsupported (toString p), ?_⟩
    have hn : ¬ (p = TagValue_CompressionType_None ∨ p = TagValue_CompressionType_Nil) :=
      fun hh => hh.elim h1 h0
    simp only [Decode, if_neg hn, if_neg h2, if_neg h3, if_neg h4, if_neg h5, if_neg h6,
      if_neg h7, if_neg h8, if_neg h10, if_neg h9]

/-- Witness of C12 as amended: `CCITT`, `JPEGOld` and the unlisted value 9. -/
theorem Decode_unsupported_witness :
    (∃ e, Decode noCodecs TagValue_CompressionType_CCITT [1, 2, 3] 1 1 predictor3Dir
      = .ok ⟨none, none, some e⟩) ∧
    (∃ e, Decode noCodecs TagValue_CompressionType_JPEGOld [] 0 0 predictor3Dir
      = .ok ⟨none, none, some e⟩) ∧
    (∃ e, Decode noCodecs 9 [1, 2, 3] 1 1 predictor3Dir = .ok ⟨none, none, some e⟩) :=
  ⟨Decode_unsupported noCodecs _ [1, 2, 3] 1 1 predictor3Dir (Or.inl rfl),
   Decode_unsupported noCodecs _ [] 0 0 predictor3Dir (Or.inr (Or.inl rfl)),
   Decode_unsupported noCodecs 9 [1, 2, 3] 1 1 predictor3Dir (Or.inr (Or.inr (by decide)))⟩

/-! ### Gray rescaling -/

theorem gray_max (d : Nat) (h1 : 1 ≤ d) (h15 : d ≤ 15) :
    (2 ^ d - 1) % 2 ^ 32 = 2 ^ d - 1 ∧ 1 ≤ 2 ^ d - 1 ∧ 2 ^ d - 1 ≤ 32767 := by
  have hp : 2 ^ d ≤ 2 ^ 15 := Nat.pow_le_pow_right (by decide) h15
  have hq : 2 ^ 1 ≤ 2 ^ d := Nat.pow_le_pow_right (by decide) h1
  have e15 : (2 : Nat) ^ 15 = 32768 := by norm_num
  have e1 : (2 : Nat) ^ 1 = 2 := by norm_num
  have e32 : (2 : Nat) ^ 32 = 4294967296 := by norm_num
  rw [e15] at hp
  rw [e1] at hq
  refine ⟨?_, by omega, by omega⟩
  rw [e32]
  omega

theorem grayValue_eq (d v : Nat) (h1 : 1 ≤ d) (h15 : d ≤ 15) (hv : v ≤ 2 ^ d - 1) :
    v * 0xff < 2 ^ 32 ∧ v * 0xff / (2 ^ d - 1) ≤ 255 ∧
    grayValue false ((2 ^ d - 1) % 2 ^ 32) v = .ok (v * 255 / (2 ^ d - 1)) ∧
    grayValue true ((2 ^ d - 1) % 2 ^ 32) v = .ok (255 - v * 255 / (2 ^ d - 1)) := by
  obtain ⟨hm, hpos, hle⟩ := gray_max d h1 h15
  have e32 : (2 : Nat) ^ 32 = 4294967296 := by norm_num
  have hprod : v * 0xff < 2 ^ 32 := by rw [e32]; omega
  have hq : v * 0xff / (2 ^ d - 1) ≤ 255 := by
    apply Nat.div_le_of_le_mul
    have := Nat.mul_le_mul_right 255 hv
    calc v * 0xff = v * 255 := by norm_num
      _ ≤ (2 ^ d - 1) * 255 := this
  have hne : ¬ (2 ^ d - 1 = 0) := by omega
  refine ⟨hprod, hq, ?_, ?_⟩
  · simp only [grayValue, hm, if_neg hne, Nat.mod_eq_of_lt hprod, Bool.false_eq_true,
      if_false]
    congr 1
    have : v * 0xff / (2 ^ d - 1) < 256 := by omega
    exact Nat.mod_eq_of_lt this
  · simp only [grayValue, hm, if_neg hne, Nat.mod_eq_of_lt hprod, if_true]
    congr 1
    rw [e32]
    have hq' : v * 255 / (2 ^ d - 1) ≤ 255 := hq
    generalize v * 255 / (2 ^ d - 1) = q at hq' ⊢
    omega

/-! ### Image types and depths without a branch of their own -/

/-- C18, as stated, fails: `decodeBlock` has no CMYK branch.  On a one-pixel CMYK
directory with a CMYK destination buffer and four source bytes it returns the
"unknown imageType" error and writes nothing. -/
theorem decodeBlock_CMYK_rejected :
    ([1, 2, 3, 4] : List Nat).length ≥ 4 * 1 * 1 ∧
    decodeBlock (onePixelDir .CMYK 8 4) [1, 2, 3, 4] ⟨.CMYK, [0, 0, 0, 0], 4, ⟨⟨0, 0⟩, ⟨1, 1⟩⟩⟩
        ⟨⟨0, 0⟩, ⟨1, 1⟩⟩
      = .ret ⟨.CMYK, [0, 0, 0, 0], 4, ⟨⟨0, 0⟩, ⟨1, 1⟩⟩⟩ errUnknownImageType := by
  decide

/-- C18, amended: for a directory whose image type is CMYK, `decodeBlock` returns the
"unknown imageType" error and leaves the destination buffer as it was, for every block
rectangle, destination buffer and source buffer. -/
theorem decodeBlock_CMYK (p : IFD) (buf : List Nat) (dst : Image) (r : Rectangle)
    (h : p.imageType = .CMYK) :
    decodeBlock p buf dst r = .ret dst errUnknownImageType := by
  simp [decodeBlock, h]

/-- Witness of C18 as amended, on a block that overhangs a one-pixel image. -/
theorem decodeBlock_CMYK_witness :
    decodeBlock (onePixelDir .CMYK 8 4) [1, 2, 3, 4, 5, 6, 7, 8] onePixelRGBA ⟨⟨0, 0⟩, ⟨2, 1⟩⟩
      = .ret onePixelRGBA errUnknownImageType :=
  decodeBlock_CMYK (onePixelDir .CMYK 8 4) [1, 2, 3, 4, 5, 6, 7, 8] onePixelRGBA
    ⟨⟨0, 0⟩, ⟨2, 1⟩⟩ rfl

/-- C19, as stated, fails: at depth 4 an RGB block is unpacked by the 8-bit branch.
Three source bytes become one opaque pixel and no error is returned. -/
theorem decodeBlock_RGB_depth4_unpacked :
    decodeBlock (onePixelDir .RGB 4 3) [1, 2, 3] onePixelRGBA ⟨⟨0, 0⟩, ⟨1, 1⟩⟩
      = .next ⟨.RGBA, [1, 2, 3, 255], 4, ⟨⟨0, 0⟩, ⟨1, 1⟩⟩⟩ ∧
    decodeBlock (onePixelDir .RGB 4 3) [1, 2, 3] onePixelRGBA ⟨⟨0, 0⟩, ⟨1, 1⟩⟩
      = decodeBlock (onePixelDir .RGB 8 3) [1, 2, 3] onePixelRGBA ⟨⟨0, 0⟩, ⟨1, 1⟩⟩ := by
  decide

/-- C19, amended: for the image types RGB, RGBA and NRGBA the only depth `decodeBlock`
tells apart is 16; at every other depth (1, 4, 32, ...) it runs the 8-bit branch and
returns exactly what it returns at depth 8, for every source and destination buffer. -/
theorem decodeBlock_color_depth (p : IFD) (buf : List Nat) (dst : Image) (r : Rectangle)
    (hty : p.imageType = .RGB ∨ p.imageType = .RGBA ∨ p.imageType = .NRGBA)
    (hd : p.depth ≠ 16) :
    decodeBlock p buf dst r = decodeBlock { p with depth := 8 } buf dst r := by
  rcases hty with h | h | h <;> simp [decodeBlock, h, hd]

/-- Witness of C19 as amended: an RGB pixel at depth 32. -/
theorem decodeBlock_color_depth_witness :
    decodeBlock (onePixelDir .RGB 32 3) [1, 2, 3] onePixelRGBA ⟨⟨0, 0⟩, ⟨1, 1⟩⟩
      = decodeBlock { onePixelDir .RGB 32 3 with depth := 8 } [1, 2, 3] onePixelRGBA
          ⟨⟨0, 0⟩, ⟨1, 1⟩⟩ :=
  decodeBlock_color_depth (onePixelDir .RGB 32 3) [1, 2, 3] onePixelRGBA ⟨⟨0, 0⟩, ⟨1, 1⟩⟩
    (Or.inl rfl) (by decide)

/-! ### What a block write leaves untouched -/

theorem forInt_holds {σ : Type} (P : σ → Prop) (body : Int → σ → Flow σ) (n : Nat) :
    ∀ (i step : Int) (s : σ), P s →
      (∀ k : Nat, k < n → ∀ s, P s → (body (i + k * step) s).Holds P) →
      (forInt body n i step s).Holds P := by
  induction n with
  | zero =>
    intro i step s hs _
    exact hs
  | succ n ih =>
    intro i step s hs hbody
    have h0 := hbody 0 (Nat.succ_pos n) s hs
    simp only [Nat.cast_zero, zero_mul, add_zero] at h0
    unfold forInt
    cases hb : body i s with
    | next s1 =>
      rw [hb] at h0
      apply ih (i + step) step s1 h0
      intro k hk s2 hs2
      have := hbody (k + 1) (Nat.succ_lt_succ hk) s2 hs2
      have e : i + ((k + 1 : Nat) : Int) * step = i + step + (k : Int) * step := by
        push_cast; ring
      rw [e] at this
      exact this
    | ret s1 e =>
      rw [hb] at h0
      exact h0
    | panic => trivial

theorem loopCount_one (lo hi : Int) (k : Nat) (h : k < loopCount lo hi 1) :
    lo + (k : Int) * 1 < hi ∧ lo ≤ lo + (k : Int) * 1 := by
  unfold loopCount at h
  by_cases hlt : lo < hi
  · rw [if_pos hlt] at h
    omega
  · rw [if_neg hlt] at h
    omega

theorem loopCount_four (lo hi : Int) (k : Nat) (h : k < loopCount lo hi 4) :
    lo + (k : Int) * 4 < hi := by
  unfold loopCount at h
  by_cases hlt : lo < hi
  · rw [if_pos hlt] at h
    omega
  · rw [if_neg hlt] at h
    omega

theorem SameOutside_refl (R : Int → Prop) (pix : List Nat) : SameOutside R pix pix :=
  ⟨rfl, fun _ _ => rfl⟩

theorem setPix_holds (R : Int → Prop) (pix0 pix : List Nat) (i : Int) (v : Nat)
    (h : SameOutside R pix0 pix) (hR : 0 ≤ i → R i) :
    (setPix pix i v).Holds (SameOutside R pix0) := by
  unfold setPix
  by_cases hc : i < 0 ∨ i ≥ (pix.length : Int)
  · rw [if_pos hc]; trivial
  · rw [if_neg hc]
    refine ⟨by simpa using h.1, ?_⟩
    intro j hj
    rw [getD_set_eq]
    have hne : ¬ (i.toNat = j ∧ i.toNat < pix.length) := by
      intro ⟨h1, _⟩
      apply hj
      have : (j : Int) = i := by omega
      rw [this]
      exact hR (by omega)
    rw [if_neg hne]
    exact h.2 j hj

theorem setPixs_holds (R : Int → Prop) (pix0 : List Nat) :
    ∀ (vs pix : List Nat) (i : Int), SameOutside R pix0 pix →
      (∀ k : Nat, k < vs.length → 0 ≤ i + k → R (i + k)) →
      (setPixs pix i vs).Holds (SameOutside R pix0) := by
  intro vs
  induction vs with
  | nil =>
    intro pix i h _
    exact h
  | cons v vs ih =>
    intro pix i h hR
    have h0 := setPix_holds R pix0 pix i v h (fun hi => by
      have := hR 0 (by simp) (by simpa using hi)
      simpa using this)
    unfold setPixs
    cases hs : setPix pix i v with
    | ok pix1 =>
      rw [hs] at h0
      apply ih pix1 (i + 1) h0
      intro k hk hpos
      have := hR (k + 1) (by simpa using hk) (by push_cast; omega)
      have e : i + ((k + 1 : Nat) : Int) = i + 1 + (k : Int) := by push_cast; ring
      rw [e] at this
      exact this
    | error e => trivial
    | panic => trivial

theorem setAt_holds (R : Int → Prop) (pix0 pix : List Nat) (img : Image) (x y : Int)
    (vs : List Nat) (h : SameOutside R pix0 pix)
    (hR : pointIn x y img.Rect = true → ∀ k : Nat, k < vs.length →
      0 ≤ img.PixOffset vs.length x y + k → R (img.PixOffset vs.length x y + k)) :
    (setAt img pix x y vs).Holds (SameOutside R pix0) := by
  unfold setAt
  by_cases hin : pointIn x y img.Rect = true
  · simp only [hin, Bool.not_true, Bool.false_eq_true, if_false]
    exact setPixs_holds R pix0 vs pix _ h (hR hin)
  · simp only [hin, Bool.not_false, if_true]
    exact h

theorem stepPix_holds {τ : Type} (P : List Nat → Prop) (old : List Nat × τ) (t : τ)
    (o : Outcome (List Nat)) (hold : P old.1) (ho : o.Holds P) :
    (stepPix old t o).Holds (fun s => P s.1) := by
  cases o with
  | ok pix => exact ho
  | error e => exact hold
  | panic => trivial

theorem pixels_holds {τ : Type} (P : List Nat → Prop) (f : Flow (List Nat × τ))
    (h : f.Holds (fun s => P s.1)) : f.pixels.Holds P := by
  cases f with
  | next s => exact h
  | ret s e => exact h
  | panic => trivial

theorem decodeBlockFax_frame (buf : List Nat) (img : Image) (xmin ymin xmax rMaxX rMaxY : Int) :
    (decodeBlockFax buf img xmin ymin xmax rMaxX rMaxY).Holds
      (SameOutside (rowRegion img 1 xmin ymin rMaxX rMaxY) img.Pix) := by
  unfold decodeBlockFax
  apply forInt_holds _ _ _ _ _ _ (SameOutside_refl _ _)
  intro k hk pix hpix
  obtain ⟨hy1, hy0⟩ := loopCount_one _ _ k hk
  apply pixels_holds
  apply forInt_holds (fun s : List Nat × Int => SameOutside _ img.Pix s.1) _ _ _ _ _ hpix
  intro m hm s hs
  obtain ⟨hx1, hx0⟩ := loopCount_one _ _ m hm
  cases hg : goIndex buf (s.2 + 0) with
  | ok b =>
    simp only []
    apply stepPix_holds _ _ _ _ hs
    apply setPix_holds _ _ _ _ _ hs
    intro _
    exact ⟨ymin + (k : Int) * 1, by omega, hy1, by omega, by omega⟩
  | error e => trivial
  | panic => trivial

theorem copy_getD (pix src : List Nat) (a n j : Nat) (hn : src.length = n)
    (ha : a + n ≤ pix.length) :
    (pix.take a ++ src ++ pix.drop (a + n)).length = pix.length ∧
    ((j < a ∨ a + n ≤ j) →
      (pix.take a ++ src ++ pix.drop (a + n)).getD j 0 = pix.getD j 0) ∧
    (a ≤ j → j < a + n →
      (pix.take a ++ src ++ pix.drop (a + n)).getD j 0 = src.getD (j - a) 0) := by
  have hta : (pix.take a).length = a := by simp; omega
  refine ⟨?_, ?_, ?_⟩
  · simp only [List.length_append, List.length_take, List.length_drop]
    omega
  · intro hj
    simp only [List.getD_eq_getElem?_getD]
    rcases hj with hj | hj
    · rw [List.append_assoc, List.getElem?_append_left (by omega)]
      rw [List.getElem?_take_of_lt hj]
    · rw [List.getElem?_append_right (by simp only [List.length_append]; omega)]
      simp only [List.length_append, hta, hn, List.getElem?_drop]
      congr 2
      omega
  · intro h1 h2
    simp only [List.getD_eq_getElem?_getD]
    rw [List.getElem?_append_left (by simp only [List.length_append]; omega)]
    rw [List.getElem?_append_right (by omega), hta]

theorem copyRow_holds (R : Int → Prop) (pix0 pix : List Nat) (min max : Int) (buf : List Nat)
    (i0 i1 : Int) (h : SameOutside R pix0 pix) (hR : ∀ j : Int, min ≤ j → j < max → R j) :
    (copyRow pix min max buf i0 i1).Holds (SameOutside R pix0) := by
  unfold copyRow
  by_cases c1 : min < 0 ∨ max < min ∨ (pix.length : Int) < max
  · rw [if_pos c1]; trivial
  · rw [if_neg c1]
    by_cases c2 : i0 < 0 ∨ i1 < i0 ∨ (buf.length : Int) < i1
    · rw [if_pos c2]; trivial
    · rw [if_neg c2]
      have hn : ((buf.drop i0.toNat).take
          (Nat.min (max - min).toNat (i1 - i0).toNat)).length
          = Nat.min (max - min).toNat (i1 - i0).toNat := by
        simp only [List.length_take, List.length_drop]
        have : Nat.min (max - min).toNat (i1 - i0).toNat ≤ (i1 - i0).toNat :=
          Nat.min_le_right _ _
        omega
      have hle : Nat.min (max - min).toNat (i1 - i0).toNat ≤ (max - min).toNat :=
        Nat.min_le_left _ _
      obtain ⟨e1, e2, _⟩ := copy_getD pix _ min.toNat _ 0 hn (by omega)
      refine ⟨by rw [e1]; exact h.1, ?_⟩
      intro j hj
      have hout : j < min.toNat ∨
          min.toNat + Nat.min (max - min).toNat (i1 - i0).toNat ≤ j := by
        by_contra hcon
        apply hj
        apply hR <;> omega
      rw [(copy_getD pix _ min.toNat _ j hn (by omega)).2.1 hout]
      exact h.2 j hj

theorem decodeBlockCopy8_frame (buf : List Nat) (img : Image)
    (xmin ymin xmax rMaxX rMaxY : Int) :
    (decodeBlockCopy8 buf img xmin ymin xmax rMaxX rMaxY).Holds
      (SameOutside (rowRegion img 4 xmin ymin rMaxX rMaxY) img.Pix) := by
  unfold decodeBlockCopy8
  apply forInt_holds _ _ _ _ _ _ (SameOutside_refl _ _)
  intro k hk pix hpix
  obtain ⟨hy1, hy0⟩ := loopCount_one _ _ k hk
  simp only []
  split
  · exact hpix
  · have hc := copyRow_holds (rowRegion img 4 xmin ymin rMaxX rMaxY) img.Pix pix
      (img.PixOffset 4 xmin (ymin + (k : Int) * 1)) (img.PixOffset 4 rMaxX (ymin + (k : Int) * 1))
      buf ((ymin + (k : Int) * 1 - ymin) * (xmax - xmin) * 4)
      ((ymin + (k : Int) * 1 - ymin + 1) * (xmax - xmin) * 4) hpix
      (fun j h1 h2 => ⟨ymin + (k : Int) * 1, by omega, hy1, h1, h2⟩)
    cases hcr : copyRow pix (img.PixOffset 4 xmin (ymin + (k : Int) * 1))
        (img.PixOffset 4 rMaxX (ymin + (k : Int) * 1)) buf
        ((ymin + (k : Int) * 1 - ymin) * (xmax - xmin) * 4)
        ((ymin + (k : Int) * 1 - ymin + 1) * (xmax - xmin) * 4) with
    | ok pix1 =>
      rw [hcr] at hc
      exact hc
    | error e => trivial
    | panic => trivial

theorem decodeBlockRGB8_frame (buf : List Nat) (img : Image)
    (xmin ymin xmax rMaxX rMaxY : Int) :
    (decodeBlockRGB8 buf img xmin ymin xmax rMaxX rMaxY).Holds
      (SameOutside (rowRegion img 4 xmin ymin rMaxX rMaxY) img.Pix) := by
  unfold decodeBlockRGB8
  apply forInt_holds _ _ _ _ _ _ (SameOutside_refl _ _)
  intro k hk pix hpix
  obtain ⟨hy1, hy0⟩ := loopCount_one _ _ k hk
  apply pixels_holds
  apply forInt_holds (fun s : List Nat × Int => SameOutside _ img.Pix s.1) _ _ _ _ _ hpix
  intro m hm s hs
  have hx := loopCount_four _ _ m hm
  split
  · exact hs
  · split
    · apply stepPix_holds _ _ _ _ hs
      apply setPixs_holds _ _ _ _ _ hs
      intro t ht _
      simp only [List.length_cons, List.length_nil] at ht
      refine ⟨ymin + (k : Int) * 1, by omega, hy1, ?_, ?_⟩
      · omega
      · unfold Image.PixOffset at hx ⊢
        omega
    · trivial

theorem decodeBlockGray16_frame (o : ByteOrder) (invert : Bool) (buf : List Nat) (img : Image)
    (xmin ymin rMaxX rMaxY : Int) :
    (decodeBlockGray16 o invert buf img xmin ymin rMaxX rMaxY).Holds
      (SameOutside (rowRegion img 2 xmin ymin rMaxX rMaxY) img.Pix) := by
  unfold decodeBlockGray16
  apply pixels_holds
  apply forInt_holds (fun s : List Nat × Nat => SameOutside _ img.Pix s.1) _ _ _ _ _
    (SameOutside_refl _ _)
  intro k hk s0 hs0
  obtain ⟨hy1, hy0⟩ := loopCount_one _ _ k hk
  apply forInt_holds (fun s : List Nat × Nat => SameOutside _ img.Pix s.1) _ _ _ _ _ hs0
  intro m hm s hs
  obtain ⟨hx1, hx0⟩ := loopCount_one _ _ m hm
  split
  · exact hs
  · apply stepPix_holds _ _ _ _ hs
    apply setAt_holds _ _ _ _ _ _ _ hs
    intro _ t ht _
    simp only [be16, List.length_cons, List.length_nil] at ht ⊢
    refine ⟨ymin + (k : Int) * 1, by omega, hy1, ?_, ?_⟩
    · unfold Image.PixOffset
      push_cast
      omega
    · unfold Image.PixOffset
      push_cast
      omega

theorem decodeBlockColor16_frame (o : ByteOrder) (n : Nat) (buf : List Nat) (img : Image)
    (xmin ymin rMaxX rMaxY : Int) :
    (decodeBlockColor16 o n buf img xmin ymin rMaxX rMaxY).Holds
      (SameOutside (rowRegion img 8 xmin ymin rMaxX rMaxY) img.Pix) := by
  unfold decodeBlockColor16
  apply pixels_holds
  apply forInt_holds (fun s : List Nat × Nat => SameOutside _ img.Pix s.1) _ _ _ _ _
    (SameOutside_refl _ _)
  intro k hk s0 hs0
  obtain ⟨hy1, hy0⟩ := loopCount_one _ _ k hk
  apply forInt_holds (fun s : List Nat × Nat => SameOutside _ img.Pix s.1) _ _ _ _ _ hs0
  intro m hm s hs
  obtain ⟨hx1, hx0⟩ := loopCount_one _ _ m hm
  split
  · exact hs
  · apply stepPix_holds _ _ _ _ hs
    apply setAt_holds _ _ _ _ _ _ _ hs
    intro _ t ht _
    simp only [be16, List.length_cons, List.length_nil, List.length_append] at ht ⊢
    refine ⟨ymin + (k : Int) * 1, by omega, hy1, ?_, ?_⟩
    · unfold Image.PixOffset
      push_cast
      omega
    · unfold Image.PixOffset
      push_cast
      omega

theorem decodeBlockGray_frame (depth : Nat) (invert : Bool) (buf : List Nat) (img : Image)
    (xmin ymin rMaxX rMaxY : Int) :
    (decodeBlockGray depth invert buf img xmin ymin rMaxX rMaxY).Holds
      (SameOutside (rowRegion img 1 xmin ymin rMaxX rMaxY) img.Pix) := by
  unfold decodeBlockGray
  apply pixels_holds
  apply forInt_holds (fun s : List Nat × BitsReader => SameOutside _ img.Pix s.1) _ _ _ _ _
    (SameOutside_refl _ _)
  intro k hk s0 hs0
  obtain ⟨hy1, hy0⟩ := loopCount_one _ _ k hk
  have hbody : ∀ m : Nat, m < loopCount xmin rMaxX 1 → ∀ s : List Nat × BitsReader,
      SameOutside (rowRegion img 1 xmin ymin rMaxX rMaxY) img.Pix s.1 →
      (match s.2.ReadBits depth with
        | (_, _, false) => Flow.ret s errBlockData
        | (rd, v, true) =>
          match grayValue invert ((2 ^ depth - 1) % 2 ^ 32) v with
          | .ok g => stepPix s rd (setAt img s.1 (xmin + (m : Int) * 1) (ymin + (k : Int) * 1) [g])
          | _ => .panic).Holds
        (fun s : List Nat × BitsReader =>
          SameOutside (rowRegion img 1 xmin ymin rMaxX rMaxY) img.Pix s.1) := by
    intro m hm s hs
    obtain ⟨hx1, hx0⟩ := loopCount_one _ _ m hm
    split
    · exact hs
    · split
      · apply stepPix_holds _ _ _ _ hs
        apply setAt_holds _ _ _ _ _ _ _ hs
        intro _ t ht _
        simp only [List.length_cons, List.length_nil] at ht ⊢
        refine ⟨ymin + (k : Int) * 1, by omega, hy1, ?_, ?_⟩
        · unfold Image.PixOffset
          push_cast
          omega
        · unfold Image.PixOffset
          push_cast
          omega
      · trivial
  split
  · rename_i s1 heq
    have hin : Flow.Holds (fun s : List Nat × BitsReader =>
        SameOutside (rowRegion img 1 xmin ymin rMaxX rMaxY) img.Pix s.1) (Flow.next s1) := by
      rw [← heq]
      exact forInt_holds _ _ _ _ _ _ hs0 hbody
    exact hin
  · rename_i s1 e heq
    have hin : Flow.Holds (fun s : List Nat × BitsReader =>
        SameOutside (rowRegion img 1 xmin ymin rMaxX rMaxY) img.Pix s.1) (Flow.ret s1 e) := by
      rw [← heq]
      exact forInt_holds _ _ _ _ _ _ hs0 hbody
    exact hin
  · trivial

theorem decodeBlockPaletted_frame (depth : Nat) (buf : List Nat) (img : Image)
    (xmin ymin rMaxX rMaxY : Int) :
    (decodeBlockPaletted depth buf img xmin ymin rMaxX rMaxY).Holds
      (SameOutside (rowRegion img 1 xmin ymin rMaxX rMaxY) img.Pix) := by
  unfold decodeBlockPaletted
  apply pixels_holds
  apply forInt_holds (fun s : List Nat × BitsReader => SameOutside _ img.Pix s.1) _ _ _ _ _
    (SameOutside_refl _ _)
  intro k hk s0 hs0
  obtain ⟨hy1, hy0⟩ := loopCount_one _ _ k hk
  have hbody : ∀ m : Nat, m < loopCount xmin rMaxX 1 → ∀ s : List Nat × BitsReader,
      SameOutside (rowRegion img 1 xmin ymin rMaxX rMaxY) img.Pix s.1 →
      (match s.2.ReadBits depth with
        | (_, _, false) => Flow.ret s errBlockData
        | (rd, v, true) =>
          stepPix s rd (setAt img s.1 (xmin + (m : Int) * 1) (ymin + (k : Int) * 1) [v % 256])).Holds
        (fun s : List Nat × BitsReader =>
          SameOutside (rowRegion img 1 xmin ymin rMaxX rMaxY) img.Pix s.1) := by
    intro m hm s hs
    obtain ⟨hx1, hx0⟩ := loopCount_one _ _ m hm
    split
    · exact hs
    · apply stepPix_holds _ _ _ _ hs
      apply setAt_holds _ _ _ _ _ _ _ hs
      intro _ t ht _
      simp only [List.length_cons, List.length_nil] at ht ⊢
      refine ⟨ymin + (k : Int) * 1, by omega, hy1, ?_, ?_⟩
      · unfold Image.PixOffset
        push_cast
        omega
      · unfold Image.PixOffset
        push_cast
        omega
  split
  · rename_i s1 heq
    have hin : Flow.Holds (fun s : List Nat × BitsReader =>
        SameOutside (rowRegion img 1 xmin ymin rMaxX rMaxY) img.Pix s.1) (Flow.next s1) := by
      rw [← heq]
      exact forInt_holds _ _ _ _ _ _ hs0 hbody
    exact hin
  · rename_i s1 e heq
    have hin : Flow.Holds (fun s : List Nat × BitsReader =>
        SameOutside (rowRegion img 1 xmin ymin rMaxX rMaxY) img.Pix s.1) (Flow.ret s1 e) := by
      rw [← heq]
      exact forInt_holds _ _ _ _ _ _ hs0 hbody
    exact hin
  · trivial

theorem withKind_holds (R : Int → Prop) (dst : Image) (k : ImageKind)
    (branch : Image → Flow (List Nat))
    (h : dst.kind = k → (branch dst).Holds (SameOutside R dst.Pix)) :
    (withKind dst k branch).Holds (fun d => d.kind = dst.kind ∧ d.Stride = dst.Stride ∧
      d.Rect = dst.Rect ∧ SameOutside R dst.Pix d.Pix) := by
  unfold withKind
  by_cases hk : dst.kind = k
  · have hb := h hk
    have hk' : ¬ dst.kind ≠ k := fun hne => hne hk
    rw [if_neg hk']
    cases hbr : branch dst with
    | next pix =>
      rw [hbr] at hb
      exact ⟨rfl, rfl, rfl, hb⟩
    | ret pix e =>
      rw [hbr] at hb
      exact ⟨rfl, rfl, rfl, hb⟩
    | panic => trivial
  · rw [if_pos hk]
    trivial

/-- Every return of `decodeBlock` leaves the type, stride and bounds of the buffer as
they were, and its bytes outside the rows of the clipped rectangle. -/
theorem decodeBlock_holds (p : IFD) (buf : List Nat) (dst : Image) (r : Rectangle) :
    (decodeBlock p buf dst r).Holds (fun d => d.kind = dst.kind ∧ d.Stride = dst.Stride ∧
      d.Rect = dst.Rect ∧
      SameOutside (rowRegion dst dst.kind.bytesPerPixel r.Min.X r.Min.Y
        (clipMaxX p dst r) (clipMaxY p dst r)) dst.Pix d.Pix) := by
  have hunknown : (Flow.ret dst errUnknownImageType).Holds
      (fun d => d.kind = dst.kind ∧ d.Stride = dst.Stride ∧ d.Rect = dst.Rect ∧
        SameOutside (rowRegion dst dst.kind.bytesPerPixel r.Min.X r.Min.Y
          (clipMaxX p dst r) (clipMaxY p dst r)) dst.Pix d.Pix) :=
    ⟨rfl, rfl, rfl, SameOutside_refl _ _⟩
  unfold decodeBlock
  simp only []
  split
  all_goals first
    | exact hunknown
    | (split
       · apply withKind_holds
         intro hk
         simp only [hk, ImageKind.bytesPerPixel, clipMaxX, clipMaxY, Nat.cast_one, Nat.cast_ofNat]
         first
           | exact decodeBlockFax_frame _ _ _ _ _ _ _
           | exact decodeBlockColor16_frame _ _ _ _ _ _ _ _
       · first
         | (apply withKind_holds
            intro hk
            simp only [hk, ImageKind.bytesPerPixel, clipMaxX, clipMaxY, Nat.cast_one,
              Nat.cast_ofNat]
            first
              | exact decodeBlockRGB8_frame _ _ _ _ _ _ _
              | exact decodeBlockCopy8_frame _ _ _ _ _ _ _)
         | (split
            · apply withKind_holds
              intro hk
              simp only [hk, ImageKind.bytesPerPixel, clipMaxX, clipMaxY, Nat.cast_one,
                Nat.cast_ofNat]
              exact decodeBlockGray16_frame _ _ _ _ _ _ _ _
            · apply withKind_holds
              intro hk
              simp only [hk, ImageKind.bytesPerPixel, clipMaxX, clipMaxY, Nat.cast_one,
                Nat.cast_ofNat]
              exact decodeBlockGray_frame _ _ _ _ _ _ _ _))
    | (apply withKind_holds
       intro hk
       simp only [hk, ImageKind.bytesPerPixel, clipMaxX, clipMaxY, Nat.cast_one, Nat.cast_ofNat]
       exact decodeBlockPaletted_frame _ _ _ _ _ _ _)

theorem minInt_le_left (a b : Int) : minInt a b ≤ a := by
  unfold minInt; split <;> omega

theorem minInt_le_right (a b : Int) : minInt a b ≤ b := by
  unfold minInt; split <;> omega

/-- In a buffer whose rows do not overlap, a byte of the pixel `(x, y)` lies in a row
segment `[PixOffset(xmin, y1), PixOffset(X, y1))` only if `y1 = y` and `xmin ≤ x < X`. -/
theorem rowRegion_pixel (img : Image) (bpp : Nat) (xmin ymin X Y x y : Int) (k : Nat)
    (hmin : img.Rect.Min = ⟨0, 0⟩) (hxmin : 0 ≤ xmin) (hX : X ≤ img.Rect.Max.X)
    (hstride : (bpp : Int) * img.Rect.Max.X ≤ img.Stride)
    (hin : inRect x y img.Rect) (hk : k < bpp)
    (hreg : rowRegion img bpp xmin ymin X Y (img.PixOffset bpp x y + k)) :
    xmin ≤ x ∧ x < X ∧ ymin ≤ y ∧ y < Y := by
  obtain ⟨y1, hy1, hy2, hlo, hhi⟩ := hreg
  obtain ⟨hx0, hxW, hy0, hyH⟩ := hin
  simp only [Image.PixOffset, hmin, sub_zero] at hlo hhi
  rw [hmin] at hx0 hy0
  simp only at hx0 hy0
  have hb0 : (0 : Int) ≤ bpp := Int.ofNat_nonneg _
  have hkb : (k : Int) < bpp := by exact_mod_cast hk
  have hk0 : (0 : Int) ≤ k := Int.ofNat_nonneg _
  have e1 : (x + 1) * (bpp : Int) ≤ img.Rect.Max.X * bpp :=
    Int.mul_le_mul_of_nonneg_right (by omega) hb0
  rw [add_mul, one_mul] at e1
  have e2 : 0 ≤ x * (bpp : Int) := Int.mul_nonneg hx0 hb0
  have e3 : 0 ≤ xmin * (bpp : Int) := Int.mul_nonneg hxmin hb0
  have e4 : X * (bpp : Int) ≤ img.Rect.Max.X * bpp := Int.mul_le_mul_of_nonneg_right hX hb0
  have e5 : (bpp : Int) * img.Rect.Max.X = img.Rect.Max.X * bpp := Int.mul_comm _ _
  have hS : 0 ≤ img.Stride := by omega
  have hyy : y1 = y := by
    by_contra hne
    rcases Int.lt_or_gt_of_ne hne with hlt | hgt
    · have e6 : (y1 + 1) * img.Stride ≤ y * img.Stride :=
        Int.mul_le_mul_of_nonneg_right (by omega) hS
      rw [add_mul, one_mul] at e6
      omega
    · have e6 : (y + 1) * img.Stride ≤ y1 * img.Stride :=
        Int.mul_le_mul_of_nonneg_right (by omega) hS
      rw [add_mul, one_mul] at e6
      omega
  subst hyy
  refine ⟨?_, ?_, hy1, hy2⟩
  · by_contra hlt
    have e6 : (x + 1) * (bpp : Int) ≤ xmin * bpp :=
      Int.mul_le_mul_of_nonneg_right (by omega) hb0
    rw [add_mul, one_mul] at e6
    omega
  · by_contra hge
    have e6 : X * (bpp : Int) ≤ x * bpp := Int.mul_le_mul_of_nonneg_right (by omega) hb0
    omega

/-- The offset of a byte of a pixel inside the buffer bounds is not negative. -/
theorem pixOffset_nonneg (img : Image) (bpp : Nat) (x y : Int) (k : Nat)
    (hmin : img.Rect.Min = ⟨0, 0⟩)
    (hstride : (bpp : Int) * img.Rect.Max.X ≤ img.Stride)
    (hin : inRect x y img.Rect) : 0 ≤ img.PixOffset bpp x y + k := by
  obtain ⟨hx0, hxW, hy0, hyH⟩ := hin
  simp only [Image.PixOffset, hmin, sub_zero]
  rw [hmin] at hx0 hy0
  simp only at hx0 hy0
  have hb0 : (0 : Int) ≤ bpp := Int.ofNat_nonneg _
  have hk0 : (0 : Int) ≤ k := Int.ofNat_nonneg _
  have e0 : 0 ≤ (bpp : Int) * img.Rect.Max.X := Int.mul_nonneg hb0 (by omega)
  have e2 : 0 ≤ x * (bpp : Int) := Int.mul_nonneg hx0 hb0
  have e3 : 0 ≤ y * img.Stride := Int.mul_nonneg hy0 (by omega)
  omega

/-- The frame of a block write in terms of pixels: when the bytes outside the rows of
the clipped rectangle are unchanged, so is every byte of every pixel of the buffer
outside the intersection of `r`, the buffer bounds and the image bounds. -/
theorem sameOutside_pixels (p : IFD) (dst dst1 : Image) (r : Rectangle)
    (hdst : dst.Rect.Min = ⟨0, 0⟩) (hb : p.bounds.Min = ⟨0, 0⟩)
    (hx : 0 ≤ r.Min.X) (hy : 0 ≤ r.Min.Y)
    (hstride : (dst.kind.bytesPerPixel : Int) * dst.Rect.Max.X ≤ dst.Stride)
    (hall : dst1.kind = dst.kind ∧ dst1.Stride = dst.Stride ∧ dst1.Rect = dst.Rect ∧
      SameOutside (rowRegion dst dst.kind.bytesPerPixel r.Min.X r.Min.Y
        (clipMaxX p dst r) (clipMaxY p dst r)) dst.Pix dst1.Pix) :
    ∀ x y : Int, inRect x y dst.Rect →
      ¬ (inRect x y r ∧ inRect x y dst.Rect ∧ inRect x y p.bounds) →
      ∀ k, k < dst.kind.bytesPerPixel → dst1.pixelByte x y k = dst.pixelByte x y k := by
  obtain ⟨hkind, hstr, hrect, hlen, hsame⟩ := hall
  intro x y hin hout k hk
  have hnn := pixOffset_nonneg dst dst.kind.bytesPerPixel x y k hdst hstride hin
  have hpo : dst1.PixOffset dst.kind.bytesPerPixel x y
      = dst.PixOffset dst.kind.bytesPerPixel x y := by
    simp only [Image.PixOffset, hstr, hrect]
  unfold Image.pixelByte
  rw [hkind, hpo]
  apply hsame
  rw [Int.toNat_of_nonneg hnn]
  intro hreg
  have hX : clipMaxX p dst r ≤ dst.Rect.Max.X :=
    le_trans (minInt_le_left _ _) (minInt_le_right _ _)
  have hg := rowRegion_pixel dst dst.kind.bytesPerPixel r.Min.X r.Min.Y
    (clipMaxX p dst r) (clipMaxY p dst r) x y k hdst hx hX hstride hin hk hreg
  obtain ⟨g1, g2, g3, g4⟩ := hg
  have hXr : clipMaxX p dst r ≤ r.Max.X :=
    le_trans (minInt_le_left _ _) (minInt_le_left _ _)
  have hXb : clipMaxX p dst r ≤ p.bounds.Max.X := minInt_le_right _ _
  have hYr : clipMaxY p dst r ≤ r.Max.Y :=
    le_trans (minInt_le_left _ _) (minInt_le_left _ _)
  have hYb : clipMaxY p dst r ≤ p.bounds.Max.Y := minInt_le_right _ _
  apply hout
  refine ⟨⟨g1, by omega, g3, by omega⟩, hin, ?_⟩
  unfold inRect
  rw [hb]
  simp only
  omega

/-! ### Atomicity on error -/

/-- C14, as stated, fails: a 3 x 2 gray image at depth 4 needs four source bytes; with
three, `decodeBlock` returns the error "not enough pixel data" after it has stored the
whole first row and two pixels of the second in the destination buffer.  Likewise a
2 x 2 RGB image at depth 8 with the bytes of one pixel only: the error is returned
after that pixel has been stored. -/
theorem decodeBlock_error_keeps_partial_write :
    decodeBlock gray4Dir [0xF0, 0x80, 0x12] gray3x2 ⟨⟨0, 0⟩, ⟨3, 2⟩⟩
      = .ret { gray3x2 with Pix := [255, 0, 136, 17, 34, 0] } errBlockData ∧
    gray3x2.Pix = [0, 0, 0, 0, 0, 0] ∧
    decodeBlock rgb2x2Dir [1, 2, 3] rgba2x2 ⟨⟨0, 0⟩, ⟨2, 2⟩⟩
      = .ret { rgba2x2 with Pix := [1, 2, 3, 255, 0, 0, 0, 0, 0, 0, 0, 0, 0, 0, 0, 0] }
          errBlockData := by
  decide

/-- C14, amended: an error return of `decodeBlock` is atomic only for an image type it
has no branch for, where the buffer is returned as it was.  For every other error
return the buffer keeps its type, stride, bounds and length and every byte of every
pixel outside the intersection of `r`, the destination bounds and the image bounds
keeps its value (bounds starting at `(0,0)`, `r` with non-negative origin, rows of the
buffer not overlapping); pixels inside that intersection may already be overwritten. -/
theorem decodeBlock_error_frame (p : IFD) (buf : List Nat) (dst dst1 : Image)
    (r : Rectangle) (e : GoError) (hdst : dst.Rect.Min = ⟨0, 0⟩)
    (hb : p.bounds.Min = ⟨0, 0⟩) (hx : 0 ≤ r.Min.X) (hy : 0 ≤ r.Min.Y)
    (hstride : (dst.kind.bytesPerPixel : Int) * dst.Rect.Max.X ≤ dst.Stride)
    (hres : decodeBlock p buf dst r = .ret dst1 e) :
    ((p.imageType = .Nil ∨ p.imageType = .YCbCr ∨ p.imageType = .CMYK) →
      dst1 = dst ∧ e = errUnknownImageType) ∧
    dst1.kind = dst.kind ∧ dst1.Stride = dst.Stride ∧ dst1.Rect = dst.Rect ∧
    dst1.Pix.length = dst.Pix.length ∧
    ∀ x y : Int, inRect x y dst.Rect →
      ¬ (inRect x y r ∧ inRect x y dst.Rect ∧ inRect x y p.bounds) →
      ∀ k, k < dst.kind.bytesPerPixel → dst1.pixelByte x y k = dst.pixelByte x y k := by
  have hholds := decodeBlock_holds p buf dst r
  rw [hres] at hholds
  refine ⟨?_, hholds.1, hholds.2.1, hholds.2.2.1, hholds.2.2.2.1,
    sameOutside_pixels p dst dst1 r hdst hb hx hy hstride hholds⟩
  intro hty
  have hu : decodeBlock p buf dst r = .ret dst errUnknownImageType := by
    rcases hty with h | h | h <;> simp [decodeBlock, h]
  rw [hu] at hres
  injection hres with h1 h2
  exact ⟨h1.symm, h2.symm⟩

/-- Witness of C14 as amended: the failing 3 x 2 block written into a buffer of 4 x 2
pixels leaves the fourth pixel of each row as it was. -/
theorem decodeBlock_error_frame_witness :
    decodeBlock gray4Dir [0xF0, 0x80, 0x12] gray4x2 ⟨⟨0, 0⟩, ⟨3, 2⟩⟩
      = .ret { gray4x2 with Pix := [255, 0, 136, 9, 17, 34, 9, 9] } errBlockData ∧
    (∀ x y : Int, inRect x y gray4x2.Rect →
      ¬ (inRect x y ⟨⟨0, 0⟩, ⟨3, 2⟩⟩ ∧ inRect x y gray4x2.Rect ∧
          inRect x y gray4Dir.bounds) →
      ∀ k, k < gray4x2.kind.bytesPerPixel →
        Image.pixelByte { gray4x2 with Pix := [255, 0, 136, 9, 17, 34, 9, 9] } x y k
          = gray4x2.pixelByte x y k) :=
  ⟨by decide,
    (decodeBlock_error_frame gray4Dir [0xF0, 0x80, 0x12] gray4x2
      { gray4x2 with Pix := [255, 0, 136, 9, 17, 34, 9, 9] } ⟨⟨0, 0⟩, ⟨3, 2⟩⟩ errBlockData
      rfl rfl (by decide) (by decide) (by decide) (by decide)).2.2.2.2.2⟩

/-! ### Writes stay inside the clipped rectangle -/

/-- C15: writes stay inside the clipped rectangle.  For every directory `p` (whatever
its image type and depth) whose bounds start at `(0,0)`, every block rectangle `r` with
non-negative origin, every source buffer and every destination buffer whose bounds start
at `(0,0)` and whose rows do not overlap (`Stride` is at least the bytes of one row):
whether `decodeBlock` returns nil (`.next`) or an error (`.ret`), the buffer keeps its
type, stride, bounds and length, and every byte of every destination pixel `(x,y)`
outside the intersection of `r`, the destination bounds and the image bounds has the
value it had before the call. -/
theorem decodeBlock_writes_inside_clip (p : IFD) (buf : List Nat) (dst dst1 : Image)
    (r : Rectangle) (hdst : dst.Rect.Min = ⟨0, 0⟩) (hb : p.bounds.Min = ⟨0, 0⟩)
    (hx : 0 ≤ r.Min.X) (hy : 0 ≤ r.Min.Y)
    (hstride : (dst.kind.bytesPerPixel : Int) * dst.Rect.Max.X ≤ dst.Stride)
    (hres : decodeBlock p buf dst r = .next dst1 ∨
      ∃ e, decodeBlock p buf dst r = .ret dst1 e) :
    dst1.kind = dst.kind ∧ dst1.Stride = dst.Stride ∧ dst1.Rect = dst.Rect ∧
    dst1.Pix.length = dst.Pix.length ∧
    ∀ x y : Int, inRect x y dst.Rect →
      ¬ (inRect x y r ∧ inRect x y dst.Rect ∧ inRect x y p.bounds) →
      ∀ k, k < dst.kind.bytesPerPixel → dst1.pixelByte x y k = dst.pixelByte x y k := by
  have hholds := decodeBlock_holds p buf dst r
  have hall : dst1.kind = dst.kind ∧ dst1.Stride = dst.Stride ∧ dst1.Rect = dst.Rect ∧
      SameOutside (rowRegion dst dst.kind.bytesPerPixel r.Min.X r.Min.Y
        (clipMaxX p dst r) (clipMaxY p dst r)) dst.Pix dst1.Pix := by
    rcases hres with h | ⟨e, h⟩
    · rw [h] at hholds; exact hholds
    · rw [h] at hholds; exact hholds
  exact ⟨hall.1, hall.2.1, hall.2.2.1, hall.2.2.2.1,
    sameOutside_pixels p dst dst1 r hdst hb hx hy hstride hall⟩

/-- Witness of C15: a tile of 4 x 2 pixels that overhangs the right edge of a 3 x 2
image, written into a buffer of 4 x 2 pixels: the fourth pixel of each row, outside
the image bounds, keeps its value 9. -/
theorem decodeBlock_writes_inside_clip_witness :
    decodeBlock gray8Dir [1, 2, 3, 4, 5, 6, 7, 8] gray4x2 ⟨⟨0, 0⟩, ⟨4, 2⟩⟩
      = .next { gray4x2 with Pix := [1, 2, 3, 9, 4, 5, 6, 9] } ∧
    (∀ x y : Int, inRect x y gray4x2.Rect →
      ¬ (inRect x y ⟨⟨0, 0⟩, ⟨4, 2⟩⟩ ∧ inRect x y gray4x2.Rect ∧
          inRect x y gray8Dir.bounds) →
      ∀ k, k < gray4x2.kind.bytesPerPixel →
        Image.pixelByte { gray4x2 with Pix := [1, 2, 3, 9, 4, 5, 6, 9] } x y k
          = gray4x2.pixelByte x y k) :=
  ⟨by decide,
    (decodeBlock_writes_inside_clip gray8Dir [1, 2, 3, 4, 5, 6, 7, 8] gray4x2
      { gray4x2 with Pix := [1, 2, 3, 9, 4, 5, 6, 9] } ⟨⟨0, 0⟩, ⟨4, 2⟩⟩
      rfl rfl (by decide) (by decide) (by decide) (Or.inl (by decide))).2.2.2.2⟩

/-! ### Reads of the source buffer -/

/-- C13: the 1-bit branch under G3/G4 compression reads `buf[off]` with no check of the
length.  For a 2 x 2 bilevel image under G4 compression, a `Gray` buffer with the image
bounds and the whole image as block, a source buffer of four bytes is unpacked, while
the empty buffer and a buffer of three bytes make `decodeBlock` panic (index out of
range); the same directory without compression returns "not enough pixel data". -/
theorem decodeBlock_fax_short_buffer_panics :
    decodeBlock faxDir [0, 255, 0, 255] gray2x2 ⟨⟨0, 0⟩, ⟨2, 2⟩⟩
      = .next { gray2x2 with Pix := [0, 255, 0, 255] } ∧
    decodeBlock faxDir [] gray2x2 ⟨⟨0, 0⟩, ⟨2, 2⟩⟩ = .panic ∧
    decodeBlock faxDir [0, 255, 0] gray2x2 ⟨⟨0, 0⟩, ⟨2, 2⟩⟩ = .panic ∧
    decodeBlock { faxDir with compression := TagValue_CompressionType_None } [] gray2x2
      ⟨⟨0, 0⟩, ⟨2, 2⟩⟩ = .ret gray2x2 errBlockData := by
  decide

/-! ### RGB at 8-bit depth -/

theorem forInt_next_from {σ : Type} (Inv : Nat → σ → Prop) (body : Int → σ → Flow σ)
    (n : Nat) :
    ∀ (i step : Int) (s : σ) (m : Nat), Inv m s →
      (∀ k : Nat, k < n → ∀ s, Inv (m + k) s →
        ∃ s1, body (i + k * step) s = .next s1 ∧ Inv (m + k + 1) s1) →
      ∃ s1, forInt body n i step s = .next s1 ∧ Inv (m + n) s1 := by
  induction n with
  | zero =>
    intro i step s m hs _
    exact ⟨s, rfl, hs⟩
  | succ n ih =>
    intro i step s m hs hbody
    obtain ⟨s1, h1, hi1⟩ := hbody 0 (Nat.succ_pos n) s hs
    simp only [Nat.cast_zero, zero_mul, add_zero] at h1 hi1
    obtain ⟨s2, h2, hi2⟩ := ih (i + step) step s1 (m + 1) hi1 (by
      intro k hk s hs
      have := hbody (k + 1) (Nat.succ_lt_succ hk) s (by
        have e : m + (k + 1) = m + 1 + k := by omega
        rw [e]; exact hs)
      have e1 : i + ((k + 1 : Nat) : Int) * step = i + step + (k : Int) * step := by
        push_cast; ring
      have e2 : m + (k + 1) + 1 = m + 1 + k + 1 := by omega
      rw [e1, e2] at this
      exact this)
    refine ⟨s2, ?_, ?_⟩
    · unfold forInt
      rw [h1]
      exact h2
    · have e : m + (n + 1) = m + 1 + n := by omega
      rw [e]; exact hi2

/-- A loop whose every iteration goes on: the invariant `Inv k` after `k` iterations. -/
theorem forInt_next {σ : Type} (Inv : Nat → σ → Prop) (body : Int → σ → Flow σ)
    (n : Nat) (i step : Int) (s : σ) (h0 : Inv 0 s)
    (hstep : ∀ k : Nat, k < n → ∀ s, Inv k s →
      ∃ s1, body (i + k * step) s = .next s1 ∧ Inv (k + 1) s1) :
    ∃ s1, forInt body n i step s = .next s1 ∧ Inv n s1 := by
  have := forInt_next_from Inv body n i step s 0 h0 (by
    intro k hk s hs
    rw [Nat.zero_add] at hs ⊢
    exact hstep k hk s hs)
  rw [Nat.zero_add] at this
  exact this

/-- The form of `forInt_next` that applies to a goal about the loop. -/
theorem forInt_next_apply {σ : Type} (Inv : Nat → σ → Prop) (body : Int → σ → Flow σ)
    (n : Nat) (i step : Int) (s : σ) (Q : σ → Prop) (h0 : Inv 0 s)
    (hstep : ∀ k : Nat, k < n → ∀ s, Inv k s →
      ∃ s1, body (i + k * step) s = .next s1 ∧ Inv (k + 1) s1)
    (hQ : ∀ s1, Inv n s1 → Q s1) :
    ∃ s1, forInt body n i step s = .next s1 ∧ Q s1 := by
  obtain ⟨s1, h1, h2⟩ := forInt_next Inv body n i step s h0 hstep
  exact ⟨s1, h1, hQ s1 h2⟩

theorem goIndex_getD (xs : List Nat) (i : Int) (h0 : 0 ≤ i) (h1 : i < (xs.length : Int)) :
    goIndex xs i = .ok (xs.getD i.toNat 0) := by
  have hlt : i.toNat < xs.length := by omega
  have h2 : ¬ i < 0 := by omega
  simp [goIndex, h2, List.getElem?_eq_getElem hlt, List.getD_eq_getElem?_getD]

/-- The bytes stored by `pix[i+0] = vs[0]`, `pix[i+1] = vs[1]`, ... inside the buffer. -/
theorem setPixs_ok :
    ∀ (vs pix : List Nat) (i : Int), 0 ≤ i → i + vs.length ≤ pix.length →
      ∃ pix1, setPixs pix i vs = .ok pix1 ∧ pix1.length = pix.length ∧
        ∀ j : Nat, pix1.getD j 0
          = if i ≤ j ∧ (j : Int) < i + vs.length then vs.getD (j - i).toNat 0
            else pix.getD j 0 := by
  intro vs
  induction vs with
  | nil =>
    intro pix i _ _
    refine ⟨pix, rfl, rfl, ?_⟩
    intro j
    have : ¬ (i ≤ j ∧ (j : Int) < i + ([] : List Nat).length) := by
      simp only [List.length_nil, Nat.cast_zero, add_zero]; omega
    rw [if_neg this]
  | cons v vs ih =>
    intro pix i h0 h1
    simp only [List.length_cons, Nat.cast_add, Nat.cast_one] at h1
    have hg : ¬ (i < 0 ∨ i ≥ (pix.length : Int)) := by omega
    obtain ⟨pix1, hp1, hl1, hv1⟩ := ih (pix.set i.toNat v) (i + 1) (by omega)
      (by rw [List.length_set]; omega)
    refine ⟨pix1, ?_, ?_, ?_⟩
    · simp only [setPixs, setPix, if_neg hg]
      exact hp1
    · rw [hl1, List.length_set]
    · intro j
      rw [hv1 j, getD_set_eq]
      simp only [List.length_cons, Nat.cast_add, Nat.cast_one]
      by_cases hj : i ≤ j ∧ (j : Int) < i + (vs.length + 1)
      · rw [if_pos hj]
        by_cases hj0 : (j : Int) = i
        · have c1 : ¬ (i + 1 ≤ j ∧ (j : Int) < i + 1 + vs.length) := by omega
          have c2 : i.toNat = j ∧ i.toNat < pix.length := by omega
          have c3 : ((j : Int) - i).toNat = 0 := by omega
          rw [if_neg c1, if_pos c2, c3]
          rfl
        · have c1 : i + 1 ≤ j ∧ (j : Int) < i + 1 + vs.length := by omega
          have c3 : ((j : Int) - i).toNat = ((j : Int) - (i + 1)).toNat + 1 := by omega
          rw [if_pos c1, c3]
          rfl
      · have c1 : ¬ (i + 1 ≤ j ∧ (j : Int) < i + 1 + vs.length) := by omega
        have c2 : ¬ (i.toNat = j ∧ i.toNat < pix.length) := by omega
        rw [if_neg hj, if_neg c1, if_neg c2]

/-- One row of the 8-bit RGB branch: `n` pixels are stored from `Pix[min]` on, read from
`buf[off]` on, three bytes and `0xff` each. -/
theorem rgb8_row (buf : List Nat) (body : Int → List Nat × Int → Flow (List Nat × Int))
    (hbody : ∀ (i : Int) (pix : List Nat) (o : Int), 0 ≤ o → o + 3 ≤ buf.length →
      body i (pix, o) = stepPix (pix, o) (o + 3)
        (setPixs pix i [buf.getD o.toNat 0, buf.getD (o + 1).toNat 0,
          buf.getD (o + 2).toNat 0, 0xff]))
    (pix : List Nat) (min off : Int) (n : Nat)
    (hmin : 0 ≤ min) (hlen : min + 4 * n ≤ pix.length) (hoff : 0 ≤ off)
    (hbuf : off + 3 * n ≤ buf.length) :
    ∃ pix1, (forInt body n min 4 (pix, off)).pixels = .next pix1 ∧
      pix1.length = pix.length ∧
      ∀ j : Nat, pix1.getD j 0
        = if min ≤ j ∧ (j : Int) < min + 4 * n then
            (if ((j : Int) - min) % 4 = 3 then 255
             else buf.getD (off + 3 * (((j : Int) - min) / 4) + ((j : Int) - min) % 4).toNat 0)
          else pix.getD j 0 := by
  obtain ⟨s1, hs1, hinv⟩ := forInt_next
    (fun k (s : List Nat × Int) => s.2 = off + 3 * k ∧ s.1.length = pix.length ∧
      ∀ j : Nat, s.1.getD j 0
        = if min ≤ j ∧ (j : Int) < min + 4 * k then
            (if ((j : Int) - min) % 4 = 3 then 255
             else buf.getD (off + 3 * (((j : Int) - min) / 4) + ((j : Int) - min) % 4).toNat 0)
          else pix.getD j 0)
    body n min 4 (pix, off)
    (by
      refine ⟨by simp, rfl, ?_⟩
      intro j
      have : ¬ (min ≤ j ∧ (j : Int) < min + 4 * ((0 : Nat) : Int)) := by
        simp only [Nat.cast_zero, mul_zero, add_zero]; omega
      rw [if_neg this])
    (by
      intro k hk s hs
      obtain ⟨p1, o⟩ := s
      obtain ⟨ho, hl, hv⟩ := hs
      simp only at ho hl hv
      have hkn : (k : Int) + 1 ≤ n := by exact_mod_cast hk
      obtain ⟨p2, hp2, hl2, hv2⟩ := setPixs_ok
        [buf.getD o.toNat 0, buf.getD (o + 1).toNat 0, buf.getD (o + 2).toNat 0, 0xff]
        p1 (min + k * 4) (by omega)
        (by simp only [List.length_cons, List.length_nil]; push_cast; omega)
      refine ⟨(p2, o + 3), ?_, ?_, ?_, ?_⟩
      · rw [hbody _ _ _ (by omega) (by omega), hp2]
        rfl
      · simp only [ho]; push_cast; ring
      · simp only [hl2, hl]
      · intro j
        simp only
        rw [hv2 j]
        simp only [List.length_cons, List.length_nil]
        push_cast
        by_cases hj : min + (k : Int) * 4 ≤ j ∧ (j : Int) < min + k * 4 + 4
        · rw [if_pos hj]
          have c1 : min ≤ j ∧ (j : Int) < min + 4 * (k + 1) := by omega
          rw [if_pos c1]
          obtain ⟨c, hc, hc4⟩ : ∃ c : Nat, ((j : Int) - (min + k * 4)).toNat = c ∧ c < 4 :=
            ⟨_, rfl, by omega⟩
          rw [hc]
          have hjc : (j : Int) = min + k * 4 + c := by omega
          interval_cases c
          · have c2 : ¬ ((j : Int) - min) % 4 = 3 := by omega
            have c3 : (off + 3 * (((j : Int) - min) / 4) + ((j : Int) - min) % 4).toNat
                = o.toNat := by omega
            rw [if_neg c2, c3]
            rfl
          · have c2 : ¬ ((j : Int) - min) % 4 = 3 := by omega
            have c3 : (off + 3 * (((j : Int) - min) / 4) + ((j : Int) - min) % 4).toNat
                = (o + 1).toNat := by omega
            rw [if_neg c2, c3]
            rfl
          · have c2 : ¬ ((j : Int) - min) % 4 = 3 := by omega
            have c3 : (off + 3 * (((j : Int) - min) / 4) + ((j : Int) - min) % 4).toNat
                = (o + 2).toNat := by omega
            rw [if_neg c2, c3]
            rfl
          · have c2 : ((j : Int) - min) % 4 = 3 := by omega
            rw [if_pos c2]
            rfl
        · rw [if_neg hj, hv j]
          by_cases hj2 : min ≤ j ∧ (j : Int) < min + 4 * k
          · have c1 : min ≤ j ∧ (j : Int) < min + 4 * (k + 1) := by omega
            rw [if_pos hj2, if_pos c1]
          · have c1 : ¬ (min ≤ j ∧ (j : Int) < min + 4 * (k + 1)) := by omega
            rw [if_neg hj2, if_neg c1])
  obtain ⟨p1, o1⟩ := s1
  refine ⟨p1, ?_, hinv.2.1, hinv.2.2⟩
  rw [hs1]
  rfl

/-- The form of `rgb8_row` that applies to a goal about the row loop. -/
theorem rgb8_row_apply (buf : List Nat)
    (body : Int → List Nat × Int → Flow (List Nat × Int))
    (hbody : ∀ (i : Int) (pix : List Nat) (o : Int), 0 ≤ o → o + 3 ≤ buf.length →
      body i (pix, o) = stepPix (pix, o) (o + 3)
        (setPixs pix i [buf.getD o.toNat 0, buf.getD (o + 1).toNat 0,
          buf.getD (o + 2).toNat 0, 0xff]))
    (pix : List Nat) (min off : Int) (n : Nat)
    (hmin : 0 ≤ min) (hlen : min + 4 * n ≤ pix.length) (hoff : 0 ≤ off)
    (hbuf : off + 3 * n ≤ buf.length) (Q : List Nat → Prop)
    (hQ : ∀ pix1 : List Nat, pix1.length = pix.length →
      (∀ j : Nat, pix1.getD j 0
        = if min ≤ j ∧ (j : Int) < min + 4 * n then
            (if ((j : Int) - min) % 4 = 3 then 255
             else buf.getD (off + 3 * (((j : Int) - min) / 4) + ((j : Int) - min) % 4).toNat 0)
          else pix.getD j 0) → Q pix1) :
    ∃ pix1, (forInt body n min 4 (pix, off)).pixels = .next pix1 ∧ Q pix1 := by
  obtain ⟨pix1, h1, h2, h3⟩ := rgb8_row buf body hbody pix min off n hmin hlen hoff hbuf
  exact ⟨pix1, h1, hQ pix1 h2 h3⟩

theorem loopCount_rows (lo hi : Int) (y : Int) (h0 : lo ≤ y) (h1 : y < hi) :
    y < lo + (loopCount lo hi 1 : Nat) := by
  unfold loopCount
  rw [if_pos (by omega)]
  omega

theorem loopCount_pixels (a b : Int) (d : Int) (hd : 0 < d) (h : b - a = 4 * d) :
    ((loopCount a b 4 : Nat) : Int) = d := by
  unfold loopCount
  rw [if_pos (by omega)]
  omega

theorem loopCount_none (a b step : Int) (h : b ≤ a) : loopCount a b step = 0 := by
  unfold loopCount
  rw [if_neg (by omega)]

/-- The 8-bit RGB branch on a buffer of `W x H` pixels with rows of `4*W` bytes and a
source buffer that holds the whole block: no error, and every pixel of the clipped
rectangle holds its three source bytes and `0xff`. -/
theorem decodeBlockRGB8_correct (buf : List Nat) (img : Image)
    (W H xmin ymin xmax ymax X Y : Int)
    (hrect : img.Rect = ⟨⟨0, 0⟩, ⟨W, H⟩⟩) (hstride : img.Stride = 4 * W)
    (hlen : (img.Pix.length : Int) = 4 * W * H)
    (hx : 0 ≤ xmin) (hy : 0 ≤ ymin) (hX : X ≤ xmax) (hXW : X ≤ W) (hY : Y ≤ ymax)
    (hYH : Y ≤ H)
    (hbuf : 3 * (xmax - xmin) * (ymax - ymin) ≤ buf.length) :
    ∃ pix1, decodeBlockRGB8 buf img xmin ymin xmax X Y = .next pix1 ∧
      pix1.length = img.Pix.length ∧
      ∀ (x y : Int) (k : Nat), xmin ≤ x → x < X → ymin ≤ y → y < Y → k < 4 →
        pix1.getD (img.PixOffset 4 x y + k).toNat 0
          = if k = 3 then 255
            else buf.getD (3 * ((y - ymin) * (xmax - xmin) + (x - xmin)) + k).toNat 0 := by
  have hpo : ∀ x y : Int, img.PixOffset 4 x y = 4 * (y * W) + 4 * x := by
    intro x y
    simp only [Image.PixOffset, hrect, hstride, sub_zero]
    ring
  have hlen2 : (img.Pix.length : Int) = 4 * (H * W) := by rw [hlen]; ring
  have hbuf2 : 3 * ((ymax - ymin) * (xmax - xmin)) ≤ (buf.length : Int) := by
    have e : 3 * ((ymax - ymin) * (xmax - xmin)) = 3 * (xmax - xmin) * (ymax - ymin) := by
      ring
    rw [e]; exact hbuf
  unfold decodeBlockRGB8
  refine forInt_next_apply
    (fun m (pix1 : List Nat) => pix1.length = img.Pix.length ∧
      ∀ (x y : Int) (k : Nat), xmin ≤ x → x < X → ymin ≤ y → y < ymin + m → k < 4 →
        pix1.getD (img.PixOffset 4 x y + k).toNat 0
          = if k = 3 then 255
            else buf.getD (3 * ((y - ymin) * (xmax - xmin) + (x - xmin)) + k).toNat 0)
    _ _ _ _ _ _
    ⟨rfl, by intro x y k _ _ h1 h2; simp only [Nat.cast_zero, add_zero] at h2; omega⟩
    (by
      intro m hm pix hinv
      obtain ⟨hl, hv⟩ := hinv
      obtain ⟨hy0, _⟩ := loopCount_one ymin Y m hm
      simp only [hpo]
      by_cases hcol : xmin < X
      · -- the row holds pixels of the clipped rectangle
        have hW : 0 ≤ W := by omega
        have hn : ((loopCount (4 * ((ymin + (m : Int) * 1) * W) + 4 * xmin)
            (4 * ((ymin + (m : Int) * 1) * W) + 4 * X) 4 : Nat) : Int) = X - xmin :=
          loopCount_pixels _ _ _ (by omega) (by ring)
        have eA : 0 ≤ (ymin + (m : Int) * 1) * W := Int.mul_nonneg (by omega) hW
        have eA1 : (ymin + (m : Int) * 1 + 1) * W ≤ H * W :=
          Int.mul_le_mul_of_nonneg_right (by omega) hW
        rw [add_mul _ 1 W, one_mul] at eA1
        have eB : 0 ≤ (ymin + (m : Int) * 1 - ymin) * (xmax - xmin) :=
          Int.mul_nonneg (by omega) (by omega)
        have eB1 : (ymin + (m : Int) * 1 - ymin + 1) * (xmax - xmin)
            ≤ (ymax - ymin) * (xmax - xmin) :=
          Int.mul_le_mul_of_nonneg_right (by omega) (by omega)
        rw [add_mul _ 1 (xmax - xmin), one_mul] at eB1
        refine rgb8_row_apply buf _ ?_ _ _ _ _ ?_ ?_ ?_ ?_ _ ?_
        · intro i p o ho0 ho3
          have g0 := goIndex_getD buf o (by omega) (by omega)
          have g1 := goIndex_getD buf (o + 1) (by omega) (by omega)
          have g2 := goIndex_getD buf (o + 2) (by omega) (by omega)
          have hg : ¬ (o + 3 > (buf.length : Int)) := by omega
          simp only [if_neg hg, add_zero, g0, g1, g2]
        · omega
        · rw [hn, hl]; omega
        · omega
        · rw [hn]; omega
        · intro pix2 hl2 hv2
          refine ⟨by rw [hl2, hl], ?_⟩
          intro x y k hx1 hx2 hy1 hy2 hk
          have hyW : 0 ≤ y * W := Int.mul_nonneg (by omega) hW
          have hj : (((4 * (y * W) + 4 * x + (k : Int)).toNat : Nat) : Int)
              = 4 * (y * W) + 4 * x + k := Int.toNat_of_nonneg (by omega)
          rw [hv2, hj, hn]
          by_cases hrow : y = ymin + (m : Int) * 1
          · subst hrow
            have c1 : 4 * ((ymin + (m : Int) * 1) * W) + 4 * xmin
                  ≤ 4 * ((ymin + (m : Int) * 1) * W) + 4 * x + k ∧
                4 * ((ymin + (m : Int) * 1) * W) + 4 * x + (k : Int)
                  < 4 * ((ymin + (m : Int) * 1) * W) + 4 * xmin + 4 * (X - xmin) := by
              omega
            rw [if_pos c1]
            by_cases hk3 : k = 3
            · have c2 : (4 * ((ymin + (m : Int) * 1) * W) + 4 * x + (k : Int)
                  - (4 * ((ymin + (m : Int) * 1) * W) + 4 * xmin)) % 4 = 3 := by omega
              rw [if_pos c2, if_pos hk3]
            · have c2 : ¬ (4 * ((ymin + (m : Int) * 1) * W) + 4 * x + (k : Int)
                  - (4 * ((ymin + (m : Int) * 1) * W) + 4 * xmin)) % 4 = 3 := by omega
              rw [if_neg c2, if_neg hk3]
              congr 1
              have c3 : (4 * ((ymin + (m : Int) * 1) * W) + 4 * x + (k : Int)
                  - (4 * ((ymin + (m : Int) * 1) * W) + 4 * xmin)) % 4 = k := by omega
              have c4 : (4 * ((ymin + (m : Int) * 1) * W) + 4 * x + (k : Int)
                  - (4 * ((ymin + (m : Int) * 1) * W) + 4 * xmin)) / 4 = x - xmin := by omega
              rw [c3, c4]
              congr 1
              ring
          · have hlt : y + 1 ≤ ymin + (m : Int) * 1 := by push_cast at hy2; omega
            have e1 : (y + 1) * W ≤ (ymin + (m : Int) * 1) * W :=
              Int.mul_le_mul_of_nonneg_right hlt hW
            rw [add_mul y 1 W, one_mul] at e1
            have c1 : ¬ (4 * ((ymin + (m : Int) * 1) * W) + 4 * xmin
                  ≤ 4 * (y * W) + 4 * x + k ∧
                4 * (y * W) + 4 * x + (k : Int)
                  < 4 * ((ymin + (m : Int) * 1) * W) + 4 * xmin + 4 * (X - xmin)) := by
              omega
            rw [if_neg c1]
            have := hv x y k hx1 hx2 hy1 (by omega) hk
            rw [hpo] at this
            exact this
      · -- no pixel of the row lies in the clipped rectangle
        rw [loopCount_none _ _ 4 (by omega)]
        refine ⟨pix, rfl, hl, ?_⟩
        intro x y k hx1 hx2
        omega)
    ?_
  intro pix1 hinv
  obtain ⟨hl1, hv1⟩ := hinv
  refine ⟨hl1, ?_⟩
  intro x y k hx1 hx2 hy1 hy2 hk
  exact hv1 x y k hx1 hx2 hy1 (loopCount_rows ymin Y y hy1 hy2) hk

theorem lt_minInt (a b c : Int) (h1 : a < b) (h2 : a < c) : a < minInt b c := by
  unfold minInt; split <;> omega

/-- C16: RGB at 8-bit depth.  For an RGB directory at depth 8 with the bounds
`(0,0)..(W,H)`, an `RGBA` destination buffer with these bounds as `image.NewRGBA`
allocates it (`Stride = 4*W`, `len(Pix) = 4*W*H`), every block rectangle `r` with
non-negative origin and every source buffer of at least
`3*(xmax-xmin)*(ymax-ymin)` bytes, `decodeBlock` returns nil, and for every `(x,y)` in
the clipped rectangle the destination pixel is `(buf[o], buf[o+1], buf[o+2], 0xff)` with
`o = 3*((y-ymin)*(xmax-xmin) + (x-xmin))`, an offset inside `buf`.  Nothing bounds `r.Max`
by the image size, so the block may overhang the right or the bottom edge. -/
theorem decodeBlock_RGB8 (p : IFD) (buf : List Nat) (dst : Image) (r : Rectangle)
    (W H : Int) (hty : p.imageType = .RGB) (hd : p.depth = 8) (hkind : dst.kind = .RGBA)
    (hb : p.bounds = ⟨⟨0, 0⟩, ⟨W, H⟩⟩) (hrect : dst.Rect = p.bounds)
    (hstride : dst.Stride = 4 * W) (hlen : (dst.Pix.length : Int) = 4 * W * H)
    (hx : 0 ≤ r.Min.X) (hy : 0 ≤ r.Min.Y)
    (hbuf : 3 * (r.Max.X - r.Min.X) * (r.Max.Y - r.Min.Y) ≤ buf.length) :
    ∃ dst1, decodeBlock p buf dst r = .next dst1 ∧
      dst1.kind = .RGBA ∧ dst1.Stride = dst.Stride ∧ dst1.Rect = dst.Rect ∧
      dst1.Pix.length = dst.Pix.length ∧
      ∀ x y : Int, inRect x y r → inRect x y dst.Rect → inRect x y p.bounds →
        ∃ o : Nat, (o : Int) = 3 * ((y - r.Min.Y) * (r.Max.X - r.Min.X) + (x - r.Min.X)) ∧
          o + 3 ≤ buf.length ∧
          dst1.pixelByte x y 0 = buf.getD o 0 ∧
          dst1.pixelByte x y 1 = buf.getD (o + 1) 0 ∧
          dst1.pixelByte x y 2 = buf.getD (o + 2) 0 ∧
          dst1.pixelByte x y 3 = 0xff := by
  have hrect2 : dst.Rect = ⟨⟨0, 0⟩, ⟨W, H⟩⟩ := by rw [hrect, hb]
  obtain ⟨pix1, hp1, hl1, hv1⟩ := decodeBlockRGB8_correct buf dst W H r.Min.X r.Min.Y
    r.Max.X r.Max.Y (clipMaxX p dst r) (clipMaxY p dst r) hrect2 hstride hlen hx hy
    (le_trans (minInt_le_left _ _) (minInt_le_left _ _))
    (by rw [clipMaxX, hb]; exact minInt_le_right _ _)
    (le_trans (minInt_le_left _ _) (minInt_le_left _ _))
    (by rw [clipMaxY, hb]; exact minInt_le_right _ _)
    hbuf
  have hd16 : ¬ p.depth = 16 := by rw [hd]; decide
  have hk : ¬ dst.kind ≠ ImageKind.RGBA := fun h => h hkind
  simp only [clipMaxX, clipMaxY] at hp1
  refine ⟨{ dst with Pix := pix1 }, ?_, hkind, rfl, rfl, hl1, ?_⟩
  · simp only [decodeBlock, hty, if_neg hd16, withKind, if_neg hk, hp1]
  · intro x y hr hdst _
    obtain ⟨hx1, hx2, hy1, hy2⟩ := hr
    obtain ⟨hx3, hx4, hy3, hy4⟩ := hdst
    rw [hrect2] at hx3 hx4 hy3 hy4
    simp only at hx3 hx4 hy3 hy4
    have hcx : x < clipMaxX p dst r := by
      unfold clipMaxX
      rw [hrect2, hb]
      exact lt_minInt _ _ _ (lt_minInt _ _ _ hx2 hx4) hx4
    have hcy : y < clipMaxY p dst r := by
      unfold clipMaxY
      rw [hrect2, hb]
      exact lt_minInt _ _ _ (lt_minInt _ _ _ hy2 hy4) hy4
    have eB : 0 ≤ (y - r.Min.Y) * (r.Max.X - r.Min.X) :=
      Int.mul_nonneg (by omega) (by omega)
    have eB1 : (y - r.Min.Y + 1) * (r.Max.X - r.Min.X)
        ≤ (r.Max.Y - r.Min.Y) * (r.Max.X - r.Min.X) :=
      Int.mul_le_mul_of_nonneg_right (by omega) (by omega)
    rw [add_mul _ 1 _, one_mul] at eB1
    have hbuf2 : 3 * ((r.Max.Y - r.Min.Y) * (r.Max.X - r.Min.X)) ≤ (buf.length : Int) := by
      have e : 3 * ((r.Max.Y - r.Min.Y) * (r.Max.X - r.Min.X))
          = 3 * (r.Max.X - r.Min.X) * (r.Max.Y - r.Min.Y) := by ring
      rw [e]; exact hbuf
    have hpb : ∀ k : Nat, Image.pixelByte { dst with Pix := pix1 } x y k
        = pix1.getD (dst.PixOffset 4 x y + k).toNat 0 := by
      intro k
      simp only [Image.pixelByte, hkind, ImageKind.bytesPerPixel, Image.PixOffset,
        Nat.cast_ofNat]
    refine ⟨(3 * ((y - r.Min.Y) * (r.Max.X - r.Min.X) + (x - r.Min.X))).toNat,
      by omega, by omega, ?_, ?_, ?_, ?_⟩
    · rw [hpb, hv1 x y 0 hx1 hcx hy1 hcy (by decide)]
      simp
    · rw [hpb, hv1 x y 1 hx1 hcx hy1 hcy (by decide)]
      have c : ¬ (1 : Nat) = 3 := by decide
      rw [if_neg c]
      congr 1
      push_cast
      omega
    · rw [hpb, hv1 x y 2 hx1 hcx hy1 hcy (by decide)]
      have c : ¬ (2 : Nat) = 3 := by decide
      rw [if_neg c]
      congr 1
      push_cast
      omega
    · rw [hpb, hv1 x y 3 hx1 hcx hy1 hcy (by decide)]
      simp

/-- Witness of C16: a block of 3 x 2 pixels that overhangs the right edge of the 2 x 2
image.  The second row of the image is read from the second row of the block (offset 9),
and the third pixel of each block row is skipped. -/
theorem decodeBlock_RGB8_witness :
    decodeBlock rgb2x2Dir rgbBlock3x2 rgba2x2 ⟨⟨0, 0⟩, ⟨3, 2⟩⟩
      = .next { rgba2x2 with
          Pix := [1, 2, 3, 255, 11, 12, 13, 255, 31, 32, 33, 255, 41, 42, 43, 255] } ∧
    ∃ dst1, decodeBlock rgb2x2Dir rgbBlock3x2 rgba2x2 ⟨⟨0, 0⟩, ⟨3, 2⟩⟩ = .next dst1 ∧
      ∃ o : Nat, (o : Int) = 3 * (((1 : Int) - 0) * (3 - 0) + (1 - 0)) ∧
        o + 3 ≤ rgbBlock3x2.length ∧
        dst1.pixelByte 1 1 0 = rgbBlock3x2.getD o 0 ∧
        dst1.pixelByte 1 1 1 = rgbBlock3x2.getD (o + 1) 0 ∧
        dst1.pixelByte 1 1 2 = rgbBlock3x2.getD (o + 2) 0 ∧
        dst1.pixelByte 1 1 3 = 0xff := by
  refine ⟨by decide, ?_⟩
  obtain ⟨dst1, h1, _, _, _, _, h2⟩ := decodeBlock_RGB8 rgb2x2Dir rgbBlock3x2 rgba2x2
    ⟨⟨0, 0⟩, ⟨3, 2⟩⟩ 2 2 rfl rfl rfl rfl rfl rfl (by decide) (by decide) (by decide)
    (by decide)
  exact ⟨dst1, h1, h2 1 1 (by decide) (by decide) (by decide)⟩

/-! ### PackBits: end of stream and the no-op control byte -/

theorem readFull_ok (input : List Nat) (n : Nat) (h : n ≤ input.length) :
    readFull input n = .ok (input.take n, input.drop n) := by
  unfold readFull
  rw [if_pos h]

theorem readFull_short (input : List Nat) (n : Nat) (h : input.length < n) :
    readFull input n
      = .error (if input.length = 0 then GoError.EOF else GoError.ErrUnexpectedEOF) := by
  unfold readFull
  have : ¬ n ≤ input.length := by omega
  rw [if_neg this]
  split <;> rfl

/-- One step of the loop on a control byte `c ≥ 0` with its literal bytes in the stream. -/
theorem packBitsLoop_step_literal (fuel b : Nat) (rest dst : List Nat) (h0 : 0 ≤ int8 b)
    (hn : (int8 b + 1).toNat ≤ rest.length) :
    packBitsLoop (fuel + 1) (b :: rest) dst
      = packBitsLoop fuel (rest.drop (int8 b + 1).toNat)
          (dst ++ rest.take (int8 b + 1).toNat) := by
  simp only [packBitsLoop, if_pos h0, readFull_ok rest _ hn]

/-- One step of the loop on a control byte `c ≥ 0` when the stream ends too early. -/
theorem packBitsLoop_step_literal_short (fuel b : Nat) (rest dst : List Nat)
    (h0 : 0 ≤ int8 b) (hn : rest.length < (int8 b + 1).toNat) :
    packBitsLoop (fuel + 1) (b :: rest) dst
      = ⟨none, none,
          some (if rest.length = 0 then GoError.EOF else GoError.ErrUnexpectedEOF)⟩ := by
  simp only [packBitsLoop, if_pos h0, readFull_short rest _ hn]

/-- One step of the loop on the control byte `-128`. -/
theorem packBitsLoop_step_noop (fuel b : Nat) (rest dst : List Nat) (h : int8 b = -128) :
    packBitsLoop (fuel + 1) (b :: rest) dst = packBitsLoop fuel rest dst := by
  have h0 : ¬ 0 ≤ int8 b := by omega
  simp only [packBitsLoop, if_neg h0, if_pos h]

/-- One step of the loop on a control byte in `-127..-1` with its byte in the stream. -/
theorem packBitsLoop_step_repeated (fuel b b1 : Nat) (rest dst : List Nat)
    (h0 : int8 b < 0) (h1 : int8 b ≠ -128) :
    packBitsLoop (fuel + 1) (b :: b1 :: rest) dst
      = packBitsLoop fuel rest (dst ++ List.replicate (1 - int8 b).toNat b1) := by
  have h0' : ¬ 0 ≤ int8 b := by omega
  simp only [packBitsLoop, if_neg h0', if_neg h1]

/-- One step of the loop on a control byte in `-127..-1` at the end of the stream. -/
theorem packBitsLoop_step_repeated_short (fuel b : Nat) (dst : List Nat)
    (h0 : int8 b < 0) (h1 : int8 b ≠ -128) :
    packBitsLoop (fuel + 1) [b] dst = ⟨none, none, some GoError.EOF⟩ := by
  have h0' : ¬ 0 ≤ int8 b := by omega
  simp only [packBitsLoop, if_neg h0', if_neg h1]

/-- The loop does not depend on its fuel once the fuel exceeds the length of the input. -/
theorem packBitsLoop_fuel : ∀ (f1 f2 : Nat) (input dst : List Nat),
    input.length < f1 → input.length < f2 →
    packBitsLoop f1 input dst = packBitsLoop f2 input dst := by
  intro f1
  induction f1 with
  | zero => intro f2 input dst h1 _; omega
  | succ f1 ih =>
    intro f2 input dst h1 h2
    obtain ⟨g, rfl⟩ : ∃ g, f2 = g + 1 := ⟨f2 - 1, by omega⟩
    cases input with
    | nil => rfl
    | cons b rest =>
      simp only [List.length_cons] at h1 h2
      by_cases h0 : 0 ≤ int8 b
      · by_cases hn : (int8 b + 1).toNat ≤ rest.length
        · rw [packBitsLoop_step_literal f1 b rest dst h0 hn,
            packBitsLoop_step_literal g b rest dst h0 hn]
          apply ih <;> rw [List.length_drop] <;> omega
        · rw [packBitsLoop_step_literal_short f1 b rest dst h0 (by omega),
            packBitsLoop_step_literal_short g b rest dst h0 (by omega)]
      · by_cases hz : int8 b = -128
        · rw [packBitsLoop_step_noop f1 b rest dst hz, packBitsLoop_step_noop g b rest dst hz]
          apply ih <;> omega
        · cases rest with
          | nil =>
            rw [packBitsLoop_step_repeated_short f1 b dst (by omega) hz,
              packBitsLoop_step_repeated_short g b dst (by omega) hz]
          | cons b1 rest1 =>
            simp only [List.length_cons] at h1 h2
            rw [packBitsLoop_step_repeated f1 b b1 rest1 dst (by omega) hz,
              packBitsLoop_step_repeated g b b1 rest1 dst (by omega) hz]
            apply ih <;> omega

theorem Packet_length_pos (p o : List Nat) (h : Packet p o) : 1 ≤ p.length := by
  cases h <;> simp

/-- The loop consumes one complete packet in one iteration. -/
theorem packBitsLoop_packet (p o : List Nat) (h : Packet p o) (fuel : Nat)
    (rest dst : List Nat) :
    packBitsLoop (fuel + 1) (p ++ rest) dst = packBitsLoop fuel rest (dst ++ o) := by
  cases h with
  | literal c _ h0 hlen =>
    have hn : (int8 c + 1).toNat = o.length := by omega
    rw [List.cons_append, packBitsLoop_step_literal fuel c (o ++ rest) dst h0
      (by rw [hn, List.length_append]; omega), hn]
    simp
  | repeated c b h0 h1 =>
    exact packBitsLoop_step_repeated fuel c b rest dst (by omega) (by omega)
  | noop c h =>
    rw [List.singleton_append, packBitsLoop_step_noop fuel c _ dst h]
    simp

/-- The loop consumes a concatenation of complete packets and goes on with the rest of
the stream. -/
theorem packBitsLoop_packets (p o : List Nat) (h : Packets p o) :
    ∀ (fuel : Nat) (rest dst : List Nat), (p ++ rest).length < fuel →
      packBitsLoop fuel (p ++ rest) dst = packBitsLoop (rest.length + 1) rest (dst ++ o) := by
  induction h with
  | nil =>
    intro fuel rest dst hf
    simp only [List.nil_append, List.append_nil] at hf ⊢
    exact packBitsLoop_fuel _ _ _ _ hf (by omega)
  | cons pk o1 ps os hp _ ih =>
    intro fuel rest dst hf
    obtain ⟨f, rfl⟩ : ∃ f, fuel = f + 1 := ⟨fuel - 1, by omega⟩
    have hpos := Packet_length_pos pk o1 hp
    simp only [List.length_append] at hf
    rw [List.append_assoc, packBitsLoop_packet pk o1 hp f (ps ++ rest) dst,
      ih f rest (dst ++ o1) (by simp only [List.length_append]; omega)]
    simp

/-- What a stream of complete packets that begins with the byte `b` looks like. -/
theorem Packets_cons_inv (b : Nat) (rest out : List Nat) (h : Packets (b :: rest) out) :
    (0 ≤ int8 b ∧ (int8 b + 1).toNat ≤ rest.length ∧
      ∃ os, Packets (rest.drop (int8 b + 1).toNat) os ∧
        out = rest.take (int8 b + 1).toNat ++ os) ∨
    (int8 b = -128 ∧ Packets rest out) ∨
    (-127 ≤ int8 b ∧ int8 b ≤ -1 ∧ ∃ b1 rest1 os, rest = b1 :: rest1 ∧ Packets rest1 os ∧
      out = List.replicate (1 - int8 b).toNat b1 ++ os) := by
  generalize heq : b :: rest = l at h
  cases h with
  | nil => simp at heq
  | cons pk o1 ps os hp hps =>
    cases hp with
    | literal c _ h0 hlen =>
      simp only [List.cons_append, List.cons.injEq] at heq
      obtain ⟨hb, hrest⟩ := heq
      subst hb hrest
      have hn : (int8 b + 1).toNat = o1.length := by omega
      left
      refine ⟨h0, by rw [hn, List.length_append]; omega, os, ?_, ?_⟩
      · rw [hn]; simpa using hps
      · rw [hn]; simp
    | repeated c b1 h0 h1 =>
      simp only [List.cons_append, List.nil_append, List.cons.injEq] at heq
      obtain ⟨hb, hrest⟩ := heq
      subst hb hrest
      right; right
      exact ⟨h0, h1, b1, ps, os, rfl, hps, rfl⟩
    | noop c hz =>
      simp only [List.cons_append, List.nil_append, List.cons.injEq] at heq
      obtain ⟨hb, hrest⟩ := heq
      subst hb hrest
      right; left
      exact ⟨hz, by simpa using hps⟩

/-- With fuel beyond the length of the input the loop ends in one of two ways: the input
is a concatenation of complete packets and their bytes are returned, or it is not and
an end-of-file error is returned with nil data. -/
theorem packBitsLoop_total : ∀ (fuel : Nat) (input dst : List Nat), input.length < fuel →
    (∃ out, Packets input out ∧ packBitsLoop fuel input dst = ⟨some (dst ++ out), none, none⟩) ∨
    ((∀ out, ¬ Packets input out) ∧
      ∃ e, (e = GoError.EOF ∨ e = GoError.ErrUnexpectedEOF) ∧
        packBitsLoop fuel input dst = ⟨none, none, some e⟩) := by
  intro fuel
  induction fuel with
  | zero => intro input dst h; omega
  | succ f ih =>
    intro input dst hf
    cases input with
    | nil =>
      left
      exact ⟨[], Packets.nil, by simp [packBitsLoop]⟩
    | cons b rest =>
      simp only [List.length_cons] at hf
      by_cases h0 : 0 ≤ int8 b
      · by_cases hn : (int8 b + 1).toNat ≤ rest.length
        · rw [packBitsLoop_step_literal f b rest dst h0 hn]
          rcases ih (rest.drop (int8 b + 1).toNat) (dst ++ rest.take (int8 b + 1).toNat)
            (by rw [List.length_drop]; omega) with ⟨out, hp, hr⟩ | ⟨hnp, e, he, hr⟩
          · left
            refine ⟨rest.take (int8 b + 1).toNat ++ out, ?_, by rw [hr]; simp⟩
            have hpk : Packet (b :: rest.take (int8 b + 1).toNat)
                (rest.take (int8 b + 1).toNat) :=
              Packet.literal b _ h0 (by rw [List.length_take]; omega)
            have := Packets.cons _ _ _ _ hpk hp
            simpa using this
          · right
            refine ⟨?_, e, he, hr⟩
            intro out hp
            rcases Packets_cons_inv b rest out hp with ⟨_, _, os, h1, _⟩ | ⟨h1, _⟩ |
              ⟨_, h1, _⟩
            · exact hnp os h1
            · omega
            · omega
        · rw [packBitsLoop_step_literal_short f b rest dst h0 (by omega)]
          right
          refine ⟨?_, _, ?_, rfl⟩
          · intro out hp
            rcases Packets_cons_inv b rest out hp with ⟨_, h1, _⟩ | ⟨h1, _⟩ | ⟨_, h1, _⟩
            · exact hn h1
            · omega
            · omega
          · split
            · left; rfl
            · right; rfl
      · by_cases hz : int8 b = -128
        · rw [packBitsLoop_step_noop f b rest dst hz]
          rcases ih rest dst (by omega) with ⟨out, hp, hr⟩ | ⟨hnp, e, he, hr⟩
          · left
            refine ⟨out, ?_, hr⟩
            have := Packets.cons _ _ _ _ (Packet.noop b hz) hp
            simpa using this
          · right
            refine ⟨?_, e, he, hr⟩
            intro out hp
            rcases Packets_cons_inv b rest out hp with ⟨h1, _⟩ | ⟨_, h1⟩ | ⟨h1, _⟩
            · exact h0 h1
            · exact hnp out h1
            · omega
        · have hlo : -127 ≤ int8 b := by
            unfold int8 at h0 hz ⊢
            split at h0 <;> split <;> omega
          cases rest with
          | nil =>
            rw [packBitsLoop_step_repeated_short f b dst (by omega) hz]
            right
            refine ⟨?_, _, Or.inl rfl, rfl⟩
            intro out hp
            rcases Packets_cons_inv b [] out hp with ⟨h1, _⟩ | ⟨h1, _⟩ |
              ⟨_, _, b1, rest1, os, h1, _⟩
            · exact h0 h1
            · exact hz h1
            · simp at h1
          | cons b1 rest1 =>
            simp only [List.length_cons] at hf
            rw [packBitsLoop_step_repeated f b b1 rest1 dst (by omega) hz]
            rcases ih rest1 (dst ++ List.replicate (1 - int8 b).toNat b1) (by omega) with
              ⟨out, hp, hr⟩ | ⟨hnp, e, he, hr⟩
            · left
              refine ⟨List.replicate (1 - int8 b).toNat b1 ++ out, ?_, by rw [hr]; simp⟩
              have := Packets.cons _ _ _ _ (Packet.repeated b b1 hlo (by omega)) hp
              simpa using this
            · right
              refine ⟨?_, e, he, hr⟩
              intro out hp
              rcases Packets_cons_inv b (b1 :: rest1) out hp with ⟨h1, _⟩ | ⟨h1, _⟩ |
                ⟨_, _, b2, rest2, os, h1, h2, _⟩
              · exact h0 h1
              · exact hz h1
              · simp only [List.cons.injEq] at h1
                obtain ⟨_, h1⟩ := h1
                subst h1
                exact hnp os h2

/-- C21: PackBits end-of-stream handling.  `decode_PackBits` returns the data `out`
with a nil error exactly when the input is a concatenation of complete packets that
stand for `out` (the empty input gives the empty data); every other input gives nil
data and an end-of-file error (`io.EOF` or `io.ErrUnexpectedEOF`).  In particular the
result is an error with nil data when, after complete packets, the stream ends behind a
control byte `c ≥ 0` with fewer than `c+1` bytes following, or behind a control byte in
`-127..-1` with no byte following. -/
theorem decode_PackBits_end_of_stream (input : List Nat) :
    (∀ out, decode_PackBits input = ⟨some out, none, none⟩ ↔ Packets input out) ∧
    ((∃ out, Packets input out) ∨
      ∃ e, (e = GoError.EOF ∨ e = GoError.ErrUnexpectedEOF) ∧
        decode_PackBits input = ⟨none, none, some e⟩) ∧
    (∀ p out c tail, input = p ++ c :: tail → Packets p out →
      ((0 ≤ int8 c ∧ (tail.length : Int) < int8 c + 1) ∨
        (-127 ≤ int8 c ∧ int8 c ≤ -1 ∧ tail = [])) →
      ∃ e, (e = GoError.EOF ∨ e = GoError.ErrUnexpectedEOF) ∧
        decode_PackBits input = ⟨none, none, some e⟩) := by
  have htot := packBitsLoop_total (input.length + 1) input [] (by omega)
  refine ⟨?_, ?_, ?_⟩
  · intro out
    constructor
    · intro hdec
      rcases htot with ⟨out1, hp, hr⟩ | ⟨_, e, _, hr⟩
      · unfold decode_PackBits at hdec
        rw [hr] at hdec
        simp only [List.nil_append, DecodeResult.mk.injEq, Option.some.injEq, and_true] at hdec
        rw [← hdec]
        exact hp
      · unfold decode_PackBits at hdec
        rw [hr] at hdec
        simp at hdec
    · intro hp
      have := packBitsLoop_packets input out hp (input.length + 1) [] [] (by simp)
      simp only [List.append_nil, List.nil_append, List.length_nil, Nat.zero_add] at this
      unfold decode_PackBits
      rw [this]
      simp [packBitsLoop]
  · rcases htot with ⟨out1, hp, _⟩ | ⟨_, e, he, hr⟩
    · exact Or.inl ⟨out1, hp⟩
    · exact Or.inr ⟨e, he, hr⟩
  · intro p out c tail hin hp hcase
    subst hin
    have := packBitsLoop_packets p out hp ((p ++ c :: tail).length + 1) (c :: tail) []
      (by omega)
    unfold decode_PackBits
    rw [this]
    rcases hcase with ⟨h0, hlen⟩ | ⟨h0, h1, ht⟩
    · rw [List.length_cons, packBitsLoop_step_literal_short _ c tail _ h0 (by omega)]
      refine ⟨_, ?_, rfl⟩
      split
      · left; rfl
      · right; rfl
    · subst ht
      rw [List.length_cons, packBitsLoop_step_repeated_short _ c _ (by omega) (by omega)]
      exact ⟨_, Or.inl rfl, rfl⟩

/-- Witness of C21: the empty input, a literal packet cut short after one of its two
bytes, and a repeat packet cut short behind its control byte. -/
theorem decode_PackBits_end_of_stream_witness :
    decode_PackBits [] = ⟨some [], none, none⟩ ∧
    (∃ e, (e = GoError.EOF ∨ e = GoError.ErrUnexpectedEOF) ∧
      decode_PackBits [0, 7, 1, 9] = ⟨none, none, some e⟩) ∧
    (∃ e, (e = GoError.EOF ∨ e = GoError.ErrUnexpectedEOF) ∧
      decode_PackBits [0, 7, 255] = ⟨none, none, some e⟩) := by
  have hp : Packets [0, 7] [7] := by
    have := Packets.cons _ _ _ _ (Packet.literal 0 [7] (by decide) (by decide)) Packets.nil
    simpa using this
  refine ⟨((decode_PackBits_end_of_stream []).1 []).2 Packets.nil, ?_, ?_⟩
  · exact (decode_PackBits_end_of_stream [0, 7, 1, 9]).2.2 [0, 7] [7] 1 [9] rfl hp
      (Or.inl ⟨by decide, by decide⟩)
  · exact (decode_PackBits_end_of_stream [0, 7, 255]).2.2 [0, 7] [7] 255 [] rfl hp
      (Or.inr ⟨by decide, by decide, rfl⟩)

/-- C23: the control byte `-128` (`0x80`) is a no-op.  For every byte string `p` that is
a concatenation of complete packets and every byte string `q`,
`decode_PackBits (p ++ [0x80] ++ q)` returns what `decode_PackBits (p ++ q)` returns, data
and error alike: the byte behind `0x80` is read as a fresh control byte. -/
theorem decode_PackBits_noop (p out q : List Nat) (hp : Packets p out) :
    decode_PackBits (p ++ [0x80] ++ q) = decode_PackBits (p ++ q) := by
  have h1 := packBitsLoop_packets p out hp ((p ++ 0x80 :: q).length + 1) (0x80 :: q) []
    (by omega)
  have h2 := packBitsLoop_packets p out hp ((p ++ q).length + 1) q [] (by omega)
  have e : p ++ [0x80] ++ q = p ++ 0x80 :: q := by simp
  unfold decode_PackBits
  rw [e, h1, h2, List.length_cons, packBitsLoop_step_noop _ 0x80 q _ (by decide)]

/-- Witness of C23: behind a literal packet, `0x80` in front of the literal packet
`[1, 5, 6]` leaves the result as it is; read as run data the byte `1` would be lost. -/
theorem decode_PackBits_noop_witness :
    Packets [0, 7] [7] ∧
    decode_PackBits ([0, 7] ++ [0x80] ++ [1, 5, 6]) = decode_PackBits ([0, 7] ++ [1, 5, 6]) ∧
    decode_PackBits ([0, 7] ++ [1, 5, 6]) = ⟨some [7, 5, 6], none, none⟩ := by
  have hp : Packets [0, 7] [7] := by
    have := Packets.cons _ _ _ _ (Packet.literal 0 [7] (by decide) (by decide)) Packets.nil
    simpa using this
  exact ⟨hp, decode_PackBits_noop [0, 7] [7] [1, 5, 6] hp, by decide⟩

/-! ### The merged JPEG stream -/

theorem jpegStream_ok_framed (T D stream : List Nat) (hT : 4 < T.length)
    (hD : 2 ≤ D.length) (h : jpegStream (some T) D = .ok stream) :
    beginsSOI T ∧ endsEOI T ∧ beginsSOI D ∧ endsEOI D ∧
      stream = T.take (T.length - 2) ++ D.drop 2 := by
  rw [jpegStream_framed T D hT hD] at h
  by_cases h1 : beginsSOI T
  · by_cases h2 : endsEOI T
    · by_cases h3 : beginsSOI D
      · by_cases h4 : endsEOI D
        · simp only [h1, h2, h3, h4, not_true_eq_false, if_false] at h
          injection h with h
          exact ⟨h1, h2, h3, h4, h.symm⟩
        · simp [h1, h2, h3, h4] at h
      · simp [h1, h2, h3] at h
    · simp [h1, h2] at h
  · simp [h1] at h

/-- C25: a successfully merged JPEG stream is well framed.  For a tables blob `T` with
`len(T) > 4` and block data `D` with `len(D) ≥ 4` that pass the four framing checks of
`decode_JPEG` (the stream handed to the decoder is `stream`, no error), `stream` is
`T[0 .. len(T)-2] ++ D[2 ..]`, its length is `len(T) + len(D) - 4`, it begins with `FF D8`
and ends with `FF D9`. -/
theorem jpeg_merged_stream_framed (T D stream : List Nat) (hT : 4 < T.length)
    (hD : 4 ≤ D.length) (h : jpegStream (some T) D = .ok stream) :
    stream = T.take (T.length - 2) ++ D.drop 2 ∧
    stream.length = T.length + D.length - 4 ∧
    beginsSOI stream ∧ endsEOI stream := by
  obtain ⟨h1, _, _, h4, hs⟩ := jpegStream_ok_framed T D stream hT (by omega) h
  subst hs
  have hlen : (T.take (T.length - 2) ++ D.drop 2).length = T.length + D.length - 4 := by
    simp only [List.length_append, List.length_take, List.length_drop]
    omega
  have htl : (T.take (T.length - 2)).length = T.length - 2 := by
    simp only [List.length_take]
    omega
  refine ⟨rfl, hlen, ?_, ?_⟩
  · obtain ⟨a, b⟩ := h1
    unfold beginsSOI
    rw [List.getElem?_append_left (by omega), List.getElem?_append_left (by omega),
      List.getElem?_take_of_lt (by omega), List.getElem?_take_of_lt (by omega)]
    exact ⟨a, b⟩
  · obtain ⟨_, a, b⟩ := h4
    unfold endsEOI
    rw [hlen]
    refine ⟨by omega, ?_, ?_⟩
    · rw [List.getElem?_append_right (by omega), htl, List.getElem?_drop]
      have e : 2 + (T.length + D.length - 4 - 2 - (T.length - 2)) = D.length - 2 := by omega
      rw [e]
      exact a
    · rw [List.getElem?_append_right (by omega), htl, List.getElem?_drop]
      have e : 2 + (T.length + D.length - 4 - 1 - (T.length - 2)) = D.length - 1 := by omega
      rw [e]
      exact b

/-- Witness of C25: tables `FF D8 01 FF D9` and block data `FF D8 02 FF D9`. -/
theorem jpeg_merged_stream_framed_witness :
    jpegStream (some [0xff, 0xd8, 1, 0xff, 0xd9]) [0xff, 0xd8, 2, 0xff, 0xd9]
      = .ok [0xff, 0xd8, 1, 2, 0xff, 0xd9] ∧
    ([0xff, 0xd8, 1, 2, 0xff, 0xd9] : List Nat).length = 5 + 5 - 4 ∧
    beginsSOI [0xff, 0xd8, 1, 2, 0xff, 0xd9] ∧ endsEOI [0xff, 0xd8, 1, 2, 0xff, 0xd9] := by
  have h : jpegStream (some [0xff, 0xd8, 1, 0xff, 0xd9]) [0xff, 0xd8, 2, 0xff, 0xd9]
      = .ok [0xff, 0xd8, 1, 2, 0xff, 0xd9] := by decide
  exact ⟨h, (jpeg_merged_stream_framed [0xff, 0xd8, 1, 0xff, 0xd9] [0xff, 0xd8, 2, 0xff, 0xd9]
    [0xff, 0xd8, 1, 2, 0xff, 0xd9] (by decide) (by decide) h).2⟩

/-! ### The buffer type of the allocator and of the unpacker -/

theorem newBuffer_ok (k : ImageKind) (r : Rectangle) (hx : 0 ≤ r.Dx) (hy : 0 ≤ r.Dy) :
    ∃ m, newBuffer k r = .ok m ∧ m.kind = k ∧ m.Rect = r := by
  have h : ¬ (r.Dx < 0 ∨ r.Dy < 0) := by omega
  refine ⟨⟨k, List.replicate (k.bytesPerPixel * r.Dx.toNat * r.Dy.toNat) 0,
    k.bytesPerPixel * r.Dx, r⟩, ?_, rfl, rfl⟩
  simp only [newBuffer, if_neg h]

/-- C27: allocator and unpacker agree on the buffer type.  For every directory whose
image type is Bilevel or BilevelInvert (at a depth other than 16, in particular at depth
1), Gray, GrayInvert, Paletted, NRGBA, RGB or RGBA, at every depth and with every
compression type, and every rectangle `r` of non-negative width and height,
`newImageWithIFD` returns a buffer `m` with the bounds `r`, of one of the types Gray,
Gray16, Paletted, NRGBA, NRGBA64, RGBA, RGBA64, and this type is the one `decodeBlock`
asserts: for every source buffer and block rectangle, `decodeBlock` on any buffer `dst`
is its branch behind the assertion `dst.(*image.K)` with `K` the type of `m`, so the
assertion holds on `m`. -/
theorem allocator_matches_unpacker (p : IFD) (r : Rectangle)
    (hty : p.imageType = .Bilevel ∨ p.imageType = .BilevelInvert ∨ p.imageType = .Gray ∨
      p.imageType = .GrayInvert ∨ p.imageType = .Paletted ∨ p.imageType = .NRGBA ∨
      p.imageType = .RGB ∨ p.imageType = .RGBA)
    (hbi : p.imageType = .Bilevel ∨ p.imageType = .BilevelInvert → p.depth ≠ 16)
    (hx : 0 ≤ r.Dx) (hy : 0 ≤ r.Dy) :
    ∃ m, newImageWithIFD r p = .ok m ∧ m.Rect = r ∧
      (m.kind = .Gray ∨ m.kind = .Gray16 ∨ m.kind = .Paletted ∨ m.kind = .NRGBA ∨
        m.kind = .NRGBA64 ∨ m.kind = .RGBA ∨ m.kind = .RGBA64) ∧
      ∀ (buf : List Nat) (r2 : Rectangle), ∃ branch : Image → Flow (List Nat),
        ∀ dst : Image, decodeBlock p buf dst r2 = withKind dst m.kind branch := by
  by_cases h16 : p.depth = 16
  · rcases hty with h | h | h | h | h | h | h | h
    · exact absurd h16 (hbi (Or.inl h))
    · exact absurd h16 (hbi (Or.inr h))
    all_goals
      obtain ⟨m, hm, hk, hr⟩ := newBuffer_ok
        (match p.imageType with
          | .Gray | .GrayInvert => ImageKind.Gray16
          | .Paletted => ImageKind.Paletted
          | .NRGBA => ImageKind.NRGBA64
          | _ => ImageKind.RGBA64) r hx hy
      have hfax : ¬ (p.depth = 1 ∧ (p.compression = TagValue_CompressionType_G3 ∨
          p.compression = TagValue_CompressionType_G4)) := by
        rw [h16]; simp
      simp only [h] at hm hk
      refine ⟨m, by simp only [newImageWithIFD, h, h16, if_true, hm], hr, by simp [hk], ?_⟩
      intro buf r2
      rw [hk]
      simp only [decodeBlock, h, h16, if_true, if_neg hfax]
      exact ⟨_, fun dst => rfl⟩
  · rcases hty with h | h | h | h | h | h | h | h
    all_goals
      obtain ⟨m, hm, hk, hr⟩ := newBuffer_ok
        (match p.imageType with
          | .Paletted => ImageKind.Paletted
          | .NRGBA => ImageKind.NRGBA
          | .RGB | .RGBA => ImageKind.RGBA
          | _ => ImageKind.Gray) r hx hy
      simp only [h] at hm hk
      refine ⟨m, by simp only [newImageWithIFD, h, if_neg h16, hm], hr, by simp [hk], ?_⟩
      intro buf r2
      rw [hk]
      simp only [decodeBlock, h, if_neg h16]
      first
        | exact ⟨_, fun dst => rfl⟩
        | (split
           · exact ⟨_, fun dst => rfl⟩
           · exact ⟨_, fun dst => rfl⟩)

/-- Witness of C27: the buffer of a 2 x 2 RGB image at depth 8 is `image.NewRGBA`, and
a buffer of another type fails the assertion of `decodeBlock`. -/
theorem allocator_matches_unpacker_witness :
    newImageWithIFD ⟨⟨0, 0⟩, ⟨2, 2⟩⟩ rgb2x2Dir = .ok rgba2x2 ∧
    (∃ m, newImageWithIFD ⟨⟨0, 0⟩, ⟨2, 2⟩⟩ rgb2x2Dir = .ok m ∧
      ∀ (buf : List Nat) (r2 : Rectangle), ∃ branch : Image → Flow (List Nat),
        ∀ dst : Image, decodeBlock rgb2x2Dir buf dst r2 = withKind dst m.kind branch) ∧
    decodeBlock rgb2x2Dir [] gray2x2 ⟨⟨0, 0⟩, ⟨0, 0⟩⟩ = .panic ∧
    decodeBlock rgb2x2Dir [] rgba2x2 ⟨⟨0, 0⟩, ⟨0, 0⟩⟩ = .next rgba2x2 := by
  obtain ⟨m, h1, _, _, h2⟩ := allocator_matches_unpacker rgb2x2Dir ⟨⟨0, 0⟩, ⟨2, 2⟩⟩
    (Or.inr (Or.inr (Or.inr (Or.inr (Or.inr (Or.inr (Or.inl rfl)))))))
    (by intro h; rcases h with h | h <;> exact absurd h (by decide))
    (by decide) (by decide)
  exact ⟨by decide, ⟨m, h1, h2⟩, by decide, by decide⟩

/-! ### RGB at 16-bit depth in a tile that overhangs the right edge -/

/-- C22: the 16-bit RGB branch reads the block sequentially.  The tile of 2 x 2 pixels
of a 1 x 2 image overhangs the right edge; `BlockBounds` gives it the rectangle
`(0,0)..(2,2)`.  The pixel `(0,1)` of the image is the pixel `(0,1)` of the tile, at
byte offset `6*((1-0)*(2-0) + (0-0)) = 12`, with the samples `(21, 22, 23)`; `decodeBlock`
stores the samples `(11, 12, 13)` of offset 6 there, those of the tile pixel `(1,0)`
that lies outside the image.  On the same tile at depth 8 the sibling branch stores the
pixel of the second tile row (offset 6 of its 12 bytes). -/
theorem decodeBlock_RGB16_overhang_reads_wrong_pixel :
    BlockBounds rgb16Dir.tags 0 0 = .ok ⟨⟨0, 0⟩, ⟨2, 2⟩⟩ ∧
    decodeBlock rgb16Dir rgb16Tile2x2 rgba64x1x2 ⟨⟨0, 0⟩, ⟨2, 2⟩⟩
      = .next { rgba64x1x2 with
          Pix := [0, 1, 0, 2, 0, 3, 255, 255, 0, 11, 0, 12, 0, 13, 255, 255] } ∧
    (readU16 .BigEndian rgb16Tile2x2 12, readU16 .BigEndian rgb16Tile2x2 14,
      readU16 .BigEndian rgb16Tile2x2 16) = (21, 22, 23) ∧
    (readU16 .BigEndian rgb16Tile2x2 6, readU16 .BigEndian rgb16Tile2x2 8,
      readU16 .BigEndian rgb16Tile2x2 10) = (11, 12, 13) ∧
    decodeBlock { rgb16Dir with depth := 8 } [1, 2, 3, 11, 12, 13, 21, 22, 23, 31, 32, 33]
        ⟨.RGBA, [0, 0, 0, 0, 0, 0, 0, 0], 4, ⟨⟨0, 0⟩, ⟨1, 2⟩⟩⟩ ⟨⟨0, 0⟩, ⟨2, 2⟩⟩
      = .next ⟨.RGBA, [1, 2, 3, 255, 21, 22, 23, 255], 4, ⟨⟨0, 0⟩, ⟨1, 2⟩⟩⟩ := by
  decide

/-! ### Block geometry -/

theorem ceilDiv_spec (a b : Int) (ha : 0 ≤ a) (hb : 0 < b) :
    ((a + b - 1).tdiv b - 1) * b < a ∧ a ≤ (a + b - 1).tdiv b * b := by
  rw [Int.tdiv_eq_ediv (by omega) (by omega)]
  have h1 := Int.emod_add_ediv (a + b - 1) b
  have h2 := Int.emod_nonneg (a + b - 1) (by omega : b ≠ 0)
  have h3 := Int.emod_lt_of_pos (a + b - 1) hb
  constructor <;> nlinarith

theorem tdiv_ceil (a b : Int) (ha : 0 ≤ a) (hb : 0 < b) :
    (a + b - 1).tdiv b = ⌈(a : ℚ) / (b : ℚ)⌉ := by
  obtain ⟨h1, h2⟩ := ceilDiv_spec a b ha hb
  symm
  rw [Int.ceil_eq_iff]
  have hbq : (0 : ℚ) < (b : ℚ) := by exact_mod_cast hb
  constructor
  · rw [lt_div_iff₀ hbq]
    exact_mod_cast h1
  · rw [div_le_iff₀ hbq]
    exact_mod_cast h2

/-- The quotient of an `int64` by a positive divisor lies between the dividend and 0. -/
theorem tdiv_between (x b : Int) (hb : 0 < b) :
    (0 ≤ x → 0 ≤ x.tdiv b ∧ x.tdiv b ≤ x) ∧ (x < 0 → x ≤ x.tdiv b ∧ x.tdiv b ≤ 0) := by
  constructor
  · intro hx
    rw [Int.tdiv_eq_ediv hx (by omega)]
    exact ⟨Int.ediv_nonneg hx (by omega), Int.ediv_le_self b hx⟩
  · intro hx
    have e : x.tdiv b = -((-x).tdiv b) := by rw [Int.neg_tdiv, neg_neg]
    have h1 : (-x).tdiv b = (-x) / b := Int.tdiv_eq_ediv (by omega) (by omega)
    have h2 : 0 ≤ (-x) / b := Int.ediv_nonneg (by omega) (by omega)
    have h3 : (-x) / b ≤ -x := Int.ediv_le_self b (by omega)
    omega

/-- The count `(a + b - 1) / b` of the code, with the sum wrapped as an `int64`: either
the sum does not overflow, or the count is not positive. -/
theorem count_cases (a b : Int) (ha : isInt64 a) (hb0 : 0 < b) (hb : isInt64 b) :
    (a + b - 1 < 9223372036854775808 ∧ goInt (a + b - 1) = a + b - 1) ∨
    (goInt (a + b - 1)).tdiv b ≤ 0 := by
  obtain ⟨ha0, ha1⟩ := ha
  obtain ⟨_, hb1⟩ := hb
  by_cases h : a + b - 1 < 9223372036854775808
  · exact Or.inl ⟨h, goInt_of_range _ (by omega) h⟩
  · right
    rw [goInt_overflow _ (by omega) (by omega)]
    exact ((tdiv_between _ b hb0).2 (by omega)).2

/-- A block index below the count of the code: the sum did not overflow, the count is
the exact quotient, and the block ends at or before `a + b - 1`. -/
theorem count_inrange (a b n : Int) (ha : isInt64 a) (hb0 : 0 < b) (hb : isInt64 b)
    (hn0 : 0 ≤ n) (hn : n < (goInt (a + b - 1)).tdiv b) :
    0 < a ∧ a + b - 1 < 9223372036854775808 ∧
    (goInt (a + b - 1)).tdiv b = (a + b - 1).tdiv b ∧
    0 ≤ n * b ∧ (n + 1) * b ≤ a + b - 1 := by
  rcases count_cases a b ha hb0 hb with ⟨h1, h2⟩ | h
  · rw [h2] at hn ⊢
    have hs : 0 ≤ a + b - 1 := by
      by_contra hneg
      have := ((tdiv_between (a + b - 1) b hb0).2 (by omega)).2
      omega
    rw [Int.tdiv_eq_ediv hs (by omega)] at hn
    have e1 := Int.emod_add_ediv (a + b - 1) b
    have e2 := Int.emod_nonneg (a + b - 1) (by omega : b ≠ 0)
    have e3 := Int.mul_le_mul_of_nonneg_left (by omega : n + 1 ≤ (a + b - 1) / b)
      (by omega : (0 : Int) ≤ b)
    have e4 : b * (n + 1) = (n + 1) * b := Int.mul_comm _ _
    have e5 : (n + 1) * b = n * b + b := by ring
    have e6 : 0 ≤ n * b := Int.mul_nonneg hn0 (by omega)
    refine ⟨by omega, h1, rfl, e6, by omega⟩
  · omega

theorem BlocksDown_total (t : TagGetter) : ∃ bd, BlocksDown t = .ok bd := by
  unfold BlocksDown
  by_cases h1 : t.GetImageLength.1 = 0
  · exact ⟨0, by simp [h1]⟩
  · by_cases h2 : t.GetTileLength.1 > 0
    · exact ⟨_, by rw [if_neg h1, if_pos h2]⟩
    · simp only [if_neg h1, if_neg h2, goDiv]
      by_cases h3 : t.GetRowsPerStrip.1 = 0 ∨ t.GetRowsPerStrip.1 > t.GetImageLength.1
      · simp only [if_pos h3, if_neg h1]
        exact ⟨_, rfl⟩
      · have h4 : t.GetRowsPerStrip.1 ≠ 0 := fun h => h3 (Or.inl h)
        simp only [if_neg h3, if_neg h4]
        exact ⟨_, rfl⟩

theorem Rect_of_le (x0 y0 x1 y1 : Int) (hx : x0 ≤ x1) (hy : y0 ≤ y1) :
    Rect x0 y0 x1 y1 = ⟨⟨x0, y0⟩, ⟨x1, y1⟩⟩ := by
  have hx1 : ¬ x0 > x1 := by omega
  have hy1 : ¬ y0 > y1 := by omega
  simp [Rect, hx1, hy1]

/-- The counts of a tiled directory. -/
theorem BlockCounts_tile (t : TagGetter) (tw th : Int)
    (hTW : t.TileWidth = some tw) (hTL : t.TileLength = some th)
    (htw : 0 < tw) (hth : 0 < th) :
    BlocksAcross t = (if t.GetImageWidth.1 = 0 then 0
      else (goInt (t.GetImageWidth.1 + tw - 1)).tdiv tw) ∧
    BlocksDown t = .ok (if t.GetImageLength.1 = 0 then 0
      else (goInt (t.GetImageLength.1 + th - 1)).tdiv th) := by
  have h1 : t.GetTileWidth.1 = tw := by simp [TagGetter.GetTileWidth, getInt, hTW]
  have h2 : t.GetTileLength.1 = th := by simp [TagGetter.GetTileLength, getInt, hTL]
  constructor
  · simp only [BlocksAcross, h1, gt_iff_lt, if_pos htw]
  · simp only [BlocksDown, h2, gt_iff_lt, if_pos hth]
    split <;> rfl

/-- The bounds of an in-range tile of a tiled directory: the nominal tile, with no
wrap in its corners. -/
theorem BlockBounds_tile (t : TagGetter) (tw th bd col row : Int)
    (hTW : t.TileWidth = some tw) (hTL : t.TileLength = some th)
    (htw : 0 < tw) (hth : 0 < th) (htwr : isInt64 tw) (hthr : isInt64 th)
    (hWr : isInt64 t.GetImageWidth.1) (hHr : isInt64 t.GetImageLength.1)
    (hbd : BlocksDown t = .ok bd)
    (hc0 : 0 ≤ col) (hc : col < BlocksAcross t) (hr0 : 0 ≤ row) (hr : row < bd) :
    BlockBounds t col row = .ok ⟨⟨col * tw, row * th⟩, ⟨(col + 1) * tw, (row + 1) * th⟩⟩ := by
  obtain ⟨hba, hbd2⟩ := BlockCounts_tile t tw th hTW hTL htw hth
  have hg : ¬ (col < 0 ∨ row < 0 ∨ col ≥ BlocksAcross t ∨ row ≥ bd) := by omega
  rw [hbd2] at hbd
  injection hbd with hbd
  rw [hba] at hc
  have hW0 : ¬ t.GetImageWidth.1 = 0 := by
    intro h
    rw [if_pos h] at hc
    omega
  have hH0 : ¬ t.GetImageLength.1 = 0 := by
    intro h
    rw [if_pos h] at hbd
    omega
  rw [if_neg hW0] at hc
  rw [if_neg hH0] at hbd
  rw [← hbd] at hr
  obtain ⟨_, a2, _, a4, a5⟩ := count_inrange _ tw col hWr htw htwr hc0 hc
  obtain ⟨_, b2, _, b4, b5⟩ := count_inrange _ th row hHr hth hthr hr0 hr
  have ex : (col + 1) * tw = col * tw + tw := by ring
  have ey : (row + 1) * th = row * th + th := by ring
  have h1 : t.GetTileWidth = (tw, true) := by simp [TagGetter.GetTileWidth, getInt, hTW]
  have h2 : t.GetTileLength = (th, true) := by simp [TagGetter.GetTileLength, getInt, hTL]
  have g1 : goInt (col * tw) = col * tw := goInt_of_range _ (by omega) (by omega)
  have g2 : goInt (row * th) = row * th := goInt_of_range _ (by omega) (by omega)
  have g3 : goInt (col * tw + tw) = col * tw + tw := goInt_of_range _ (by omega) (by omega)
  have g4 : goInt (row * th + th) = row * th + th := goInt_of_range _ (by omega) (by omega)
  have hbd3 := (BlockCounts_tile t tw th hTW hTL htw hth).2
  simp only [BlockBounds, hbd3, Outcome.ok_bind, if_neg hH0, hbd, if_neg hg, h1, h2,
    Outcome.pure_eq, g1, g2, g3, g4, if_true]
  rw [Rect_of_le _ _ _ _ (by omega) (by omega), ex, ey]

theorem BlockBounds_outside (t : TagGetter) (bd col row : Int) (hbd : BlocksDown t = .ok bd)
    (h : col < 0 ∨ row < 0 ∨ col ≥ BlocksAcross t ∨ row ≥ bd) :
    BlockBounds t col row = .ok ⟨⟨0, 0⟩, ⟨0, 0⟩⟩ := by
  simp [BlockBounds, hbd, h]

/-- C20: tiled bounds are always the nominal tile.  With the tile width `tw > 0` and the
tile length `th > 0` present (all dimension tags being `int64` values), every block
`(col,row)` that is in range for `BlocksAcross` and `BlocksDown` has the bounds
`(col*tw, row*th) .. ((col+1)*tw, (row+1)*th)`, of width `tw` and height `th` whatever
the image size, with no wrap in the corners; every out-of-range `(col,row)` has the
zero rectangle. -/
theorem tile_bounds (t : TagGetter) (tw th col row : Int)
    (hTW : t.TileWidth = some tw) (hTL : t.TileLength = some th)
    (htw : 0 < tw) (hth : 0 < th) (htwr : isInt64 tw) (hthr : isInt64 th)
    (hWr : isInt64 t.GetImageWidth.1) (hHr : isInt64 t.GetImageLength.1) :
    ∃ bd, BlocksDown t = .ok bd ∧
      ((0 ≤ col ∧ col < BlocksAcross t ∧ 0 ≤ row ∧ row < bd) →
        BlockBounds t col row
          = .ok ⟨⟨col * tw, row * th⟩, ⟨(col + 1) * tw, (row + 1) * th⟩⟩ ∧
        Rectangle.Dx ⟨⟨col * tw, row * th⟩, ⟨(col + 1) * tw, (row + 1) * th⟩⟩ = tw ∧
        Rectangle.Dy ⟨⟨col * tw, row * th⟩, ⟨(col + 1) * tw, (row + 1) * th⟩⟩ = th) ∧
      (¬ (0 ≤ col ∧ col < BlocksAcross t ∧ 0 ≤ row ∧ row < bd) →
        BlockBounds t col row = .ok ⟨⟨0, 0⟩, ⟨0, 0⟩⟩) := by
  obtain ⟨bd, hbd⟩ := BlocksDown_total t
  refine ⟨bd, hbd, ?_, ?_⟩
  · intro hin
    refine ⟨BlockBounds_tile t tw th bd col row hTW hTL htw hth htwr hthr hWr hHr hbd
      hin.1 hin.2.1 hin.2.2.1 hin.2.2.2, ?_, ?_⟩
    · simp only [Rectangle.Dx]; ring
    · simp only [Rectangle.Dy]; ring
  · intro hout
    exact BlockBounds_outside t bd col row hbd (by omega)

/-- Witness of C20: the last tile of the 100 x 100 image in tiles of 32 x 32 overhangs
both edges. -/
theorem tile_bounds_witness :
    BlockBounds tileDir 3 3 = .ok ⟨⟨96, 96⟩, ⟨128, 128⟩⟩ ∧
    BlockBounds tileDir 4 0 = .ok ⟨⟨0, 0⟩, ⟨0, 0⟩⟩ := by
  have hbd4 : BlocksDown tileDir = .ok 4 := by decide
  have hba4 : BlocksAcross tileDir = 4 := by decide
  obtain ⟨bd, hbd, hin, _⟩ := tile_bounds tileDir 32 32 3 3 rfl rfl (by decide) (by decide)
    (by decide) (by decide) (by decide) (by decide)
  obtain ⟨bd2, hbd2, _, hout⟩ := tile_bounds tileDir 32 32 4 0 rfl rfl (by decide) (by decide)
    (by decide) (by decide) (by decide) (by decide)
  rw [hbd4] at hbd hbd2
  injection hbd with hbd
  injection hbd2 with hbd2
  subst hbd hbd2
  refine ⟨?_, hout (by omega)⟩
  have := (hin (by omega)).1
  simpa using this

theorem BlocksAcross_strip (t : TagGetter) (hTW : t.TileWidth = none)
    (hW : t.GetImageWidth.1 ≠ 0) : BlocksAcross t = 1 := by
  simp [BlocksAcross, hW, TagGetter.GetTileWidth, getInt, hTW]

theorem BlocksDown_strip (t : TagGetter) (hTL : t.TileLength = none)
    (hH : 0 < t.GetImageLength.1) (hR : 0 ≤ t.GetRowsPerStrip.1) :
    BlocksDown t = .ok (goInt ((goInt (t.GetImageLength.1 + effectiveStripHeight t - 1)).tdiv
      (effectiveStripHeight t))) ∧ 0 < effectiveStripHeight t ∧
      effectiveStripHeight t ≤ t.GetImageLength.1 := by
  have h1 : t.GetImageLength.1 ≠ 0 := by omega
  have h2 : ¬ 0 < t.GetTileLength.1 := by simp [TagGetter.GetTileLength, getInt, hTL]
  simp only [BlocksDown, if_neg h1, gt_iff_lt, if_neg h2]
  cases hr : t.RowsPerStrip with
  | none =>
    simp [effectiveStripHeight, hr, TagGetter.GetRowsPerStrip, getInt, goDiv, h1, hH]
  | some r =>
    have hr1 : t.GetRowsPerStrip.1 = r := by simp [TagGetter.GetRowsPerStrip, getInt, hr]
    rw [hr1] at hR
    simp only [hr1, effectiveStripHeight, hr]
    by_cases hc : 0 < r ∧ r ≤ t.GetImageLength.1
    · have hc1 : ¬ (r = 0 ∨ t.GetImageLength.1 < r) := by omega
      have hc2 : r ≠ 0 := by omega
      simp only [if_pos hc, if_neg hc1, goDiv, if_neg hc2, true_and]
      omega
    · have hc1 : (r = 0 ∨ t.GetImageLength.1 < r) := by omega
      simp [hc, hc1, goDiv, h1, hH]

/-- The strip count of the code for a height `H` and a strip height `0 < h ≤ H`, both
`int64`: the exact quotient when `H + h - 1` does not overflow, and not positive when it
does. -/
theorem strip_count (H h : Int) (hh : 0 < h) (hle : h ≤ H) (hH : H < 9223372036854775808) :
    (H + h - 1 < 9223372036854775808 ∧
      goInt ((goInt (H + h - 1)).tdiv h) = (H + h - 1).tdiv h ∧
      0 < (H + h - 1).tdiv h ∧ (H + h - 1).tdiv h ≤ H + h - 1) ∨
    goInt ((goInt (H + h - 1)).tdiv h) ≤ 0 := by
  by_cases hs : H + h - 1 < 9223372036854775808
  · left
    rw [goInt_of_range _ (by omega) hs]
    obtain ⟨b1, b2⟩ := (tdiv_between (H + h - 1) h hh).1 (by omega)
    obtain ⟨c1, c2⟩ := ceilDiv_spec H h (by omega) hh
    have hq : 0 < (H + h - 1).tdiv h := by
      by_contra hcon
      have : (H + h - 1).tdiv h = 0 := by omega
      rw [this] at c2
      omega
    exact ⟨hs, goInt_of_range _ (by omega) (by omega), hq, b2⟩
  · right
    rw [goInt_overflow (H + h - 1) (by omega) (by omega)]
    obtain ⟨b1, b2⟩ := (tdiv_between (H + h - 1 - 18446744073709551616) h hh).2 (by omega)
    rw [goInt_of_range _ (by omega) (by omega)]
    exact b2

theorem strip_arith (H h q row : Int) (hpos : 0 < h) (hH : 0 < H)
    (hc1 : (q - 1) * h < H) (hc2 : H ≤ q * h) (hrow0 : 0 ≤ row) (hrow : row < q) :
    (row = q - 1 → H.tmod h ≠ 0 → row * h + H.tmod h = min ((row + 1) * h) H) ∧
    (row = q - 1 → H.tmod h = 0 → row * h + h = min ((row + 1) * h) H) ∧
    (row ≠ q - 1 → row * h + h = min ((row + 1) * h) H) ∧
    0 ≤ H.tmod h := by
  rw [Int.tmod_eq_emod (by omega) (by omega)]
  have h1 := Int.emod_add_ediv H h
  have h2 := Int.emod_nonneg H (by omega : h ≠ 0)
  have h3 := Int.emod_lt_of_pos H hpos
  have hq1 : q ≤ H / h + 1 := by
    by_contra hcon
    have : H / h + 1 ≤ q - 1 := by omega
    have := Int.mul_le_mul_of_nonneg_right this (by omega : 0 ≤ h)
    nlinarith
  have hq2 : H / h ≤ q := by
    by_contra hcon
    have : q ≤ H / h - 1 := by omega
    have := Int.mul_le_mul_of_nonneg_right this (by omega : 0 ≤ h)
    nlinarith
  refine ⟨?_, ?_, ?_, h2⟩
  · intro hr hm
    have hm1 : 0 < H % h := by omega
    have hq : q = H / h + 1 := by
      by_contra hcon
      have : q = H / h := by omega
      subst this
      nlinarith
    subst hr
    have e1 : (q - 1) * h + H % h = H := by rw [hq]; nlinarith
    have e2 : H ≤ (q - 1 + 1) * h := by simpa using hc2
    rw [e1, min_eq_right e2]
  · intro hr hm
    subst hr
    have e2 : (q - 1 + 1) * h ≤ H := by
      have : q = H / h := by
        by_contra hcon
        have : q = H / h + 1 := by omega
        subst this
        nlinarith
      subst this
      nlinarith
    rw [min_eq_left e2]
    ring
  · intro hr
    have : row + 1 ≤ q - 1 := by omega
    have := Int.mul_le_mul_of_nonneg_right this (by omega : 0 ≤ h)
    have e2 : (row + 1) * h ≤ H := by omega
    rw [min_eq_left e2]
    ring

/-- The bounds of every strip of a strip-organized directory, and the heights of the
strips. -/
theorem BlockBounds_strip (t : TagGetter) (W H : Int)
    (hTW : t.TileWidth = none) (hTL : t.TileLength = none)
    (hW : t.ImageWidth = some W) (hH : t.ImageLength = some H)
    (hWpos : 0 < W) (hHpos : 0 < H)
    (hWr : W < 9223372036854775808) (hHr : H < 9223372036854775808)
    (hR : ∀ r, t.RowsPerStrip = some r → 0 ≤ r) :
    ∃ bd, BlocksDown t = .ok bd ∧ ∀ row, 0 ≤ row → row < bd →
      BlockBounds t 0 row = .ok ⟨⟨0, row * effectiveStripHeight t⟩,
        ⟨W, min ((row + 1) * effectiveStripHeight t) H⟩⟩ ∧
      (row < bd - 1 →
        min ((row + 1) * effectiveStripHeight t) H - row * effectiveStripHeight t
          = effectiveStripHeight t) ∧
      (row = bd - 1 → H.tmod (effectiveStripHeight t) ≠ 0 →
        min ((row + 1) * effectiveStripHeight t) H - row * effectiveStripHeight t
          = H.tmod (effectiveStripHeight t)) := by
  have hW1 : t.GetImageWidth.1 = W := by simp [TagGetter.GetImageWidth, getInt, hW]
  have hH1 : t.GetImageLength.1 = H := by simp [TagGetter.GetImageLength, getInt, hH]
  have hR1 : 0 ≤ t.GetRowsPerStrip.1 := by
    cases hr : t.RowsPerStrip with
    | none => simp [TagGetter.GetRowsPerStrip, getInt, hr]
    | some r => simpa [TagGetter.GetRowsPerStrip, getInt, hr] using hR r hr
  obtain ⟨hbd, hpos, hle⟩ := BlocksDown_strip t hTL (by omega) hR1
  simp only [hH1] at hbd hle
  have hba := BlocksAcross_strip t hTW (by omega)
  obtain ⟨hc1, hc2⟩ := ceilDiv_spec H (effectiveStripHeight t) (by omega) hpos
  refine ⟨_, hbd, ?_⟩
  intro row hrow0 hrow
  rcases strip_count H (effectiveStripHeight t) hpos hle hHr with ⟨hs, hq, hq0, hqle⟩ | hneg
  swap
  · omega
  rw [hq] at hrow hbd ⊢
  have hg : ¬ ((0 : Int) < 0 ∨ row < 0 ∨ (0 : Int) ≥ 1 ∨
      row ≥ (H + effectiveStripHeight t - 1).tdiv (effectiveStripHeight t)) := by omega
  have htw : t.GetTileWidth.2 = false := by simp [TagGetter.GetTileWidth, getInt, hTW]
  have gQ : goInt ((H + effectiveStripHeight t - 1).tdiv (effectiveStripHeight t) - 1)
      = (H + effectiveStripHeight t - 1).tdiv (effectiveStripHeight t) - 1 :=
    goInt_of_range _ (by omega) (by omega)
  have gW : goInt W = W := goInt_of_range _ (by omega) (by omega)
  have gH : goInt H = H := goInt_of_range _ (by omega) (by omega)
  simp only [BlockBounds, hba, hbd, Outcome.ok_bind, if_neg hg, htw, hW1, hH1, gQ, zero_mul,
    goInt_zero, zero_add, gW]
  obtain ⟨a1, a2, a3, a4⟩ := strip_arith H (effectiveStripHeight t)
    ((H + effectiveStripHeight t - 1).tdiv (effectiveStripHeight t)) row hpos hHpos hc1 hc2
    hrow0 hrow
  have hy0 : row * effectiveStripHeight t ≤ min ((row + 1) * effectiveStripHeight t) H := by
    apply le_min
    · nlinarith
    · have : row ≤ (H + effectiveStripHeight t - 1).tdiv (effectiveStripHeight t) - 1 := by
        omega
      have := Int.mul_le_mul_of_nonneg_right this (by omega : 0 ≤ effectiveStripHeight t)
      omega
  have hy1 : 0 ≤ row * effectiveStripHeight t := Int.mul_nonneg hrow0 (by omega)
  have hy2 : min ((row + 1) * effectiveStripHeight t) H ≤ H := min_le_right _ _
  have gy : goInt (row * effectiveStripHeight t) = row * effectiveStripHeight t :=
    goInt_of_range _ (by omega) (by omega)
  have gm : goInt (min ((row + 1) * effectiveStripHeight t) H)
      = min ((row + 1) * effectiveStripHeight t) H :=
    goInt_of_range _ (by omega) (by omega)
  refine ⟨?_, ?_, ?_⟩
  · have hcase : (if (!t.GetRowsPerStrip.2) = true ∨ t.GetRowsPerStrip.1 = 0 then H
          else t.GetRowsPerStrip.1) = effectiveStripHeight t ∨
        (H < (if (!t.GetRowsPerStrip.2) = true ∨ t.GetRowsPerStrip.1 = 0 then H
          else t.GetRowsPerStrip.1) ∧ effectiveStripHeight t = H) := by
      cases hr : t.RowsPerStrip with
      | none => simp [effectiveStripHeight, hr, TagGetter.GetRowsPerStrip, getInt, hH1]
      | some r =>
        have hr0 := hR r hr
        simp only [effectiveStripHeight, hr, TagGetter.GetRowsPerStrip, getInt, hH1,
          Option.getD_some, Option.isSome_some, Bool.not_true, Bool.false_eq_true, false_or]
        by_cases hz : r = 0
        · simp [hz]
        · by_cases hgt : r ≤ H
          · have : 0 < r ∧ r ≤ H := by omega
            simp [hz, this]
          · have : ¬ (0 < r ∧ r ≤ H) := by omega
            simp only [if_neg hz, if_neg this]
            right
            exact ⟨by omega, trivial⟩
    generalize (if (!t.GetRowsPerStrip.2) = true ∨ t.GetRowsPerStrip.1 = 0 then H
          else t.GetRowsPerStrip.1) = bh at hcase ⊢
    rcases hcase with hbh | ⟨hbh, heq⟩
    · subst hbh
      have hne : effectiveStripHeight t ≠ 0 := by omega
      simp only [goMod, if_neg hne, Outcome.ok_bind, Outcome.pure_eq, Bool.false_eq_true,
        if_false, gy]
      by_cases hlast : row = (H + effectiveStripHeight t - 1).tdiv (effectiveStripHeight t) - 1
      · rw [if_pos hlast]
        by_cases hm : H.tmod (effectiveStripHeight t) = 0
        · have hm1 : ¬ (H.tmod (effectiveStripHeight t) ≠ 0) := by simp [hm]
          simp only [if_neg hm1, Outcome.ok_bind]
          rw [a2 hlast hm, gm, Rect_of_le _ _ _ _ (by omega) hy0]
        · have hm1 : H.tmod (effectiveStripHeight t) ≠ 0 := hm
          simp only [if_pos hm1, Outcome.ok_bind]
          rw [a1 hlast hm, gm, Rect_of_le _ _ _ _ (by omega) hy0]
      · rw [if_neg hlast]
        rw [a3 hlast, gm, Rect_of_le _ _ _ _ (by omega) hy0]
    · rw [heq] at hrow hc1 hc2 hy0 ⊢
      have hq1 : (H + H - 1).tdiv H = 1 := by
        rw [Int.tdiv_eq_ediv (by omega) (by omega)]
        have : H + H - 1 = H - 1 + H * 1 := by ring
        rw [this, Int.add_mul_ediv_left _ _ (by omega : H ≠ 0),
          Int.ediv_eq_zero_of_lt (by omega) (by omega)]
        simp
      rw [hq1] at hrow ⊢
      have hrow1 : row = 0 := by omega
      subst hrow1
      have hne : bh ≠ 0 := by omega
      have hmod : H.tmod bh = H := by
        rw [Int.tmod_eq_emod (by omega) (by omega)]
        exact Int.emod_eq_of_lt (by omega) hbh
      have hHne : H ≠ 0 := by omega
      simp only [goMod, if_neg hne, Outcome.ok_bind, Outcome.pure_eq, Bool.false_eq_true,
        if_false, hmod]
      simp [hHne, goInt_zero, gH, Rect_of_le 0 0 W H (by omega) (by omega)]
  · intro hlt
    rw [← a3 (by omega)]
    ring
  · intro heq hne
    rw [← a1 heq hne]
    ring

/-- C4: strip bounds.  For a strip-organized directory (no tile tags) with width `W > 0`,
height `H > 0` and non-negative rows per strip (the width and the height being `int64`
values), with `h` the effective strip height, every strip `row` with
`0 ≤ row < BlocksDown` has bounds `x ∈ [0,W)`, `y ∈ [row*h, min((row+1)*h, H))`; every
strip but the last has height `h`, the last one has height `H mod h` when that is
non-zero. -/
theorem strip_bounds (t : TagGetter) (W H : Int)
    (hTW : t.TileWidth = none) (hTL : t.TileLength = none)
    (hW : t.ImageWidth = some W) (hH : t.ImageLength = some H)
    (hWpos : 0 < W) (hHpos : 0 < H)
    (hWr : W < 9223372036854775808) (hHr : H < 9223372036854775808)
    (hR : ∀ r, t.RowsPerStrip = some r → 0 ≤ r) :
    ∃ bd, BlocksDown t = .ok bd ∧ ∀ row, 0 ≤ row → row < bd →
      BlockBounds t 0 row = .ok ⟨⟨0, row * effectiveStripHeight t⟩,
        ⟨W, min ((row + 1) * effectiveStripHeight t) H⟩⟩ ∧
      (row < bd - 1 →
        min ((row + 1) * effectiveStripHeight t) H - row * effectiveStripHeight t
          = effectiveStripHeight t) ∧
      (row = bd - 1 → H.tmod (effectiveStripHeight t) ≠ 0 →
        min ((row + 1) * effectiveStripHeight t) H - row * effectiveStripHeight t
          = H.tmod (effectiveStripHeight t)) :=
  BlockBounds_strip t W H hTW hTL hW hH hWpos hHpos hWr hHr hR

/-- Witness of C4: the last and an interior strip of a 100 x 100 image in strips of 30. -/
theorem strip_bounds_witness :
    BlockBounds stripDir 0 3 = .ok ⟨⟨0, 90⟩, ⟨100, 100⟩⟩ ∧
    BlockBounds stripDir 0 1 = .ok ⟨⟨0, 30⟩, ⟨100, 60⟩⟩ := by
  obtain ⟨bd, hbd, h⟩ := strip_bounds stripDir 100 100 rfl rfl rfl rfl (by decide) (by decide)
    (by decide) (by decide) (by intro r hr; simp [stripDir] at hr; omega)
  have hbd4 : bd = 4 := by
    have h4 : BlocksDown stripDir = .ok 4 := by decide
    rw [h4] at hbd
    injection hbd with hbd
    exact hbd.symm
  subst hbd4
  have he : effectiveStripHeight stripDir = 30 := by decide
  have h3 := (h 3 (by decide) (by decide)).1
  have h1 := (h 1 (by decide) (by decide)).1
  rw [he] at h3 h1
  exact ⟨by simpa using h3, by simpa using h1⟩

/-! ### Block counts: the ceiling and its overflow -/

/-- Where the sums `imageWidth + tileWidth - 1`, `imageHeight + tileLength - 1` and
`imageHeight + h - 1` fit an `int64`, the block counts are the ceilings: `BlocksAcross` is
0 for width 0, `ceil(imageWidth / tileWidth)` for a positive tile width and 1 otherwise;
`BlocksDown` is 0 for height 0, `ceil(imageHeight / tileLength)` for a positive tile
length, and otherwise `ceil(imageHeight / h)` with `h` the rows per strip, replaced by
the image height when absent, zero or greater than the image height. -/
theorem block_counts_ceiling (t : TagGetter)
    (hW : 0 ≤ t.GetImageWidth.1) (hH : 0 ≤ t.GetImageLength.1)
    (hR : 0 ≤ t.GetRowsPerStrip.1)
    (hWo : t.GetImageWidth.1 + t.GetTileWidth.1 - 1 < 9223372036854775808)
    (hHo : t.GetImageLength.1 + t.GetTileLength.1 - 1 < 9223372036854775808)
    (hSo : t.GetImageLength.1 + t.GetImageLength.1 - 1 < 9223372036854775808) :
    (t.GetImageWidth.1 = 0 → BlocksAcross t = 0) ∧
    (t.GetImageWidth.1 ≠ 0 → 0 < t.GetTileWidth.1 →
      BlocksAcross t = ⌈(t.GetImageWidth.1 : ℚ) / (t.GetTileWidth.1 : ℚ)⌉) ∧
    (t.GetImageWidth.1 ≠ 0 → ¬ 0 < t.GetTileWidth.1 → BlocksAcross t = 1) ∧
    (t.GetImageLength.1 = 0 → BlocksDown t = .ok 0) ∧
    (t.GetImageLength.1 ≠ 0 → 0 < t.GetTileLength.1 →
      BlocksDown t = .ok ⌈(t.GetImageLength.1 : ℚ) / (t.GetTileLength.1 : ℚ)⌉) ∧
    (t.GetImageLength.1 ≠ 0 → ¬ 0 < t.GetTileLength.1 →
      (t.RowsPerStrip = none ∨ t.RowsPerStrip = some 0 ∨
        ∃ r, t.RowsPerStrip = some r ∧ r > t.GetImageLength.1) →
      BlocksDown t = .ok ⌈(t.GetImageLength.1 : ℚ) / (t.GetImageLength.1 : ℚ)⌉) ∧
    (t.GetImageLength.1 ≠ 0 → ¬ 0 < t.GetTileLength.1 →
      ∀ r, t.RowsPerStrip = some r → r ≠ 0 → r ≤ t.GetImageLength.1 →
      BlocksDown t = .ok ⌈(t.GetImageLength.1 : ℚ) / (r : ℚ)⌉) := by
  refine ⟨?_, ?_, ?_, ?_, ?_, ?_, ?_⟩
  · intro h
    simp [BlocksAcross, h]
  · intro h1 h2
    simp only [BlocksAcross, if_neg h1, gt_iff_lt, if_pos h2]
    rw [goInt_of_range _ (by omega) hWo]
    exact tdiv_ceil _ _ hW h2
  · intro h1 h2
    simp only [BlocksAcross, if_neg h1, gt_iff_lt, if_neg h2]
  · intro h
    simp [BlocksDown, h]
  · intro h1 h2
    simp only [BlocksDown, if_neg h1, gt_iff_lt, if_pos h2]
    rw [goInt_of_range _ (by omega) hHo, tdiv_ceil _ _ hH h2]
  · intro h1 h2 h3
    have hpos : 0 < t.GetImageLength.1 := by omega
    have hc : (t.GetRowsPerStrip.1 = 0 ∨ t.GetImageLength.1 < t.GetRowsPerStrip.1) := by
      rcases h3 with h3 | h3 | ⟨r, h3, h4⟩
      · left; simp [TagGetter.GetRowsPerStrip, getInt, h3]
      · left; simp [TagGetter.GetRowsPerStrip, getInt, h3]
      · right; simpa [TagGetter.GetRowsPerStrip, getInt, h3] using h4
    obtain ⟨b1, b2⟩ := (tdiv_between (t.GetImageLength.1 + t.GetImageLength.1 - 1)
      t.GetImageLength.1 hpos).1 (by omega)
    simp only [BlocksDown, if_neg h1, gt_iff_lt, if_neg h2, if_pos hc, goDiv]
    rw [goInt_of_range _ (by omega) hSo, goInt_of_range _ (by omega) (by omega),
      tdiv_ceil _ _ hH hpos]
  · intro h1 h2 r h3 h4 h5
    have hr : t.GetRowsPerStrip.1 = r := by simp [TagGetter.GetRowsPerStrip, getInt, h3]
    rw [hr] at hR
    have hc : ¬ (r = 0 ∨ t.GetImageLength.1 < r) := by omega
    obtain ⟨b1, b2⟩ := (tdiv_between (t.GetImageLength.1 + r - 1) r (by omega)).1 (by omega)
    simp only [BlocksDown, if_neg h1, gt_iff_lt, if_neg h2, hr, if_neg hc, goDiv, if_neg h4]
    rw [goInt_of_range (t.GetImageLength.1 + r - 1) (by omega) (by omega),
      goInt_of_range _ (by omega) (by omega), tdiv_ceil _ _ hH (by omega)]

/-- C3, evaluated at inputs where the code departs from the claim.  For the image of
width `2^63 - 1` in tiles of width 2 the claim gives `ceil((2^63 - 1) / 2) = 2^62`
blocks across, the code returns `-2^62`: the `int64` sum `imageWidth + tileWidth - 1`
wraps.  For the strip-organized image of height `2^63 - 1` the claim gives
`ceil(H / H) = 1` block down, the code returns 0.  The values of the claim's own example
are returned: width 100 in tiles of 32 gives 4, height 100 in strips of 30 gives 4. -/
theorem block_counts_wrap :
    (wideDir.GetImageWidth.1 = 9223372036854775807 ∧ wideDir.GetTileWidth.1 = 2 ∧
      ⌈((9223372036854775807 : Int) : ℚ) / ((2 : Int) : ℚ)⌉ = 4611686018427387904 ∧
      BlocksAcross wideDir = -4611686018427387904) ∧
    (tallDir.GetImageLength.1 = 9223372036854775807 ∧ tallDir.GetTileLength.1 = 0 ∧
      tallDir.RowsPerStrip = none ∧
      ⌈((9223372036854775807 : Int) : ℚ) / ((9223372036854775807 : Int) : ℚ)⌉ = 1 ∧
      BlocksDown tallDir = .ok 0) ∧
    BlocksAcross tileDir = 4 ∧ BlocksDown stripDir = .ok 4 := by
  refine ⟨⟨by decide, by decide, ?_, by decide⟩, ⟨by decide, by decide, rfl, ?_, by decide⟩,
    by decide, by decide⟩
  · rw [← tdiv_ceil _ _ (by decide) (by decide)]
    decide
  · rw [← tdiv_ceil _ _ (by decide) (by decide)]
    decide

/-! ### Block offset and byte-count lookups -/

theorem block_index_in_range (ba bd col row : Int) (hc0 : 0 ≤ col) (hc : col < ba)
    (hr0 : 0 ≤ row) (hr : row < bd) :
    0 ≤ row * ba + col ∧ row * ba + col < ba * bd := by
  have h1 : 0 ≤ row * ba := Int.mul_nonneg hr0 (by omega)
  have h2 : row + 1 ≤ bd := by omega
  have h3 := Int.mul_le_mul_of_nonneg_right h2 (by omega : 0 ≤ ba)
  constructor
  · omega
  · nlinarith

theorem block_index_injective (ba col row col2 row2 : Int)
    (hc0 : 0 ≤ col) (hc : col < ba) (hd0 : 0 ≤ col2) (hd : col2 < ba)
    (h : row * ba + col = row2 * ba + col2) : col = col2 ∧ row = row2 := by
  have hrow : row = row2 := by
    by_contra hne
    rcases Int.lt_or_gt_of_ne hne with hlt | hgt
    · have e := Int.mul_le_mul_of_nonneg_right (by omega : row + 1 ≤ row2)
        (by omega : (0 : Int) ≤ ba)
      rw [add_mul, one_mul] at e
      omega
    · have e := Int.mul_le_mul_of_nonneg_right (by omega : row2 + 1 ≤ row)
        (by omega : (0 : Int) ≤ ba)
      rw [add_mul, one_mul] at e
      omega
  subst hrow
  exact ⟨by omega, rfl⟩

theorem goIndex_ok {α : Type} (xs : List α) (i : Int) (h0 : 0 ≤ i)
    (h1 : i < (xs.length : Int)) :
    ∃ v, xs[i.toNat]? = some v ∧ goIndex xs i = .ok v := by
  have hlt : i.toNat < xs.length := by omega
  refine ⟨xs[i.toNat], List.getElem?_eq_getElem hlt, ?_⟩
  have h2 : ¬ i < 0 := by omega
  simp [goIndex, h2, List.getElem?_eq_getElem hlt]

theorem goIndex_get {α : Type} (xs : List α) (i : Int) (h0 : 0 ≤ i)
    (hi : i.toNat < xs.length) : goIndex xs i = .ok (xs.get ⟨i.toNat, hi⟩) := by
  have h2 : ¬ i < 0 := by omega
  simp [goIndex, h2, List.getElem?_eq_getElem hi]

/-- The shape of `BlockOffset`: guard the coordinates, pick the tile or strip array,
compare its length with the wrapped product, index it. -/
theorem BlockOffset_eq (t : TagGetter) (col row bd : Int) (hbd : BlocksDown t = .ok bd) :
    BlockOffset t col row =
      (if col < 0 ∨ row < 0 ∨ col ≥ BlocksAcross t ∨ row ≥ bd then (Outcome.ok 0 : Outcome Int)
       else if (!(getInts (blockOffsetsArray t)).2) = true ∨
          (((getInts (blockOffsetsArray t)).1.length : Nat) : Int)
            ≠ goInt (BlocksAcross t * bd)
         then Outcome.ok 0
       else goIndex (getInts (blockOffsetsArray t)).1 (blockIndex (BlocksAcross t) col row)) := by
  simp only [BlockOffset, hbd, Outcome.ok_bind, blockOffsetsArray, TagGetter.GetTileWidth,
    TagGetter.GetTileOffsets, TagGetter.GetStripOffsets, getInt]
  by_cases g1 : col < 0 ∨ row < 0 ∨ col ≥ BlocksAcross t ∨ row ≥ bd
  · simp [g1]
  · cases htw : t.TileWidth.isSome <;> simp [g1, htw]

/-- The shape of `BlockCount`, as for `BlockOffset`. -/
theorem BlockCount_eq (t : TagGetter) (col row bd : Int) (hbd : BlocksDown t = .ok bd) :
    BlockCount t col row =
      (if col < 0 ∨ row < 0 ∨ col ≥ BlocksAcross t ∨ row ≥ bd then (Outcome.ok 0 : Outcome Int)
       else if (!(getInts (blockCountsArray t)).2) = true ∨
          (((getInts (blockCountsArray t)).1.length : Nat) : Int)
            ≠ goInt (BlocksAcross t * bd)
         then Outcome.ok 0
       else goIndex (getInts (blockCountsArray t)).1 (blockIndex (BlocksAcross t) col row)) := by
  simp only [BlockCount, hbd, Outcome.ok_bind, blockCountsArray, TagGetter.GetTileWidth,
    TagGetter.GetTileByteCounts, TagGetter.GetStripByteCounts, getInt]
  by_cases g1 : col < 0 ∨ row < 0 ∨ col ≥ BlocksAcross t ∨ row ≥ bd
  · simp [g1]
  · cases htw : t.TileWidth.isSome <;> simp [g1, htw]

theorem getInts_some (a : Option (List Int)) (xs : List Int) (h : a = some xs) :
    getInts a = (xs, true) := by
  simp [getInts, h]

theorem getInts_present (a : Option (List Int)) (h : (getInts a).2 = true) :
    a = some (getInts a).1 := by
  cases a with
  | none => simp [getInts] at h
  | some xs => simp [getInts]

/-- The guarded lookup is zero unless the array is present and has the length the guard
asks for. -/
theorem lookup_zero (g : Prop) [Decidable g] (arr : List Int × Bool) (P i : Int)
    (hn : ¬ (arr.2 = true ∧ (arr.1.length : Int) = P)) :
    (if g then (Outcome.ok 0 : Outcome Int)
      else if (!arr.2) = true ∨ (arr.1.length : Int) ≠ P then Outcome.ok 0
      else goIndex arr.1 i) = .ok 0 := by
  by_cases hg : g
  · rw [if_pos hg]
  · rw [if_neg hg]
    have g2 : (!arr.2) = true ∨ (arr.1.length : Int) ≠ P := by
      by_contra hcon
      apply hn
      simp only [not_or, Bool.not_eq_true', Bool.not_eq_false, ne_eq, not_not] at hcon
      exact hcon
    rw [if_pos g2]

/-- Where the product of the block counts equals the length of the array (so it does
not overflow, a slice length being an `int`), the lookups of an in-range block return
the entry at index `row*BlocksAcross + col`, which lies inside the array. -/
theorem lookups_in_range (t : TagGetter) (bd col row : Int) (hbd : BlocksDown t = .ok bd)
    (hc0 : 0 ≤ col) (hc : col < BlocksAcross t) (hr0 : 0 ≤ row) (hr : row < bd) :
    (∀ offs, blockOffsetsArray t = some offs → (offs.length : Int) = BlocksAcross t * bd →
      offs.length < 9223372036854775808 →
      ∃ (hi : (row * BlocksAcross t + col).toNat < offs.length),
        BlockOffset t col row = .ok (offs.get ⟨(row * BlocksAcross t + col).toNat, hi⟩)) ∧
    (∀ cnts, blockCountsArray t = some cnts → (cnts.length : Int) = BlocksAcross t * bd →
      cnts.length < 9223372036854775808 →
      ∃ (hi : (row * BlocksAcross t + col).toNat < cnts.length),
        BlockCount t col row = .ok (cnts.get ⟨(row * BlocksAcross t + col).toNat, hi⟩)) := by
  obtain ⟨i0, i1⟩ := block_index_in_range (BlocksAcross t) bd col row hc0 hc hr0 hr
  have g1 : ¬ (col < 0 ∨ row < 0 ∨ col ≥ BlocksAcross t ∨ row ≥ bd) := by omega
  constructor
  · intro offs harr hlen hfit
    have hi : (row * BlocksAcross t + col).toNat < offs.length := by omega
    refine ⟨hi, ?_⟩
    have hg := getInts_some _ offs harr
    have hP : goInt (BlocksAcross t * bd) = BlocksAcross t * bd :=
      goInt_of_range _ (by omega) (by omega)
    have hI : blockIndex (BlocksAcross t) col row = row * BlocksAcross t + col :=
      goInt_of_range _ (by omega) (by omega)
    have g2 : ¬ ((!true) = true ∨ (offs.length : Int) ≠ BlocksAcross t * bd) := by simp [hlen]
    rw [BlockOffset_eq t col row bd hbd, hg, hP, hI, if_neg g1, if_neg g2]
    exact goIndex_get offs _ i0 hi
  · intro cnts harr hlen hfit
    have hi : (row * BlocksAcross t + col).toNat < cnts.length := by omega
    refine ⟨hi, ?_⟩
    have hg := getInts_some _ cnts harr
    have hP : goInt (BlocksAcross t * bd) = BlocksAcross t * bd :=
      goInt_of_range _ (by omega) (by omega)
    have hI : blockIndex (BlocksAcross t) col row = row * BlocksAcross t + col :=
      goInt_of_range _ (by omega) (by omega)
    have g2 : ¬ ((!true) = true ∨ (cnts.length : Int) ≠ BlocksAcross t * bd) := by simp [hlen]
    rw [BlockCount_eq t col row bd hbd, hg, hP, hI, if_neg g1, if_neg g2]
    exact goIndex_get cnts _ i0 hi

/-- C5, evaluated at an input where the code departs from the claim.  In `wrapDir` the
block counts are 7 and 7905747460161236407 and the tile arrays have one entry, so the
length does not equal `BlocksAcross*BlocksDown` and the claim gives 0 for every block.
The product the code compares the length with is an `int` and wraps to 1, the guard
passes, `BlockOffset(0,0)` is 8 and `BlockCount(0,0)` is 5, and at `(1,0)`, an
in-range block, both lookups index the one-entry array at 1 and panic. -/
theorem lookup_guard_wraps :
    BlocksAcross wrapDir = 7 ∧ BlocksDown wrapDir = .ok 7905747460161236407 ∧
    blockOffsetsArray wrapDir = some [8] ∧ blockCountsArray wrapDir = some [5] ∧
    (([8] : List Int).length : Int) ≠ 7 * 7905747460161236407 ∧
    goInt (7 * 7905747460161236407) = 1 ∧
    BlockOffset wrapDir 0 0 = .ok 8 ∧ BlockCount wrapDir 0 0 = .ok 5 ∧
    BlockOffset wrapDir 1 0 = .panic ∧ BlockCount wrapDir 1 0 = .panic := by
  decide

/-- C6, as stated, fails: in `mismatchDir` the strip offsets have the right length and
`BlockOffset(0,0)` is 8, yet the byte-count array has length 2, not
`BlocksAcross*BlocksDown = 1`. -/
theorem offset_nonzero_with_count_mismatch :
    BlocksAcross mismatchDir = 1 ∧ BlocksDown mismatchDir = .ok 1 ∧
    ¬ ((BlockOffset mismatchDir 0 0 ≠ .ok 0 ∨ BlockCount mismatchDir 0 0 ≠ .ok 0) →
        (((blockOffsetsArray mismatchDir).getD []).length : Int) = 1 * 1 ∧
        (((blockCountsArray mismatchDir).getD []).length : Int) = 1 * 1) := by
  decide

/-- C6, amended: each lookup guards its own array.  A non-zero `BlockOffset(col,row)`
implies that the offsets array is present with length `BlocksAcross*BlocksDown`, a
non-zero `BlockCount(col,row)` implies the same of the byte-count array, the product
being the `int` product the code compares the length with (the exact product
whenever that fits an `int`); so a mismatched offsets array makes `BlockOffset` zero
for every block, and a mismatched byte-count array makes `BlockCount` zero for every
block. -/
theorem nonzero_lookup_array_length (t : TagGetter) :
    ∃ bd, BlocksDown t = .ok bd ∧ ∀ col row : Int,
      (BlockOffset t col row ≠ .ok 0 →
        ∃ offs, blockOffsetsArray t = some offs ∧
          (offs.length : Int) = goInt (BlocksAcross t * bd) ∧
          (isInt64 (BlocksAcross t * bd) → (offs.length : Int) = BlocksAcross t * bd)) ∧
      (BlockCount t col row ≠ .ok 0 →
        ∃ cnts, blockCountsArray t = some cnts ∧
          (cnts.length : Int) = goInt (BlocksAcross t * bd) ∧
          (isInt64 (BlocksAcross t * bd) → (cnts.length : Int) = BlocksAcross t * bd)) := by
  obtain ⟨bd, hbd⟩ := BlocksDown_total t
  refine ⟨bd, hbd, ?_⟩
  intro col row
  constructor
  · intro hne
    by_contra hcon
    apply hne
    rw [BlockOffset_eq t col row bd hbd]
    apply lookup_zero
    intro ⟨hok, hlen⟩
    exact hcon ⟨_, getInts_present _ hok, hlen,
      fun hfit => by rw [hlen]; exact goInt_of_range _ hfit.1 hfit.2⟩
  · intro hne
    by_contra hcon
    apply hne
    rw [BlockCount_eq t col row bd hbd]
    apply lookup_zero
    intro ⟨hok, hlen⟩
    exact hcon ⟨_, getInts_present _ hok, hlen,
      fun hfit => by rw [hlen]; exact goInt_of_range _ hfit.1 hfit.2⟩

/-- Witness of C6 as amended, on the directory of four strips. -/
theorem nonzero_lookup_array_length_witness :
    ∃ offs, blockOffsetsArray stripDir = some offs ∧ (offs.length : Int) = 1 * 4 := by
  obtain ⟨bd, hbd, h⟩ := nonzero_lookup_array_length stripDir
  have h4 : BlocksDown stripDir = .ok 4 := by decide
  rw [h4] at hbd
  injection hbd with hbd
  subst hbd
  have hba : BlocksAcross stripDir = 1 := by decide
  obtain ⟨offs, h1, _, h3⟩ := (h 0 3).1 (by decide)
  rw [hba] at h3
  exact ⟨offs, h1, h3 (by decide)⟩

/-- C26, evaluated at an input where the code departs from the claim.  In `wrapDir` the
block counts are 7 and 7905747460161236407; the arrays have one entry, which is what the
`int` product of the counts wraps to, so the length guard of the code passes.  For the
in-range block `(0,1)` the index `row*blocksAcross + col` is 7, outside the array, and
both `BlockOffset` and `BlockCount` panic with an index out of range. -/
theorem lookup_index_out_of_range :
    BlocksAcross wrapDir = 7 ∧ BlocksDown wrapDir = .ok 7905747460161236407 ∧
    (((getInts (blockOffsetsArray wrapDir)).1.length : Nat) : Int)
      = goInt (7 * 7905747460161236407) ∧
    (0 : Int) < 7 ∧ (1 : Int) < 7905747460161236407 ∧
    blockIndex 7 0 1 = 7 ∧
    ¬ (blockIndex 7 0 1 < (((getInts (blockOffsetsArray wrapDir)).1.length : Nat) : Int)) ∧
    BlockOffset wrapDir 0 1 = .panic ∧ BlockCount wrapDir 0 1 = .panic := by
  decide

/-! ### Block bounds partition the image -/

/-- A grid of `ba x bd` rectangles with origins `(col*bw, row*bh)` that reach to the next
origin or at least to the image edge: the rectangles are not empty, meet the image,
are pairwise disjoint and cover the image. -/
theorem grid_partition (W H bw bh ba bd : Int) (rect : Int → Int → Rectangle)
    (hbw : 0 < bw) (hbh : 0 < bh)
    (hba1 : (ba - 1) * bw < W) (hba2 : W ≤ ba * bw)
    (hbd1 : (bd - 1) * bh < H) (hbd2 : H ≤ bd * bh)
    (hrect : ∀ col row, 0 ≤ col → col < ba → 0 ≤ row → row < bd →
      (rect col row).Min = ⟨col * bw, row * bh⟩ ∧
      min ((col + 1) * bw) W ≤ (rect col row).Max.X ∧
      (rect col row).Max.X ≤ (col + 1) * bw ∧
      min ((row + 1) * bh) H ≤ (rect col row).Max.Y ∧
      (rect col row).Max.Y ≤ (row + 1) * bh) :
    (∀ col row, 0 ≤ col → col < ba → 0 ≤ row → row < bd →
      (rect col row).Min.X < (rect col row).Max.X ∧
      (rect col row).Min.Y < (rect col row).Max.Y ∧
      inRect (col * bw) (row * bh) (rect col row) ∧
      inRect (col * bw) (row * bh) ⟨⟨0, 0⟩, ⟨W, H⟩⟩) ∧
    (∀ col row col2 row2, 0 ≤ col → col < ba → 0 ≤ row → row < bd →
      0 ≤ col2 → col2 < ba → 0 ≤ row2 → row2 < bd → (col ≠ col2 ∨ row ≠ row2) →
      ∀ x y, ¬ (inRect x y (rect col row) ∧ inRect x y (rect col2 row2))) ∧
    (∀ x y, inRect x y ⟨⟨0, 0⟩, ⟨W, H⟩⟩ →
      ∃ col row, 0 ≤ col ∧ col < ba ∧ 0 ≤ row ∧ row < bd ∧ inRect x y (rect col row)) := by
  have hlow : ∀ (n b M q : Int), 0 < b → (q - 1) * b < M → 0 ≤ n → n < q →
      0 ≤ n * b ∧ n * b < M ∧ (n + 1) * b = n * b + b := by
    intro n b M q hb hq hn0 hn
    have e1 : 0 ≤ n * b := Int.mul_nonneg hn0 (by omega)
    have e2 := Int.mul_le_mul_of_nonneg_right (by omega : n ≤ q - 1) (by omega : (0 : Int) ≤ b)
    exact ⟨e1, by omega, by ring⟩
  have hord : ∀ (n m b : Int), 0 < b → n < m → (n + 1) * b ≤ m * b := by
    intro n m b hb hnm
    exact Int.mul_le_mul_of_nonneg_right (by omega) (by omega)
  have hquot : ∀ (x b M q : Int), 0 < b → M ≤ q * b → 0 ≤ x → x < M →
      0 ≤ x / b ∧ x / b < q ∧ (x / b) * b ≤ x ∧ x < (x / b + 1) * b := by
    intro x b M q hb hq hx0 hx
    have e1 := Int.emod_add_ediv x b
    have e2 := Int.emod_nonneg x (by omega : b ≠ 0)
    have e3 := Int.emod_lt_of_pos x hb
    have e4 : b * (x / b) = (x / b) * b := Int.mul_comm _ _
    have e5 : (x / b + 1) * b = (x / b) * b + b := by ring
    have e6 : 0 ≤ x / b := Int.ediv_nonneg hx0 (by omega)
    refine ⟨e6, ?_, by omega, by omega⟩
    by_contra hge
    have := Int.mul_le_mul_of_nonneg_right (by omega : q ≤ x / b) (by omega : (0 : Int) ≤ b)
    omega
  refine ⟨?_, ?_, ?_⟩
  · intro col row hc0 hc hr0 hr
    obtain ⟨hmin, hx1, hx2, hy1, hy2⟩ := hrect col row hc0 hc hr0 hr
    obtain ⟨a1, a2, a3⟩ := hlow col bw W ba hbw hba1 hc0 hc
    obtain ⟨b1, b2, b3⟩ := hlow row bh H bd hbh hbd1 hr0 hr
    have hX : col * bw < (rect col row).Max.X := by
      rcases min_le_iff.mp hx1 with h | h <;> omega
    have hY : row * bh < (rect col row).Max.Y := by
      rcases min_le_iff.mp hy1 with h | h <;> omega
    have m1 : (rect col row).Min.X = col * bw := by rw [hmin]
    have m2 : (rect col row).Min.Y = row * bh := by rw [hmin]
    refine ⟨by omega, by omega, ⟨by omega, hX, by omega, hY⟩, ⟨?_, ?_, ?_, ?_⟩⟩
    · exact a1
    · exact a2
    · exact b1
    · exact b2
  · intro col row col2 row2 hc0 hc hr0 hr hd0 hd hs0 hs hne x y hxy
    obtain ⟨⟨p1, p2, p3, p4⟩, ⟨q1, q2, q3, q4⟩⟩ := hxy
    obtain ⟨hmin, _, hx2, _, hy2⟩ := hrect col row hc0 hc hr0 hr
    obtain ⟨hmin2, _, hx4, _, hy4⟩ := hrect col2 row2 hd0 hd hs0 hs
    have m1 : (rect col row).Min.X = col * bw := by rw [hmin]
    have m2 : (rect col row).Min.Y = row * bh := by rw [hmin]
    have m3 : (rect col2 row2).Min.X = col2 * bw := by rw [hmin2]
    have m4 : (rect col2 row2).Min.Y = row2 * bh := by rw [hmin2]
    rcases hne with hne | hne
    · rcases Int.lt_or_gt_of_ne hne with hlt | hgt
      · have := hord col col2 bw hbw hlt
        omega
      · have := hord col2 col bw hbw hgt
        omega
    · rcases Int.lt_or_gt_of_ne hne with hlt | hgt
      · have := hord row row2 bh hbh hlt
        omega
      · have := hord row2 row bh hbh hgt
        omega
  · intro x y hxy
    obtain ⟨hx0, hxW, hy0, hyH⟩ := hxy
    simp only at hx0 hxW hy0 hyH
    obtain ⟨c1, c2, c3, c4⟩ := hquot x bw W ba hbw hba2 hx0 hxW
    obtain ⟨r1, r2, r3, r4⟩ := hquot y bh H bd hbh hbd2 hy0 hyH
    obtain ⟨hmin, hx1, _, hy1, _⟩ := hrect (x / bw) (y / bh) c1 c2 r1 r2
    have m1 : (rect (x / bw) (y / bh)).Min.X = x / bw * bw := by rw [hmin]
    have m2 : (rect (x / bw) (y / bh)).Min.Y = y / bh * bh := by rw [hmin]
    refine ⟨x / bw, y / bh, c1, c2, r1, r2, by omega, ?_, by omega, ?_⟩
    · rcases min_le_iff.mp hx1 with h | h <;> omega
    · rcases min_le_iff.mp hy1 with h | h <;> omega


/-- The partition properties of `BlockBounds`, from the form of the rectangle of every
in-range block. -/
theorem BlockBounds_partition_of_form (t : TagGetter) (W H bw bh bd : Int)
    (rect : Int → Int → Rectangle) (hWpos : 0 < W) (hHpos : 0 < H)
    (hbw : 0 < bw) (hbh : 0 < bh) (hbd : BlocksDown t = .ok bd)
    (hba1 : (BlocksAcross t - 1) * bw < W) (hba2 : W ≤ BlocksAcross t * bw)
    (hbd1 : (bd - 1) * bh < H) (hbd2 : H ≤ bd * bh)
    (hform : ∀ col row, 0 ≤ col → col < BlocksAcross t → 0 ≤ row → row < bd →
      BlockBounds t col row = .ok (rect col row))
    (hrect : ∀ col row, 0 ≤ col → col < BlocksAcross t → 0 ≤ row → row < bd →
      (rect col row).Min = ⟨col * bw, row * bh⟩ ∧
      min ((col + 1) * bw) W ≤ (rect col row).Max.X ∧
      (rect col row).Max.X ≤ (col + 1) * bw ∧
      min ((row + 1) * bh) H ≤ (rect col row).Max.Y ∧
      (rect col row).Max.Y ≤ (row + 1) * bh) :
    0 < BlocksAcross t ∧ 0 < bd ∧
    (∀ col row, ∃ rc, BlockBounds t col row = .ok rc) ∧
    (∀ col row rc, 0 ≤ col → col < BlocksAcross t → 0 ≤ row → row < bd →
      BlockBounds t col row = .ok rc →
      rc.Min.X < rc.Max.X ∧ rc.Min.Y < rc.Max.Y ∧
      ∃ x y, inRect x y rc ∧ inRect x y ⟨⟨0, 0⟩, ⟨W, H⟩⟩) ∧
    (∀ col row col2 row2 rc rc2, 0 ≤ col → col < BlocksAcross t → 0 ≤ row → row < bd →
      0 ≤ col2 → col2 < BlocksAcross t → 0 ≤ row2 → row2 < bd →
      (col ≠ col2 ∨ row ≠ row2) →
      BlockBounds t col row = .ok rc → BlockBounds t col2 row2 = .ok rc2 →
      ∀ x y, ¬ (inRect x y rc ∧ inRect x y rc2)) ∧
    (∀ x y, inRect x y ⟨⟨0, 0⟩, ⟨W, H⟩⟩ →
      ∃ col row rc, 0 ≤ col ∧ col < BlocksAcross t ∧ 0 ≤ row ∧ row < bd ∧
        BlockBounds t col row = .ok rc ∧ inRect x y rc) := by
  obtain ⟨g1, g2, g3⟩ := grid_partition W H bw bh (BlocksAcross t) bd rect hbw hbh
    hba1 hba2 hbd1 hbd2 hrect
  have hba : 0 < BlocksAcross t := by
    by_contra hle
    have := Int.mul_le_mul_of_nonneg_right (by omega : BlocksAcross t ≤ 0)
      (by omega : (0 : Int) ≤ bw)
    omega
  have hbdpos : 0 < bd := by
    by_contra hle
    have := Int.mul_le_mul_of_nonneg_right (by omega : bd ≤ 0) (by omega : (0 : Int) ≤ bh)
    omega
  refine ⟨hba, hbdpos, ?_, ?_, ?_, ?_⟩
  · intro col row
    by_cases hin : col < 0 ∨ row < 0 ∨ col ≥ BlocksAcross t ∨ row ≥ bd
    · exact ⟨_, BlockBounds_outside t bd col row hbd hin⟩
    · exact ⟨_, hform col row (by omega) (by omega) (by omega) (by omega)⟩
  · intro col row rc hc0 hc hr0 hr hrc
    rw [hform col row hc0 hc hr0 hr] at hrc
    injection hrc with hrc
    subst hrc
    obtain ⟨a, b, c, d⟩ := g1 col row hc0 hc hr0 hr
    exact ⟨a, b, _, _, c, d⟩
  · intro col row col2 row2 rc rc2 hc0 hc hr0 hr hd0 hd hs0 hs hne hrc hrc2
    rw [hform col row hc0 hc hr0 hr] at hrc
    rw [hform col2 row2 hd0 hd hs0 hs] at hrc2
    injection hrc with hrc
    injection hrc2 with hrc2
    subst hrc hrc2
    exact g2 col row col2 row2 hc0 hc hr0 hr hd0 hd hs0 hs hne
  · intro x y hxy
    obtain ⟨col, row, hc0, hc, hr0, hr, hin⟩ := g3 x y hxy
    exact ⟨col, row, _, hc0, hc, hr0, hr, hform col row hc0 hc hr0 hr, hin⟩


/-- Where the sums of the ceilings fit an `int64`, block bounds partition the image.  For
a directory with width `W > 0` and height `H > 0` that is strip-organized (no tile tags,
rows per strip not negative, `2*H - 1` an `int64`) or tiled with tile width and tile
length present and positive (`W + tw - 1` and `H + th - 1` being `int64`): `BlocksDown`
and `BlockBounds` return for every `(col,row)`, there is at least one block, and the
rectangles of the in-range blocks are non-empty, each meets the image rectangle
`[0,W) x [0,H)`, two different blocks share no point, and every point of the image lies
in a block; for strips every block lies inside the image. -/
theorem block_bounds_partition_fits (t : TagGetter) (W H : Int)
    (hW : t.ImageWidth = some W) (hH : t.ImageLength = some H)
    (hWpos : 0 < W) (hHpos : 0 < H)
    (horg : (t.TileWidth = none ∧ t.TileLength = none ∧
        (∀ r, t.RowsPerStrip = some r → 0 ≤ r) ∧
        W < 9223372036854775808 ∧ H + H - 1 < 9223372036854775808) ∨
      ∃ tw th, t.TileWidth = some tw ∧ t.TileLength = some th ∧ 0 < tw ∧ 0 < th ∧
        W + tw - 1 < 9223372036854775808 ∧ H + th - 1 < 9223372036854775808) :
    ∃ bd, BlocksDown t = .ok bd ∧ 0 < BlocksAcross t ∧ 0 < bd ∧
      (∀ col row, ∃ rc, BlockBounds t col row = .ok rc) ∧
      (∀ col row rc, 0 ≤ col → col < BlocksAcross t → 0 ≤ row → row < bd →
        BlockBounds t col row = .ok rc →
        rc.Min.X < rc.Max.X ∧ rc.Min.Y < rc.Max.Y ∧
        ∃ x y, inRect x y rc ∧ inRect x y ⟨⟨0, 0⟩, ⟨W, H⟩⟩) ∧
      (∀ col row col2 row2 rc rc2, 0 ≤ col → col < BlocksAcross t → 0 ≤ row → row < bd →
        0 ≤ col2 → col2 < BlocksAcross t → 0 ≤ row2 → row2 < bd →
        (col ≠ col2 ∨ row ≠ row2) →
        BlockBounds t col row = .ok rc → BlockBounds t col2 row2 = .ok rc2 →
        ∀ x y, ¬ (inRect x y rc ∧ inRect x y rc2)) ∧
      (∀ x y, inRect x y ⟨⟨0, 0⟩, ⟨W, H⟩⟩ →
        ∃ col row rc, 0 ≤ col ∧ col < BlocksAcross t ∧ 0 ≤ row ∧ row < bd ∧
          BlockBounds t col row = .ok rc ∧ inRect x y rc) ∧
      (t.TileWidth = none →
        ∀ col row rc, 0 ≤ col → col < BlocksAcross t → 0 ≤ row → row < bd →
          BlockBounds t col row = .ok rc →
          ∀ x y, inRect x y rc → inRect x y ⟨⟨0, 0⟩, ⟨W, H⟩⟩) := by
  have hW1 : t.GetImageWidth.1 = W := by simp [TagGetter.GetImageWidth, getInt, hW]
  have hH1 : t.GetImageLength.1 = H := by simp [TagGetter.GetImageLength, getInt, hH]
  rcases horg with ⟨hTW, hTL, hR, hWr, hHo⟩ | ⟨tw, th, hTW, hTL, htw, hth, hWo, hHo⟩
  · -- strips
    have hR1 : 0 ≤ t.GetRowsPerStrip.1 := by
      cases hr : t.RowsPerStrip with
      | none => simp [TagGetter.GetRowsPerStrip, getInt, hr]
      | some r => simpa [TagGetter.GetRowsPerStrip, getInt, hr] using hR r hr
    obtain ⟨hbd, hpos, hle⟩ := BlocksDown_strip t hTL (by omega) hR1
    simp only [hH1] at hbd hle
    have hba := BlocksAcross_strip t hTW (by omega)
    obtain ⟨hc1, hc2⟩ := ceilDiv_spec H (effectiveStripHeight t) (by omega) hpos
    obtain ⟨b1, b2⟩ := (tdiv_between (H + effectiveStripHeight t - 1)
      (effectiveStripHeight t) hpos).1 (by omega)
    rw [goInt_of_range (H + effectiveStripHeight t - 1) (by omega) (by omega),
      goInt_of_range _ (by omega) (by omega)] at hbd
    obtain ⟨bd, hbd', hstrip⟩ := BlockBounds_strip t W H hTW hTL hW hH hWpos hHpos hWr
      (by omega) hR
    have hbdeq : bd = (H + effectiveStripHeight t - 1).tdiv (effectiveStripHeight t) := by
      rw [hbd] at hbd'
      injection hbd' with h
      exact h.symm
    subst hbdeq
    have hform : ∀ col row, 0 ≤ col → col < BlocksAcross t → 0 ≤ row →
        row < (H + effectiveStripHeight t - 1).tdiv (effectiveStripHeight t) →
        BlockBounds t col row = .ok ⟨⟨col * W, row * effectiveStripHeight t⟩,
          ⟨(col + 1) * W, min ((row + 1) * effectiveStripHeight t) H⟩⟩ := by
      intro col row hc0 hc hr0 hr
      rw [hba] at hc
      have hcol : col = 0 := by omega
      subst hcol
      rw [(hstrip row hr0 hr).1]
      simp
    have hpart := BlockBounds_partition_of_form t W H W (effectiveStripHeight t) _
      (fun col row => ⟨⟨col * W, row * effectiveStripHeight t⟩,
        ⟨(col + 1) * W, min ((row + 1) * effectiveStripHeight t) H⟩⟩)
      hWpos hHpos hWpos hpos hbd (by rw [hba]; omega) (by rw [hba]; omega) hc1 hc2 hform
      (by
        intro col row _ _ _ _
        exact ⟨rfl, min_le_left _ _, le_refl _, le_refl _, min_le_left _ _⟩)
    obtain ⟨p1, p2, p3, p4, p5, p6⟩ := hpart
    refine ⟨_, hbd, p1, p2, p3, p4, p5, p6, ?_⟩
    intro _ col row rc hc0 hc hr0 hr hrc x y hxy
    rw [hform col row hc0 hc hr0 hr] at hrc
    injection hrc with hrc
    subst hrc
    rw [hba] at hc
    have hcol : col = 0 := by omega
    subst hcol
    obtain ⟨q1, q2, q3, q4⟩ := hxy
    simp only [zero_mul, zero_add, one_mul] at q1 q2 q3 q4
    have hrow : 0 ≤ row * effectiveStripHeight t := Int.mul_nonneg hr0 (by omega)
    have := min_le_right ((row + 1) * effectiveStripHeight t) H
    exact ⟨q1, q2, by simp only; omega, by simp only; omega⟩
  · -- tiles
    have hWne : W ≠ 0 := by omega
    have hHne : H ≠ 0 := by omega
    have h1 : t.GetTileWidth.1 = tw := by simp [TagGetter.GetTileWidth, getInt, hTW]
    have h2 : t.GetTileLength.1 = th := by simp [TagGetter.GetTileLength, getInt, hTL]
    have hba : BlocksAcross t = (W + tw - 1).tdiv tw := by
      simp only [BlocksAcross, hW1, if_neg hWne, h1, gt_iff_lt, if_pos htw]
      rw [goInt_of_range _ (by omega) hWo]
    have hbd : BlocksDown t = .ok ((H + th - 1).tdiv th) := by
      simp only [BlocksDown, hH1, if_neg hHne, h2, gt_iff_lt, if_pos hth]
      rw [goInt_of_range _ (by omega) hHo]
    obtain ⟨a1, a2⟩ := ceilDiv_spec W tw (by omega) htw
    obtain ⟨b1, b2⟩ := ceilDiv_spec H th (by omega) hth
    have hpart := BlockBounds_partition_of_form t W H tw th _
      (fun col row => ⟨⟨col * tw, row * th⟩, ⟨(col + 1) * tw, (row + 1) * th⟩⟩)
      hWpos hHpos htw hth hbd (by rw [hba]; exact a1) (by rw [hba]; exact a2) b1 b2
      (fun col row hc0 hc hr0 hr => BlockBounds_tile t tw th _ col row hTW hTL htw hth
        ⟨by omega, by omega⟩ ⟨by omega, by omega⟩ (by rw [hW1]; exact ⟨by omega, by omega⟩)
        (by rw [hH1]; exact ⟨by omega, by omega⟩) hbd hc0 hc hr0 hr)
      (by
        intro col row _ _ _ _
        exact ⟨rfl, min_le_left _ _, le_refl _, min_le_left _ _, le_refl _⟩)
    obtain ⟨p1, p2, p3, p4, p5, p6⟩ := hpart
    refine ⟨_, hbd, p1, p2, p3, p4, p5, p6, ?_⟩
    intro hnone
    rw [hTW] at hnone
    exact absurd hnone (by simp)

/-- C24, evaluated at inputs where the code departs from the claim.  The tiled image of
9223372036854775807 x 1 pixels in tiles of 2 x 1 and the strip-organized image of
1 x 9223372036854775807 pixels have positive dimensions, but the block count of the
code is not positive (the `int64` sum of the ceiling wraps): no block is in range,
`BlockBounds` is the zero rectangle for every `(col,row)`, and the pixel `(0,0)` of the
image lies in no block. -/
theorem block_bounds_miss_image :
    (wideDir.ImageWidth = some 9223372036854775807 ∧ wideDir.ImageLength = some 1 ∧
      wideDir.TileWidth = some 2 ∧ wideDir.TileLength = some 1 ∧
      BlocksAcross wideDir = -4611686018427387904 ∧ BlocksDown wideDir = .ok 1 ∧
      ∀ col row, BlockBounds wideDir col row = .ok ⟨⟨0, 0⟩, ⟨0, 0⟩⟩) ∧
    (tallDir.ImageWidth = some 1 ∧ tallDir.ImageLength = some 9223372036854775807 ∧
      tallDir.TileWidth = none ∧ tallDir.TileLength = none ∧
      BlocksAcross tallDir = 1 ∧ BlocksDown tallDir = .ok 0 ∧
      ∀ col row, BlockBounds tallDir col row = .ok ⟨⟨0, 0⟩, ⟨0, 0⟩⟩) := by
  have h1 : BlocksAcross wideDir = -4611686018427387904 := by decide
  have h2 : BlocksDown wideDir = .ok 1 := by decide
  have h3 : BlocksDown tallDir = .ok 0 := by decide
  refine ⟨⟨rfl, rfl, rfl, rfl, h1, h2, ?_⟩, ⟨rfl, rfl, rfl, rfl, by decide, h3, ?_⟩⟩
  · intro col row
    apply BlockBounds_outside wideDir 1 col row h2
    rw [h1]
    omega
  · intro col row
    apply BlockBounds_outside tallDir 0 col row h3
    omega

/-! ### What `decodeBlock` writes for gray images -/

theorem loopCount_step_one (lo hi : Int) : loopCount lo hi 1 = (hi - lo).toNat := by
  unfold loopCount
  by_cases h : lo < hi
  · rw [if_pos h]
    simp
  · rw [if_neg h]
    omega

/-- A read of `d` bits inside the buffer succeeds, moves the position by `d` and
returns a value below `2^d`. -/
theorem ReadBits_ok (buf : List Nat) (pos d : Nat) (h : pos + d ≤ 8 * buf.length) :
    (BitsReader.mk buf pos).ReadBits d
      = (BitsReader.mk buf (pos + d), ((BitsReader.mk buf pos).ReadBits d).2.1, true) ∧
    ((BitsReader.mk buf pos).ReadBits d).2.1 < 2 ^ d := by
  have hn : ¬ (pos + d > 8 * buf.length) := by omega
  simp only [BitsReader.ReadBits, if_neg hn, true_and]
  exact Nat.mod_lt _ (Nat.pow_pos (by decide))

theorem pixels_next {τ : Type} (f : Flow (List Nat × τ)) (Q : List Nat → Prop)
    (h : ∃ s1, f = .next s1 ∧ Q s1.1) : ∃ pix1, f.pixels = .next pix1 ∧ Q pix1 := by
  obtain ⟨s1, h1, h2⟩ := h
  exact ⟨s1.1, by rw [h1]; rfl, h2⟩

/-- One row of a branch that reads a sample of `d` bits per pixel and stores one byte
`val pos` for the sample at bit position `pos`: `n` pixels are stored from
`Pix[base + xmin]` on. -/
theorem bits_row (d : Nat) (buf : List Nat) (val : Nat → Nat)
    (body : Int → List Nat × BitsReader → Flow (List Nat × BitsReader))
    (base xmin : Int) (pix : List Nat) (pos0 n : Nat)
    (F : Flow (List Nat × BitsReader))
    (heq : forInt body n xmin 1 (pix, BitsReader.mk buf pos0) = F)
    (hbody : ∀ (x : Int) (p1 : List Nat) (pos : Nat), xmin ≤ x → x < xmin + n →
      pos + d ≤ 8 * buf.length →
      body x (p1, BitsReader.mk buf pos)
        = stepPix (p1, BitsReader.mk buf pos) (BitsReader.mk buf (pos + d))
            (setPixs p1 (base + x) [val pos]))
    (hmin : 0 < n → 0 ≤ base + xmin) (hlen : 0 < n → base + xmin + n ≤ pix.length)
    (hbuf : pos0 + n * d ≤ 8 * buf.length) :
    ∃ pix1, F = .next (pix1, BitsReader.mk buf (pos0 + n * d)) ∧
      pix1.length = pix.length ∧
      ∀ j : Nat, pix1.getD j 0
        = if base + xmin ≤ j ∧ (j : Int) < base + xmin + n then
            val (pos0 + ((j : Int) - (base + xmin)).toNat * d)
          else pix.getD j 0 := by
  obtain ⟨s1, hs1, hinv⟩ := forInt_next
    (fun k (s : List Nat × BitsReader) => s.2 = BitsReader.mk buf (pos0 + k * d) ∧
      s.1.length = pix.length ∧
      ∀ j : Nat, s.1.getD j 0
        = if base + xmin ≤ j ∧ (j : Int) < base + xmin + k then
            val (pos0 + ((j : Int) - (base + xmin)).toNat * d)
          else pix.getD j 0)
    body n xmin 1 (pix, BitsReader.mk buf pos0)
    (by
      refine ⟨by simp, rfl, ?_⟩
      intro j
      have : ¬ (base + xmin ≤ j ∧ (j : Int) < base + xmin + ((0 : Nat) : Int)) := by
        simp only [Nat.cast_zero, add_zero]; omega
      rw [if_neg this])
    (by
      intro k hk s hs
      obtain ⟨p1, rd⟩ := s
      obtain ⟨hrd, hl, hv⟩ := hs
      simp only at hrd hl hv
      subst hrd
      have hkn : (k : Int) + 1 ≤ n := by exact_mod_cast hk
      have hn0 : 0 < n := by omega
      have h1 := hmin hn0
      have h2 := hlen hn0
      have hkd : (k + 1) * d ≤ n * d := Nat.mul_le_mul_right d hk
      rw [Nat.add_mul, Nat.one_mul] at hkd
      obtain ⟨p2, hp2, hl2, hv2⟩ := setPixs_ok [val (pos0 + k * d)] p1
        (base + (xmin + (k : Int) * 1)) (by omega)
        (by simp only [List.length_cons, List.length_nil]; push_cast; omega)
      refine ⟨(p2, BitsReader.mk buf (pos0 + k * d + d)), ?_, ?_, ?_, ?_⟩
      · rw [hbody _ _ _ (by omega) (by omega) (by omega), hp2]
        rfl
      · simp only [Nat.add_mul, Nat.one_mul, Nat.add_assoc]
      · simp only [hl2, hl]
      · intro j
        simp only
        rw [hv2 j]
        simp only [List.length_cons, List.length_nil]
        push_cast
        by_cases hj : base + (xmin + (k : Int) * 1) ≤ j ∧
            (j : Int) < base + (xmin + (k : Int) * 1) + 1
        · rw [if_pos hj]
          have c1 : base + xmin ≤ j ∧ (j : Int) < base + xmin + (k + 1) := by omega
          have c2 : ((j : Int) - (base + (xmin + (k : Int) * 1))).toNat = 0 := by omega
          have c3 : ((j : Int) - (base + xmin)).toNat = k := by omega
          rw [if_pos c1, c2, c3]
          rfl
        · rw [if_neg hj, hv j]
          by_cases hj2 : base + xmin ≤ j ∧ (j : Int) < base + xmin + k
          · have c1 : base + xmin ≤ j ∧ (j : Int) < base + xmin + (k + 1) := by omega
            rw [if_pos hj2, if_pos c1]
          · have c1 : ¬ (base + xmin ≤ j ∧ (j : Int) < base + xmin + (k + 1)) := by omega
            rw [if_neg hj2, if_neg c1])
  obtain ⟨p1, rd⟩ := s1
  obtain ⟨hrd, hl, hv⟩ := hinv
  simp only at hrd hl hv
  subst hrd
  exact ⟨p1, by rw [← heq, hs1], hl, hv⟩

/-- The gray branch of the depths 1 to 15 on a `Gray` buffer of `W x H` pixels with rows
of `W` bytes and a source buffer that holds every row the loop reads: no error, and the
pixel `(x,y)` of the clipped rectangle holds the rescaled sample that the bit reader
returns at bit `(y-ymin)*rowBits + (x-xmin)*d`, where `rowBits` is the number of bits of
a row of clipped pixels, up to the byte boundary. -/
theorem decodeBlockGray_correct (d : Nat) (invert : Bool) (buf : List Nat) (img : Image)
    (W H xmin ymin X Y : Int) (hd1 : 1 ≤ d) (hd15 : d ≤ 15)
    (hrect : img.Rect = ⟨⟨0, 0⟩, ⟨W, H⟩⟩) (hstride : img.Stride = W)
    (hlen : (img.Pix.length : Int) = W * H)
    (hx : 0 ≤ xmin) (hy : 0 ≤ ymin) (hXW : X ≤ W) (hYH : Y ≤ H)
    (hbuf : (Y - ymin).toNat * (((X - xmin).toNat * d + 7) / 8 * 8) ≤ 8 * buf.length) :
    ∃ pix1, decodeBlockGray d invert buf img xmin ymin X Y = .next pix1 ∧
      pix1.length = img.Pix.length ∧
      ∀ x y : Int, xmin ≤ x → x < X → ymin ≤ y → y < Y →
        (y - ymin).toNat * (((X - xmin).toNat * d + 7) / 8 * 8) + (x - xmin).toNat * d + d
          ≤ 8 * buf.length ∧
        pix1.getD (img.PixOffset 1 x y).toNat 0
          = (fun v => if invert = true then 255 - v * 255 / (2 ^ d - 1)
              else v * 255 / (2 ^ d - 1))
            ((BitsReader.mk buf ((y - ymin).toNat * (((X - xmin).toNat * d + 7) / 8 * 8)
              + (x - xmin).toNat * d)).ReadBits d).2.1 := by
  have hpo : ∀ x y : Int, img.PixOffset 1 x y = y * W + x := by
    intro x y
    simp only [Image.PixOffset, hrect, hstride, sub_zero, mul_one]
  generalize hcw : (X - xmin).toNat = cw at hbuf ⊢
  generalize hrb : (cw * d + 7) / 8 * 8 = rb at hbuf ⊢
  have hrb1 : cw * d ≤ rb := by omega
  have hrb8 : rb % 8 = 0 := by omega
  -- every read of the clipped rectangle lies inside the buffer
  have hpos : ∀ x y : Int, xmin ≤ x → x < X → ymin ≤ y → y < Y →
      (y - ymin).toNat * rb + (x - xmin).toNat * d + d ≤ 8 * buf.length := by
    intro x y hx1 hx2 hy1 hy2
    have e1 : ((x - xmin).toNat + 1) * d ≤ cw * d := Nat.mul_le_mul_right d (by omega)
    have e2 : ((y - ymin).toNat + 1) * rb ≤ (Y - ymin).toNat * rb :=
      Nat.mul_le_mul_right rb (by omega)
    rw [Nat.add_mul, Nat.one_mul] at e1 e2
    omega
  simp only [hpo]
  unfold decodeBlockGray
  apply pixels_next
  rw [loopCount_step_one ymin Y]
  refine forInt_next_apply
    (fun m (s : List Nat × BitsReader) => s.2 = BitsReader.mk buf (m * rb) ∧
      s.1.length = img.Pix.length ∧
      ∀ x y : Int, xmin ≤ x → x < X → ymin ≤ y → y < ymin + m →
        s.1.getD (y * W + x).toNat 0
          = (fun v => if invert = true then 255 - v * 255 / (2 ^ d - 1)
              else v * 255 / (2 ^ d - 1))
            ((BitsReader.mk buf ((y - ymin).toNat * rb + (x - xmin).toNat * d)).ReadBits d).2.1)
    _ _ _ _ _ _
    ⟨by simp [newBitsReader], rfl,
      by intro x y _ _ h1 h2; simp only [Nat.cast_zero, add_zero] at h2; omega⟩
    ?_ ?_
  · intro m hm s hinv
    obtain ⟨p0, rd⟩ := s
    obtain ⟨hrd, hl, hv⟩ := hinv
    simp only at hrd hl hv
    subst hrd
    have hmY : ymin + (m : Int) * 1 < Y := by omega
    have hlenHW : (img.Pix.length : Int) = H * W := by rw [hlen]; ring
    have eA : xmin < X → 0 ≤ W ∧ 0 ≤ (ymin + (m : Int) * 1) * W ∧
        (ymin + (m : Int) * 1) * W + W ≤ H * W := by
      intro h
      have hW : 0 ≤ W := by omega
      have e1 : (ymin + (m : Int) * 1 + 1) * W ≤ H * W :=
        Int.mul_le_mul_of_nonneg_right (by omega) hW
      rw [add_mul _ 1 W, one_mul] at e1
      exact ⟨hW, Int.mul_nonneg (by omega) hW, e1⟩
    have hrow : m * rb + cw * d ≤ 8 * buf.length := by
      have e2 : (m + 1) * rb ≤ (Y - ymin).toNat * rb := Nat.mul_le_mul_right rb (by omega)
      rw [Nat.add_mul, Nat.one_mul] at e2
      omega
    rw [loopCount_step_one xmin X, hcw]
    have hbody : ∀ (x : Int) (p1 : List Nat) (pos : Nat), xmin ≤ x → x < xmin + cw →
        pos + d ≤ 8 * buf.length →
        (match (BitsReader.mk buf pos).ReadBits d with
          | (_, _, false) => Flow.ret (p1, BitsReader.mk buf pos) errBlockData
          | (rd, v, true) =>
            match grayValue invert ((2 ^ d - 1) % 2 ^ 32) v with
            | .ok g => stepPix (p1, BitsReader.mk buf pos) rd
                (setAt img p1 x (ymin + (m : Int) * 1) [g])
            | _ => .panic)
          = stepPix (p1, BitsReader.mk buf pos) (BitsReader.mk buf (pos + d))
              (setPixs p1 ((ymin + (m : Int) * 1) * W + x)
                [(fun v => if invert = true then 255 - v * 255 / (2 ^ d - 1)
                    else v * 255 / (2 ^ d - 1)) ((BitsReader.mk buf pos).ReadBits d).2.1]) := by
      intro x p1 pos hx1 hx2 hp
      obtain ⟨hR, hlt⟩ := ReadBits_ok buf pos d hp
      generalize ((BitsReader.mk buf pos).ReadBits d).2.1 = v at hR hlt ⊢
      rw [hR]
      simp only
      have hvle : v ≤ 2 ^ d - 1 := by omega
      obtain ⟨_, _, g3, g4⟩ := grayValue_eq d v hd1 hd15 hvle
      have hp : pointIn x (ymin + (m : Int) * 1) img.Rect = true := by
        simp only [pointIn, hrect, decide_eq_true_eq]
        omega
      cases invert with
      | false =>
        rw [g3]
        simp only [setAt, hp, Bool.not_true, Bool.false_eq_true, if_false,
          List.length_singleton, Nat.cast_one, hpo]
      | true =>
        rw [g4]
        simp only [setAt, hp, Bool.not_true, Bool.false_eq_true, if_false,
          List.length_singleton, Nat.cast_one, hpo, if_true]
    split
    · rename_i s1 heq
      obtain ⟨pix1, hF, hl1, hv1⟩ := bits_row d buf _ _ ((ymin + (m : Int) * 1) * W) xmin p0
        (m * rb) cw _ heq hbody (by intro h; have := eA (by omega); omega)
        (by intro h; have := eA (by omega); omega) hrow
      injection hF with hF
      subst hF
      refine ⟨_, rfl, ?_, ?_, ?_⟩
      · simp only [BitsReader.flushBits, BitsReader.mk.injEq, true_and]
        rw [Nat.add_mul, Nat.one_mul]
        have hq : m * rb % 8 = 0 := by
          rw [Nat.mul_mod, hrb8]
          simp
        omega
      · simp only [hl1, hl]
      · intro x y hx1 hx2 hy1 hy2
        obtain ⟨hW, eA0, eA1⟩ := eA (by omega)
        have hyW : 0 ≤ y * W := Int.mul_nonneg (by omega) hW
        simp only
        rw [hv1]
        by_cases hrow2 : y = ymin + (m : Int) * 1
        · subst hrow2
          have c1 : (ymin + (m : Int) * 1) * W + xmin
                ≤ (((ymin + (m : Int) * 1) * W + x).toNat : Nat) ∧
              ((((ymin + (m : Int) * 1) * W + x).toNat : Nat) : Int)
                < (ymin + (m : Int) * 1) * W + xmin + cw := by omega
          rw [if_pos c1]
          have c2 : (ymin + (m : Int) * 1 - ymin).toNat = m := by omega
          have c3 : (((((ymin + (m : Int) * 1) * W + x).toNat : Nat) : Int)
              - ((ymin + (m : Int) * 1) * W + xmin)).toNat = (x - xmin).toNat := by omega
          rw [c2, c3]
        · have hlt : y + 1 ≤ ymin + (m : Int) * 1 := by push_cast at hy2; omega
          have e1 : (y + 1) * W ≤ (ymin + (m : Int) * 1) * W :=
            Int.mul_le_mul_of_nonneg_right hlt hW
          rw [add_mul y 1 W, one_mul] at e1
          have c1 : ¬ ((ymin + (m : Int) * 1) * W + xmin ≤ (((y * W + x).toNat : Nat) : Int) ∧
              (((y * W + x).toNat : Nat) : Int)
                < (ymin + (m : Int) * 1) * W + xmin + cw) := by omega
          rw [if_neg c1]
          exact hv x y hx1 hx2 hy1 (by omega)
    · rename_i s1 e heq
      obtain ⟨pix1, hF, _, _⟩ := bits_row d buf _ _ ((ymin + (m : Int) * 1) * W) xmin p0
        (m * rb) cw _ heq hbody (by intro h; have := eA (by omega); omega)
        (by intro h; have := eA (by omega); omega) hrow
      cases hF
    · rename_i heq
      obtain ⟨pix1, hF, _, _⟩ := bits_row d buf _ _ ((ymin + (m : Int) * 1) * W) xmin p0
        (m * rb) cw _ heq hbody (by intro h; have := eA (by omega); omega)
        (by intro h; have := eA (by omega); omega) hrow
      cases hF
  · intro s1 hinv
    obtain ⟨_, hl1, hv1⟩ := hinv
    refine ⟨hl1, ?_⟩
    intro x y hx1 hx2 hy1 hy2
    exact ⟨hpos x y hx1 hx2 hy1 hy2, hv1 x y hx1 hx2 hy1 (by omega)⟩

/-- One row of a 16-bit branch that reads two bytes per pixel and stores the two bytes
`val off` for the sample at byte `off`: `n` pixels are stored from `Pix[base + 2*xmin]`
on. -/
theorem u16_row_apply (buf : List Nat) (val : Nat → List Nat)
    (hval : ∀ off, (val off).length = 2)
    (body : Int → List Nat × Nat → Flow (List Nat × Nat))
    (base xmin : Int) (pix : List Nat) (off0 n : Nat)
    (hbody : ∀ (x : Int) (p1 : List Nat) (off : Nat), xmin ≤ x → x < xmin + n →
      off + 2 ≤ buf.length →
      body x (p1, off) = stepPix (p1, off) (off + 2) (setPixs p1 (base + 2 * x) (val off)))
    (hmin : 0 < n → 0 ≤ base + 2 * xmin)
    (hlen : 0 < n → base + 2 * xmin + 2 * n ≤ pix.length)
    (hbuf : off0 + 2 * n ≤ buf.length) (Q : List Nat × Nat → Prop)
    (hQ : ∀ pix1 : List Nat, pix1.length = pix.length →
      (∀ j : Nat, pix1.getD j 0
        = if base + 2 * xmin ≤ j ∧ (j : Int) < base + 2 * xmin + 2 * n then
            (val (off0 + 2 * (((j : Int) - (base + 2 * xmin)) / 2).toNat)).getD
              (((j : Int) - (base + 2 * xmin)) % 2).toNat 0
          else pix.getD j 0) → Q (pix1, off0 + 2 * n)) :
    ∃ s1, forInt body n xmin 1 (pix, off0) = .next s1 ∧ Q s1 := by
  obtain ⟨s1, hs1, hinv⟩ := forInt_next
    (fun k (s : List Nat × Nat) => s.2 = off0 + 2 * k ∧ s.1.length = pix.length ∧
      ∀ j : Nat, s.1.getD j 0
        = if base + 2 * xmin ≤ j ∧ (j : Int) < base + 2 * xmin + 2 * k then
            (val (off0 + 2 * (((j : Int) - (base + 2 * xmin)) / 2).toNat)).getD
              (((j : Int) - (base + 2 * xmin)) % 2).toNat 0
          else pix.getD j 0)
    body n xmin 1 (pix, off0)
    (by
      refine ⟨by simp, rfl, ?_⟩
      intro j
      have : ¬ (base + 2 * xmin ≤ j ∧ (j : Int) < base + 2 * xmin + 2 * ((0 : Nat) : Int)) := by
        simp only [Nat.cast_zero, mul_zero, add_zero]; omega
      rw [if_neg this])
    (by
      intro k hk s hs
      obtain ⟨p1, off⟩ := s
      obtain ⟨ho, hl, hv⟩ := hs
      simp only at ho hl hv
      subst ho
      have hkn : (k : Int) + 1 ≤ n := by exact_mod_cast hk
      have hn0 : 0 < n := by omega
      have h1 := hmin hn0
      have h2 := hlen hn0
      obtain ⟨p2, hp2, hl2, hv2⟩ := setPixs_ok (val (off0 + 2 * k)) p1
        (base + 2 * (xmin + (k : Int) * 1)) (by omega)
        (by rw [hval]; push_cast; omega)
      refine ⟨(p2, off0 + 2 * k + 2), ?_, ?_, ?_, ?_⟩
      · rw [hbody _ _ _ (by omega) (by omega) (by omega), hp2]
        rfl
      · simp only; omega
      · simp only [hl2, hl]
      · intro j
        simp only
        rw [hv2 j, hval]
        push_cast
        by_cases hj : base + 2 * (xmin + (k : Int) * 1) ≤ j ∧
            (j : Int) < base + 2 * (xmin + (k : Int) * 1) + 2
        · rw [if_pos hj]
          have c1 : base + 2 * xmin ≤ j ∧ (j : Int) < base + 2 * xmin + 2 * (k + 1) := by omega
          have c2 : (((j : Int) - (base + 2 * xmin)) / 2).toNat = k := by omega
          have c3 : (((j : Int) - (base + 2 * xmin)) % 2).toNat
              = ((j : Int) - (base + 2 * (xmin + (k : Int) * 1))).toNat := by omega
          rw [if_pos c1, c2, c3]
        · rw [if_neg hj, hv j]
          by_cases hj2 : base + 2 * xmin ≤ j ∧ (j : Int) < base + 2 * xmin + 2 * k
          · have c1 : base + 2 * xmin ≤ j ∧ (j : Int) < base + 2 * xmin + 2 * (k + 1) := by
              omega
            rw [if_pos hj2, if_pos c1]
          · have c1 : ¬ (base + 2 * xmin ≤ j ∧ (j : Int) < base + 2 * xmin + 2 * (k + 1)) := by
              omega
            rw [if_neg hj2, if_neg c1])
  obtain ⟨p1, o1⟩ := s1
  obtain ⟨ho, hl, hv⟩ := hinv
  simp only at ho hl hv
  subst ho
  exact ⟨_, hs1, hQ p1 hl hv⟩

/-- The 16-bit gray branch on a `Gray16` buffer of `W x H` pixels with rows of `2*W`
bytes and a source buffer that holds two bytes for every pixel of the clipped
rectangle: no error, and the pixel `(x,y)` holds, high byte first, the 16-bit sample read
at byte `2*((y-ymin)*cw + (x-xmin))` (`cw` the clipped width), complemented to `0xffff`
for `GrayInvert`. -/
theorem decodeBlockGray16_correct (o : ByteOrder) (invert : Bool) (buf : List Nat)
    (img : Image) (W H xmin ymin X Y : Int)
    (hrect : img.Rect = ⟨⟨0, 0⟩, ⟨W, H⟩⟩) (hstride : img.Stride = 2 * W)
    (hlen : (img.Pix.length : Int) = 2 * W * H)
    (hx : 0 ≤ xmin) (hy : 0 ≤ ymin) (hXW : X ≤ W) (hYH : Y ≤ H)
    (hbuf : 2 * ((Y - ymin).toNat * (X - xmin).toNat) ≤ buf.length) :
    ∃ pix1, decodeBlockGray16 o invert buf img xmin ymin X Y = .next pix1 ∧
      pix1.length = img.Pix.length ∧
      ∀ (x y : Int) (k : Nat), xmin ≤ x → x < X → ymin ≤ y → y < Y → k < 2 →
        2 * ((y - ymin).toNat * (X - xmin).toNat + (x - xmin).toNat) + 2 ≤ buf.length ∧
        pix1.getD (img.PixOffset 2 x y + k).toNat 0
          = (be16 (gray16Value invert (readU16 o buf
              (2 * ((y - ymin).toNat * (X - xmin).toNat + (x - xmin).toNat))))).getD k 0 := by
  have hpo : ∀ x y : Int, img.PixOffset 2 x y = 2 * (y * W) + 2 * x := by
    intro x y
    simp only [Image.PixOffset, hrect, hstride, sub_zero]
    ring
  generalize hcw : (X - xmin).toNat = cw at hbuf ⊢
  have hpos : ∀ x y : Int, xmin ≤ x → x < X → ymin ≤ y → y < Y →
      2 * ((y - ymin).toNat * cw + (x - xmin).toNat) + 2 ≤ buf.length := by
    intro x y hx1 hx2 hy1 hy2
    have e2 : ((y - ymin).toNat + 1) * cw ≤ (Y - ymin).toNat * cw :=
      Nat.mul_le_mul_right cw (by omega)
    rw [Nat.add_mul, Nat.one_mul] at e2
    omega
  simp only [hpo]
  unfold decodeBlockGray16
  apply pixels_next
  rw [loopCount_step_one ymin Y]
  refine forInt_next_apply
    (fun m (s : List Nat × Nat) => s.2 = 2 * (m * cw) ∧
      s.1.length = img.Pix.length ∧
      ∀ (x y : Int) (k : Nat), xmin ≤ x → x < X → ymin ≤ y → y < ymin + m → k < 2 →
        s.1.getD (2 * (y * W) + 2 * x + k).toNat 0
          = (be16 (gray16Value invert (readU16 o buf
              (2 * ((y - ymin).toNat * cw + (x - xmin).toNat))))).getD k 0)
    _ _ _ _ _ _
    ⟨by simp, rfl,
      by intro x y k _ _ h1 h2; simp only [Nat.cast_zero, add_zero] at h2; omega⟩
    ?_ ?_
  · intro m hm s hinv
    obtain ⟨p0, off⟩ := s
    obtain ⟨ho, hl, hv⟩ := hinv
    simp only at ho hl hv
    subst ho
    have hmY : ymin + (m : Int) * 1 < Y := by omega
    have hlenHW : (img.Pix.length : Int) = 2 * (H * W) := by rw [hlen]; ring
    have eA : xmin < X → 0 ≤ W ∧ 0 ≤ (ymin + (m : Int) * 1) * W ∧
        (ymin + (m : Int) * 1) * W + W ≤ H * W := by
      intro h
      have hW : 0 ≤ W := by omega
      have e1 : (ymin + (m : Int) * 1 + 1) * W ≤ H * W :=
        Int.mul_le_mul_of_nonneg_right (by omega) hW
      rw [add_mul _ 1 W, one_mul] at e1
      exact ⟨hW, Int.mul_nonneg (by omega) hW, e1⟩
    have hrow : 2 * (m * cw) + 2 * cw ≤ buf.length := by
      have e2 : (m + 1) * cw ≤ (Y - ymin).toNat * cw := Nat.mul_le_mul_right cw (by omega)
      rw [Nat.add_mul, Nat.one_mul] at e2
      omega
    rw [loopCount_step_one xmin X, hcw]
    refine u16_row_apply buf
      (fun off => be16 (gray16Value invert (readU16 o buf off))) (fun _ => rfl) _
      (2 * ((ymin + (m : Int) * 1) * W)) xmin p0 (2 * (m * cw)) cw ?_
      (by intro h; have := eA (by omega); omega)
      (by intro h; have := eA (by omega); omega) hrow _ ?_
    · intro x p1 off hx1 hx2 hoff
      have hg : ¬ (off + 2 > buf.length) := by omega
      have hp : pointIn x (ymin + (m : Int) * 1) img.Rect = true := by
        simp only [pointIn, hrect, decide_eq_true_eq]
        omega
      have hl2 : (((be16 (gray16Value invert (readU16 o buf off))).length : Nat) : Int) = 2 :=
        rfl
      simp only [if_neg hg, setAt, hp, Bool.not_true, Bool.false_eq_true, if_false, hl2, hpo]
    · intro pix1 hl1 hv1
      refine ⟨by simp only; rw [Nat.add_mul, Nat.one_mul]; omega, by simp only [hl1, hl], ?_⟩
      intro x y k hx1 hx2 hy1 hy2 hk
      obtain ⟨hW, eA0, eA1⟩ := eA (by omega)
      have hyW : 0 ≤ y * W := Int.mul_nonneg (by omega) hW
      simp only
      rw [hv1]
      by_cases hrow2 : y = ymin + (m : Int) * 1
      · subst hrow2
        have c1 : 2 * ((ymin + (m : Int) * 1) * W) + 2 * xmin
              ≤ (((2 * ((ymin + (m : Int) * 1) * W) + 2 * x + (k : Int)).toNat : Nat) : Int) ∧
            (((2 * ((ymin + (m : Int) * 1) * W) + 2 * x + (k : Int)).toNat : Nat) : Int)
              < 2 * ((ymin + (m : Int) * 1) * W) + 2 * xmin + 2 * cw := by omega
        rw [if_pos c1]
        have c2 : (ymin + (m : Int) * 1 - ymin).toNat = m := by omega
        have c3 : (((((2 * ((ymin + (m : Int) * 1) * W) + 2 * x + (k : Int)).toNat : Nat) : Int)
            - (2 * ((ymin + (m : Int) * 1) * W) + 2 * xmin)) / 2).toNat
              = (x - xmin).toNat := by omega
        have c4 : (((((2 * ((ymin + (m : Int) * 1) * W) + 2 * x + (k : Int)).toNat : Nat) : Int)
            - (2 * ((ymin + (m : Int) * 1) * W) + 2 * xmin)) % 2).toNat = k := by omega
        rw [c2, c3, c4]
        congr 3
        ring
      · have hlt : y + 1 ≤ ymin + (m : Int) * 1 := by push_cast at hy2; omega
        have e1 : (y + 1) * W ≤ (ymin + (m : Int) * 1) * W :=
          Int.mul_le_mul_of_nonneg_right hlt hW
        rw [add_mul y 1 W, one_mul] at e1
        have c1 : ¬ (2 * ((ymin + (m : Int) * 1) * W) + 2 * xmin
              ≤ (((2 * (y * W) + 2 * x + (k : Int)).toNat : Nat) : Int) ∧
            (((2 * (y * W) + 2 * x + (k : Int)).toNat : Nat) : Int)
              < 2 * ((ymin + (m : Int) * 1) * W) + 2 * xmin + 2 * cw) := by omega
        rw [if_neg c1]
        exact hv x y k hx1 hx2 hy1 (by omega) hk
  · intro s1 hinv
    obtain ⟨_, hl1, hv1⟩ := hinv
    refine ⟨hl1, ?_⟩
    intro x y k hx1 hx2 hy1 hy2 hk
    exact ⟨hpos x y hx1 hx2 hy1 hy2, hv1 x y k hx1 hx2 hy1 (by omega) hk⟩

/-- C17: gray rescaling, as `decodeBlock` writes it.  For a `Gray` or `GrayInvert`
directory with the bounds `(0,0)..(W,H)`, a destination buffer with these bounds and a
block rectangle with non-negative origin:

* at a depth `d` from 1 to 15 (outside the G3/G4 branch), with a `Gray` buffer as
  `image.NewGray` allocates it and a source buffer that holds every row of the block,
  `decodeBlock` returns nil, and for every pixel `(x,y)` of the clipped rectangle the
  sample `v` read for it lies inside the buffer and is at most `2^d - 1`, the 32-bit
  product `v * 0xff` does not overflow, and the byte written is `v*255 / (2^d - 1)`,
  at most 255 (`255 - v*255 / (2^d - 1)` for `GrayInvert`): 0 for `v = 0`, 255 for
  `v = 2^d - 1` (0 for `GrayInvert`), `v` itself at depth 8, and monotone in `v`;
* at depth 16, with a `Gray16` buffer as `image.NewGray16` allocates it and a source
  buffer of two bytes per pixel of the block, `decodeBlock` returns nil and the pixel
  written is the sample `v` for `Gray` and `0xFFFF - v` for `GrayInvert` (high byte
  first). -/
theorem gray_rescaling (p : IFD) (buf : List Nat) (dst : Image) (r : Rectangle) (W H : Int)
    (hty : p.imageType = .Gray ∨ p.imageType = .GrayInvert)
    (hb : p.bounds = ⟨⟨0, 0⟩, ⟨W, H⟩⟩) (hrect : dst.Rect = p.bounds)
    (hx : 0 ≤ r.Min.X) (hy : 0 ≤ r.Min.Y) :
    (1 ≤ p.depth → p.depth ≤ 15 →
      ¬ (p.depth = 1 ∧ (p.compression = TagValue_CompressionType_G3 ∨
        p.compression = TagValue_CompressionType_G4)) →
      dst.kind = .Gray → dst.Stride = W → (dst.Pix.length : Int) = W * H →
      (r.Max.Y - r.Min.Y).toNat * (((r.Max.X - r.Min.X).toNat * p.depth + 7) / 8)
        ≤ buf.length →
      ∃ dst1, decodeBlock p buf dst r = .next dst1 ∧
        dst1.kind = .Gray ∧ dst1.Stride = dst.Stride ∧ dst1.Rect = dst.Rect ∧
        dst1.Pix.length = dst.Pix.length ∧
        (∀ x y : Int, inRect x y r → inRect x y dst.Rect →
          grayBitPos p dst r x y + p.depth ≤ 8 * buf.length ∧
          graySample p buf dst r x y ≤ 2 ^ p.depth - 1 ∧
          graySample p buf dst r x y * 0xff < 2 ^ 32 ∧
          graySample p buf dst r x y * 255 / (2 ^ p.depth - 1) ≤ 255 ∧
          (p.imageType = .Gray →
            dst1.pixelByte x y 0 = graySample p buf dst r x y * 255 / (2 ^ p.depth - 1)) ∧
          (p.imageType = .GrayInvert →
            dst1.pixelByte x y 0
              = 255 - graySample p buf dst r x y * 255 / (2 ^ p.depth - 1)) ∧
          (p.imageType = .Gray → graySample p buf dst r x y = 0 →
            dst1.pixelByte x y 0 = 0) ∧
          (p.imageType = .Gray → graySample p buf dst r x y = 2 ^ p.depth - 1 →
            dst1.pixelByte x y 0 = 255) ∧
          (p.imageType = .Gray → p.depth = 8 →
            dst1.pixelByte x y 0 = graySample p buf dst r x y) ∧
          (p.imageType = .GrayInvert → graySample p buf dst r x y = 2 ^ p.depth - 1 →
            dst1.pixelByte x y 0 = 0)) ∧
        (∀ x y x2 y2 : Int, inRect x y r → inRect x y dst.Rect →
          inRect x2 y2 r → inRect x2 y2 dst.Rect → p.imageType = .Gray →
          graySample p buf dst r x y ≤ graySample p buf dst r x2 y2 →
          dst1.pixelByte x y 0 ≤ dst1.pixelByte x2 y2 0)) ∧
    (p.depth = 16 → dst.kind = .Gray16 → dst.Stride = 2 * W →
      (dst.Pix.length : Int) = 2 * W * H →
      2 * ((r.Max.Y - r.Min.Y).toNat * (r.Max.X - r.Min.X).toNat) ≤ buf.length →
      ∃ dst1, decodeBlock p buf dst r = .next dst1 ∧
        dst1.kind = .Gray16 ∧ dst1.Stride = dst.Stride ∧ dst1.Rect = dst.Rect ∧
        dst1.Pix.length = dst.Pix.length ∧
        ∀ x y : Int, inRect x y r → inRect x y dst.Rect →
          gray16Offset p dst r x y + 2 ≤ buf.length ∧
          (p.imageType = .Gray →
            dst1.pixelByte x y 0 = gray16Sample p buf dst r x y / 256 % 256 ∧
            dst1.pixelByte x y 1 = gray16Sample p buf dst r x y % 256) ∧
          (p.imageType = .GrayInvert →
            dst1.pixelByte x y 0 = (0xffff - gray16Sample p buf dst r x y) / 256 % 256 ∧
            dst1.pixelByte x y 1 = (0xffff - gray16Sample p buf dst r x y) % 256)) := by
  have hrect2 : dst.Rect = ⟨⟨0, 0⟩, ⟨W, H⟩⟩ := by rw [hrect, hb]
  have hXW : clipMaxX p dst r ≤ W := by rw [clipMaxX, hb]; exact minInt_le_right _ _
  have hYH : clipMaxY p dst r ≤ H := by rw [clipMaxY, hb]; exact minInt_le_right _ _
  have hXr : clipMaxX p dst r ≤ r.Max.X := le_trans (minInt_le_left _ _) (minInt_le_left _ _)
  have hYr : clipMaxY p dst r ≤ r.Max.Y := le_trans (minInt_le_left _ _) (minInt_le_left _ _)
  have hclip : ∀ x y : Int, inRect x y r → inRect x y dst.Rect →
      r.Min.X ≤ x ∧ x < clipMaxX p dst r ∧ r.Min.Y ≤ y ∧ y < clipMaxY p dst r := by
    intro x y hr hdst
    obtain ⟨hx1, hx2, hy1, hy2⟩ := hr
    obtain ⟨hx3, hx4, hy3, hy4⟩ := hdst
    rw [hrect2] at hx3 hx4 hy3 hy4
    simp only at hx3 hx4 hy3 hy4
    refine ⟨hx1, ?_, hy1, ?_⟩
    · unfold clipMaxX
      rw [hrect2, hb]
      exact lt_minInt _ _ _ (lt_minInt _ _ _ hx2 hx4) hx4
    · unfold clipMaxY
      rw [hrect2, hb]
      exact lt_minInt _ _ _ (lt_minInt _ _ _ hy2 hy4) hy4
  constructor
  · intro hd1 hd15 hfax hkind hstride hlen hbuf
    have hbuf2 : (clipMaxY p dst r - r.Min.Y).toNat
        * (((clipMaxX p dst r - r.Min.X).toNat * p.depth + 7) / 8 * 8) ≤ 8 * buf.length := by
      have e1 : (clipMaxX p dst r - r.Min.X).toNat * p.depth
          ≤ (r.Max.X - r.Min.X).toNat * p.depth := Nat.mul_le_mul_right _ (by omega)
      have e2 : ((clipMaxX p dst r - r.Min.X).toNat * p.depth + 7) / 8
          ≤ ((r.Max.X - r.Min.X).toNat * p.depth + 7) / 8 :=
        Nat.div_le_div_right (by omega)
      have e3 : (clipMaxY p dst r - r.Min.Y).toNat
          * (((clipMaxX p dst r - r.Min.X).toNat * p.depth + 7) / 8)
          ≤ (r.Max.Y - r.Min.Y).toNat * (((r.Max.X - r.Min.X).toNat * p.depth + 7) / 8) :=
        Nat.mul_le_mul (by omega) e2
      have e4 : (clipMaxY p dst r - r.Min.Y).toNat
          * (((clipMaxX p dst r - r.Min.X).toNat * p.depth + 7) / 8 * 8)
          = 8 * ((clipMaxY p dst r - r.Min.Y).toNat
            * (((clipMaxX p dst r - r.Min.X).toNat * p.depth + 7) / 8)) := by ring
      rw [e4]
      omega
    obtain ⟨pix1, hp1, hl1, hv1⟩ := decodeBlockGray_correct p.depth
      (decide (p.imageType = .GrayInvert)) buf dst W H r.Min.X r.Min.Y
      (clipMaxX p dst r) (clipMaxY p dst r) hd1 hd15 hrect2 hstride hlen hx hy hXW hYH hbuf2
    have hd16 : ¬ p.depth = 16 := by omega
    have hk : ¬ dst.kind ≠ ImageKind.Gray := fun h => h hkind
    simp only [clipMaxX, clipMaxY] at hp1
    have hdec : decodeBlock p buf dst r = .next { dst with Pix := pix1 } := by
      rcases hty with h | h
      · simp only [h] at hp1
        simp only [decodeBlock, h, if_neg hfax, if_neg hd16, withKind, if_neg hk, hp1]
      · simp only [h] at hp1
        simp only [decodeBlock, h, if_neg hfax, if_neg hd16, withKind, if_neg hk, hp1]
    have hpb : ∀ x y : Int, Image.pixelByte { dst with Pix := pix1 } x y 0
        = pix1.getD (dst.PixOffset 1 x y).toNat 0 := by
      intro x y
      simp only [Image.pixelByte, hkind, ImageKind.bytesPerPixel, Image.PixOffset,
        Nat.cast_one, Nat.cast_zero, add_zero]
    have hpix : ∀ x y : Int, inRect x y r → inRect x y dst.Rect →
        grayBitPos p dst r x y + p.depth ≤ 8 * buf.length ∧
        graySample p buf dst r x y ≤ 2 ^ p.depth - 1 ∧
        Image.pixelByte { dst with Pix := pix1 } x y 0
          = if p.imageType = .GrayInvert
            then 255 - graySample p buf dst r x y * 255 / (2 ^ p.depth - 1)
            else graySample p buf dst r x y * 255 / (2 ^ p.depth - 1) := by
      intro x y hr hdst
      obtain ⟨c1, c2, c3, c4⟩ := hclip x y hr hdst
      obtain ⟨q1, q2⟩ := hv1 x y c1 c2 c3 c4
      have hlt := (ReadBits_ok buf (grayBitPos p dst r x y) p.depth q1).2
      refine ⟨q1, ?_, ?_⟩
      · unfold graySample
        omega
      · rw [hpb, q2]
        simp only [decide_eq_true_eq]
        rfl
    refine ⟨{ dst with Pix := pix1 }, hdec, hkind, rfl, rfl, hl1, ?_, ?_⟩
    · intro x y hr hdst
      obtain ⟨q1, q2, q3⟩ := hpix x y hr hdst
      obtain ⟨g1, g2, _, _⟩ := grayValue_eq p.depth _ hd1 hd15 q2
      obtain ⟨hm, hpos, hle⟩ := gray_max p.depth hd1 hd15
      refine ⟨q1, q2, g1, g2, ?_, ?_, ?_, ?_, ?_, ?_⟩
      · intro h
        have c : ¬ p.imageType = .GrayInvert := by rw [h]; decide
        rw [q3, if_neg c]
      · intro h
        rw [q3, if_pos h]
      · intro h h0
        have c : ¬ p.imageType = .GrayInvert := by rw [h]; decide
        rw [q3, if_neg c, h0]
        simp
      · intro h hmax
        have c : ¬ p.imageType = .GrayInvert := by rw [h]; decide
        rw [q3, if_neg c, hmax]
        exact Nat.mul_div_cancel_left 255 hpos
      · intro h h8
        have c : ¬ p.imageType = .GrayInvert := by rw [h]; decide
        rw [q3, if_neg c, h8]
        have e8 : (2 : Nat) ^ 8 - 1 = 255 := by norm_num
        rw [e8, Nat.mul_div_cancel _ (by norm_num)]
      · intro h hmax
        rw [q3, if_pos h, hmax, Nat.mul_div_cancel_left 255 hpos]
    · intro x y x2 y2 hr hdst hr2 hdst2 h hle
      have c : ¬ p.imageType = .GrayInvert := by rw [h]; decide
      rw [(hpix x y hr hdst).2.2, (hpix x2 y2 hr2 hdst2).2.2, if_neg c, if_neg c]
      exact Nat.div_le_div_right (Nat.mul_le_mul_right 255 hle)
  · intro hd16 hkind hstride hlen hbuf
    have hbuf2 : 2 * ((clipMaxY p dst r - r.Min.Y).toNat * (clipMaxX p dst r - r.Min.X).toNat)
        ≤ buf.length := by
      have e : (clipMaxY p dst r - r.Min.Y).toNat * (clipMaxX p dst r - r.Min.X).toNat
          ≤ (r.Max.Y - r.Min.Y).toNat * (r.Max.X - r.Min.X).toNat :=
        Nat.mul_le_mul (by omega) (by omega)
      omega
    obtain ⟨pix1, hp1, hl1, hv1⟩ := decodeBlockGray16_correct p.byteOrder
      (decide (p.imageType = .GrayInvert)) buf dst W H r.Min.X r.Min.Y
      (clipMaxX p dst r) (clipMaxY p dst r) hrect2 hstride hlen hx hy hXW hYH hbuf2
    have hfax : ¬ ((16 : Nat) = 1 ∧ (p.compression = TagValue_CompressionType_G3 ∨
        p.compression = TagValue_CompressionType_G4)) := by
      intro h
      exact absurd h.1 (by decide)
    have hk : ¬ dst.kind ≠ ImageKind.Gray16 := fun h => h hkind
    simp only [clipMaxX, clipMaxY] at hp1
    have hdec : decodeBlock p buf dst r = .next { dst with Pix := pix1 } := by
      rcases hty with h | h
      · simp only [h] at hp1
        simp only [decodeBlock, h, if_neg hfax, hd16, if_true, withKind, if_neg hk, hp1]
      · simp only [h] at hp1
        simp only [decodeBlock, h, if_neg hfax, hd16, if_true, withKind, if_neg hk, hp1]
    have hpb : ∀ (x y : Int) (k : Nat), Image.pixelByte { dst with Pix := pix1 } x y k
        = pix1.getD (dst.PixOffset 2 x y + k).toNat 0 := by
      intro x y k
      simp only [Image.pixelByte, hkind, ImageKind.bytesPerPixel, Image.PixOffset,
        Nat.cast_ofNat]
    refine ⟨{ dst with Pix := pix1 }, hdec, hkind, rfl, rfl, hl1, ?_⟩
    intro x y hr hdst
    obtain ⟨c1, c2, c3, c4⟩ := hclip x y hr hdst
    obtain ⟨q1, q2⟩ := hv1 x y 0 c1 c2 c3 c4 (by decide)
    obtain ⟨_, q3⟩ := hv1 x y 1 c1 c2 c3 c4 (by decide)
    refine ⟨q1, ?_, ?_⟩
    · intro h
      have c : ¬ p.imageType = .GrayInvert := by rw [h]; decide
      rw [hpb, hpb, q2, q3]
      simp only [c, decide_False, gray16Value, Bool.false_eq_true, if_false, be16]
      exact ⟨rfl, rfl⟩
    · intro h
      rw [hpb, hpb, q2, q3]
      simp only [h, decide_True, gray16Value, if_true, be16]
      exact ⟨rfl, rfl⟩

/-- Witness of C17: a 3 x 2 gray image at depth 4 (rows of three samples, padded to two
bytes), and a 3 x 2 inverted gray image at depth 16. -/
theorem gray_rescaling_witness :
    (∃ dst1, decodeBlock gray4Dir [159, 0, 18, 48] gray3x2 ⟨⟨0, 0⟩, ⟨3, 2⟩⟩ = .next dst1 ∧
      dst1.pixelByte 0 0 0 = 153 ∧ dst1.pixelByte 1 0 0 = 255 ∧ dst1.pixelByte 2 0 0 = 0 ∧
      dst1.pixelByte 2 1 0 = 51) ∧
    (∃ dst1, decodeBlock grayInvert16Dir [18, 52, 0, 0, 255, 255, 0, 1, 0, 2, 0, 3] gray16x3x2
        ⟨⟨0, 0⟩, ⟨3, 2⟩⟩ = .next dst1 ∧
      dst1.pixelByte 0 0 0 = 237 ∧ dst1.pixelByte 0 0 1 = 203 ∧
      dst1.pixelByte 2 0 0 = 0 ∧ dst1.pixelByte 2 0 1 = 0) := by
  constructor
  · obtain ⟨dst1, h1, _, _, _, _, hp, _⟩ :=
      (gray_rescaling gray4Dir [159, 0, 18, 48] gray3x2 ⟨⟨0, 0⟩, ⟨3, 2⟩⟩ 3 2 (Or.inl rfl) rfl rfl
        (by decide) (by decide)).1 (by decide) (by decide) (by decide) rfl rfl (by decide)
        (by decide)
    have a := (hp 0 0 (by decide) (by decide)).2.2.2.2.1 rfl
    have b := (hp 1 0 (by decide) (by decide)).2.2.2.2.1 rfl
    have c := (hp 2 0 (by decide) (by decide)).2.2.2.2.1 rfl
    have d := (hp 2 1 (by decide) (by decide)).2.2.2.2.1 rfl
    have sa : graySample gray4Dir [159, 0, 18, 48] gray3x2 ⟨⟨0, 0⟩, ⟨3, 2⟩⟩ 0 0 = 9 := by decide
    have sb : graySample gray4Dir [159, 0, 18, 48] gray3x2 ⟨⟨0, 0⟩, ⟨3, 2⟩⟩ 1 0 = 15 := by decide
    have sc : graySample gray4Dir [159, 0, 18, 48] gray3x2 ⟨⟨0, 0⟩, ⟨3, 2⟩⟩ 2 0 = 0 := by decide
    have sd : graySample gray4Dir [159, 0, 18, 48] gray3x2 ⟨⟨0, 0⟩, ⟨3, 2⟩⟩ 2 1 = 3 := by decide
    rw [sa] at a
    rw [sb] at b
    rw [sc] at c
    rw [sd] at d
    exact ⟨dst1, h1, a, b, c, d⟩
  · obtain ⟨dst1, h1, _, _, _, _, hp⟩ :=
      (gray_rescaling grayInvert16Dir [18, 52, 0, 0, 255, 255, 0, 1, 0, 2, 0, 3] gray16x3x2
        ⟨⟨0, 0⟩, ⟨3, 2⟩⟩ 3 2 (Or.inr rfl) rfl rfl (by decide) (by decide)).2 rfl rfl
        (by decide) (by decide) (by decide)
    have a := (hp 0 0 (by decide) (by decide)).2.2 rfl
    have c := (hp 2 0 (by decide) (by decide)).2.2 rfl
    have sa : gray16Sample grayInvert16Dir [18, 52, 0, 0, 255, 255, 0, 1, 0, 2, 0, 3]
        gray16x3x2 ⟨⟨0, 0⟩, ⟨3, 2⟩⟩ 0 0 = 4660 := by decide
    have sc : gray16Sample grayInvert16Dir [18, 52, 0, 0, 255, 255, 0, 1, 0, 2, 0, 3]
        gray16x3x2 ⟨⟨0, 0⟩, ⟨3, 2⟩⟩ 2 0 = 65535 := by decide
    rw [sa] at a
    rw [sc] at c
    exact ⟨dst1, h1, a.1, a.2, c.1, c.2⟩

end Tiff
